import Mathlib

/-!
# sha256files: a shallow embedding of `lib/base.hpp` and `lib/sha256.hpp`

The table of file types of `sha256files/sha256filesMain.cpp` is embedded as well.
Machine integers are natural numbers, or integers for the signed types, reduced
explicitly modulo `2 ^ w` where the C++ type wraps.  Pointers into an array are offsets from the start of that array.
Fixed-size C arrays are lists; a state is well formed when the lists have the
length of the arrays they stand for.
-/

namespace Sha256files

/-! ## base.hpp -/

/-- The template `min` of base.hpp: `a < b ? a : b`. -/
def min (a b : Nat) : Nat := if a < b then a else b

/-- The template `max` of base.hpp: `a > b ? a : b`. -/
def max (a b : Nat) : Nat := if a > b then a else b

/-- The function `narrow::to_u64`: the argument, an `i64`, is converted to `u64`, and
`max<u64>(a, 0)` is returned. -/
def narrow.to_u64 (a : Int) : Nat := max (a % 2 ^ 64).toNat 0

/-- The class `Span<T>` of base.hpp: the two bounds. The values of `T` are natural
numbers here: offsets of pointers, values of unsigned types and of characters. -/
structure Span where
  m_begin : Nat
  m_end : Nat
  deriving DecidableEq

/-- The constructor `Span(p_b, p_e)`: `m_begin(min(p_b, p_e)), m_end(max(p_b, p_e))`. -/
def Span.mk2 (p_b p_e : Nat) : Span := { m_begin := min p_b p_e, m_end := max p_b p_e }

/-- The method `Span::limit`: `max(begin(), min(i, end()))`. -/
def Span.limit (s : Span) (i : Nat) : Nat := max s.m_begin (min i s.m_end)

/-- The method `Span::conatins`: `c >= m_begin && c <= m_end`. -/
def Span.conatins (s : Span) (c : Nat) : Bool := decide (c ≥ s.m_begin) && decide (c ≤ s.m_end)

/-- The method `Span::count`: `narrow::to_u64(end() - begin())`. -/
def Span.count (s : Span) : Nat := narrow.to_u64 ((s.m_end : Int) - (s.m_begin : Int))

/-- The constant `cAllowdSpecCharOfFileName`, the characters of "-+.". -/
def cAllowdSpecCharOfFileName : List Nat := [45, 43, 46]

/-- The function `CheckFileNameChar`, the caller of `Span::conatins`: a character is
in `Span('A', 'Z')`, `Span('a', 'z')` or `Span('0', '9')`, or is an allowed special
character. Characters are their codes. -/
def CheckFileNameChar (c : Nat) (p_allows_special_chars : Bool) : Bool :=
  (Span.mk2 65 90).conatins c || (Span.mk2 97 122).conatins c || (Span.mk2 48 57).conatins c
    || (p_allows_special_chars && cAllowdSpecCharOfFileName.contains c)

/-- The class `Index<T>` of base.hpp with its base `Span<const T>`: the two bounds and
the current position.  For `ArrayIndex<T>` the three are offsets into the array. -/
structure Index where
  m_begin : Nat
  m_end : Nat
  m_current : Nat
  deriving DecidableEq

/-- The constructor `Index(p_b, p_e)`: the base `Span(p_b, p_e)` orders the bounds,
the position starts at `p_b`. -/
def Index.mk2 (p_b p_e : Nat) : Index :=
  { m_begin := min p_b p_e, m_end := max p_b p_e, m_current := p_b }

/-- The method `Span::limit`: `max(begin(), min(i, end()))`. -/
def Index.limit (x : Index) (i : Nat) : Nat := max x.m_begin (min i x.m_end)

/-- The method `Index::eof`: `m_current >= end()`. -/
def Index.eof (x : Index) : Bool := decide (x.m_current ≥ x.m_end)

/-- The method `Index::current`: `get_index()`, the clamped position. -/
def Index.current (x : Index) : Nat := x.limit x.m_current

/-- The method `Index::get_next`: returns `current()` and steps when not at the end. -/
def Index.get_next (x : Index) : Nat × Index :=
  let r := x.current
  (r, if !x.eof then { x with m_current := x.m_current + 1 } else x)

/-- The method `Index::resetIndex(p_index)`: `set_index(begin() + p_index)`; the sum
is taken in 64 bits. -/
def Index.resetIndex (x : Index) (p_index : Nat) : Index :=
  { x with m_current := x.limit ((x.m_begin + p_index) % 2 ^ 64) }

/-- The method `Index::move_index`: `if (!eof()) m_current = limit(m_current + add)`;
the sum is taken in 64 bits. -/
def Index.move_index (x : Index) (add : Nat) : Index :=
  if !x.eof then { x with m_current := x.limit ((x.m_current + add) % 2 ^ 64) } else x

/-- The class `ArraySpan<T>` of base.hpp, seen from the reader: the elements of
`[begin, end)` and the element stored at `end`, the first one behind the range. -/
structure ArraySpan where
  elems : List Nat
  spare : Nat
  deriving DecidableEq

/-- The method `Span::count`: `end() - begin()`. -/
def ArraySpan.count (a : ArraySpan) : Nat := a.elems.length

/-- The offset from `begin()` that `operator[]` addresses: `min<u64>(idx, count())`. -/
def ArraySpan.offset (a : ArraySpan) (idx : Nat) : Nat := min idx a.count

/-- The method `ArraySpan::operator[]`, as a read: `begin()[min<u64>(idx, count())]`. -/
def ArraySpan.get (a : ArraySpan) (idx : Nat) : Nat :=
  (a.elems ++ [a.spare]).getD (a.offset idx) 0

/-- The constant `ULLONG_MAX`, the default of the argument `end` of the constructor
`ArraySpan(p_a, start, end)`. -/
def ULLONG_MAX : Nat := 2 ^ 64 - 1

/-- The constructor `ArraySpan(p_a, start, end)`: the span of `&p_a[start]` and
`&p_a[end]`, both taken through `operator[]`; the bounds are offsets from
`p_a.begin()`. -/
def ArraySpan.sub (p_a : ArraySpan) (start e : Nat) : Span :=
  Span.mk2 (p_a.offset start) (p_a.offset e)

/-- The class `DArray<T>` inside a `DContainer<DArray<T>, T, SIZE>`: the cursor and the
array `m_array` of `SIZE + 1` elements the cursor points into. -/
structure DArray where
  idx : Index
  m_array : List Nat
  deriving DecidableEq

/-- The constant `DArray::CEOF`. -/
def DArray.CEOF : Nat := 0

/-- The constructor `DContainer<DArray<T>, T, SIZE>()`: a zeroed array of `SIZE + 1`
elements, `DArray(m_array)` spans `[&p_a[0], &p_a[SIZE + 1 - 1])`, and the last
element is set to `CEOF`. -/
def DArrayContainer (SIZE : Nat) : DArray :=
  { idx := Index.mk2 0 (SIZE + 1 - 1)
    m_array := (List.replicate (SIZE + 1) 0).set SIZE 0 }

/-- The method `DArray::putIn`: `*get_next() = c; *current() = CEOF`. -/
def DArray.putIn (d : DArray) (c : Nat) : DArray :=
  let (r, i) := d.idx.get_next
  let a := d.m_array.set r c
  { idx := i, m_array := a.set i.current DArray.CEOF }

/-- The method `DArray::streamIn`: `putIn` for every element of the range. -/
def DArray.streamIn (d : DArray) (v : ArraySpan) : DArray :=
  v.elems.foldl DArray.putIn d

/-- The function `memClean(ArraySpan)`: every element of `[b, e)` is set to 0. -/
def memClean (m_array : List Nat) (b e : Nat) : List Nat :=
  (List.range' b (e - b)).foldl (fun a i => a.set i 0) m_array

/-- The method `DArray::reset` (`streamReset`): `resetIndex()`, then
`memClean` over `[begin(), end())`. -/
def DArray.reset (d : DArray) : DArray :=
  { idx := d.idx.resetIndex 0
    m_array := memClean d.m_array (min d.idx.m_begin d.idx.m_end) (max d.idx.m_begin d.idx.m_end) }

/-- The method `DArray::reader`: the range `[begin(), current())`. -/
def DArray.reader (d : DArray) : ArraySpan :=
  let b := min d.idx.m_begin d.idx.current
  let e := max d.idx.m_begin d.idx.current
  { elems := (d.m_array.drop b).take (e - b), spare := d.m_array.getD e 0 }

/-- The method `DArray::update_contend_end`: `move_index(offset)`, then
`*current() = CEOF`; it returns `offset`. -/
def DArray.update_contend_end (d : DArray) (offset : Nat) : Nat × DArray :=
  let i := d.idx.move_index offset
  (offset, { idx := i, m_array := d.m_array.set i.current DArray.CEOF })

/-- The enumeration `Endianes`. -/
inductive Endianes where
  | Big
  | Little
  deriving DecidableEq

/-- The table `byteConsts<N>::shift`: `8 * (Little ? i : N - 1 - i)`. -/
def BytesOfScalar.shift (e : Endianes) (N i : Nat) : Nat :=
  8 * (match e with
    | Endianes.Little => i
    | Endianes.Big => N - 1 - i)

/-- The table `byteConsts<N>::mask`: `~((T)0xff << shift[i])` in a type of `N` bytes. -/
def BytesOfScalar.mask (e : Endianes) (N i : Nat) : Nat :=
  (2 ^ (8 * N) - 1) ^^^ ((0xff <<< BytesOfScalar.shift e N i) % 2 ^ (8 * N))

/-- The method `BytesOfScalar<T, E>::getByte` for a type of `N` bytes:
`0xff & (m_v >> shift[index % sizeof(T)])`. -/
def BytesOfScalar.getByte (e : Endianes) (N : Nat) (m_v index : Nat) : Nat :=
  0xff &&& (m_v >>> BytesOfScalar.shift e N (index % N))

/-- The method `BytesOfScalar<u32, E>::setByte`: the index is reduced modulo 4, the
byte position is cleared with the mask and the byte (a `u8`) is or-ed in. -/
def BytesOfScalar.setByte (e : Endianes) (byte index m_v : Nat) : Nat :=
  let index := index % 4
  let m_v := m_v &&& BytesOfScalar.mask e 4 index
  (m_v ||| ((byte % 256) <<< BytesOfScalar.shift e 4 index) % 2 ^ 32) % 2 ^ 32

/-- The conversion of an integer to `int`, of 32 bits. -/
def toI32 (x : Int) : Int := (x + 2 ^ 31) % 2 ^ 32 - 2 ^ 31

/-- The expression `byte << btc.shift[index]` of `setByte`, converted to the type
`T` of `N` bytes for `m_v |= ...`: the `u8` is promoted to `int`, the result is an
`int` of 32 bits, negative from `2 ^ 31` on, and the conversion to the unsigned `T`
extends its sign. From a shift of 32 on, and when the shifted value does not fit 32
bits, the language leaves the `int` open; the compiled code computes one all the same,
and `ub byte shift` stands for it, whatever it is. -/
def BytesOfScalar.shiftByte (ub : Nat → Nat → Int) (N byte shift : Nat) : Nat :=
  let i : Int :=
    if shift < 32 ∧ (byte % 256) * 2 ^ shift < 2 ^ 32 then
      let x : Nat := (byte % 256) * 2 ^ shift
      if x < 2 ^ 31 then (x : Int) else (x : Int) - 2 ^ 32
    else toI32 (ub (byte % 256) shift)
  (i % 2 ^ (8 * N)).toNat

/-- One way a compiler settles the shift that the language leaves open: the count is
taken modulo 32 and the bits that leave the 32 bits are lost, as the shift instruction
of x86 does on a register of 32 bits. -/
def shl_count_masked (byte shift : Nat) : Int := ((byte * 2 ^ (shift % 32) : Nat) : Int)

/-- The method `BytesOfScalar<T, E>::setByte` for a type `T` of `N` bytes, with `ub`
for the shifts that the language leaves open. -/
def BytesOfScalar.setByteN (ub : Nat → Nat → Int) (e : Endianes) (N byte index m_v : Nat) :
    Nat :=
  let index := index % N
  let m_v := m_v &&& BytesOfScalar.mask e N index
  (m_v ||| BytesOfScalar.shiftByte ub N byte (BytesOfScalar.shift e N index)) % 2 ^ (8 * N)

/-- The function `BytesOfScalar<T, E>::fromBytes` for a type `T` of `N` bytes:
`setByte(p_a[i], i)` for `i` from 0 to `N - 1` on a value that starts as 0. -/
def BytesOfScalar.fromBytes (ub : Nat → Nat → Int) (e : Endianes) (N : Nat)
    (p_a : List Nat) : Nat :=
  (List.range N).foldl
    (fun m_v i => BytesOfScalar.setByteN ub e N (p_a.getD i 0) (i % 256) m_v) 0

/-- The struct `ByteArrayOfScalar<T, E>` for a type of `N` bytes: an array of `N + 1`
bytes, every one of them set to `getByte(i)`, read through `Array`, which spans the
first `N` of them. -/
def ByteArrayOfScalar (e : Endianes) (N : Nat) (p_v : Nat) : ArraySpan :=
  let m_array := (List.range (N + 1)).map (fun i => BytesOfScalar.getByte e N p_v (i % 256))
  { elems := m_array.take N, spare := m_array.getD N 0 }

/-! ## sha256.hpp -/

/-- The class `Sha256`: its data members. -/
structure Sha256 where
  finished : Bool
  buffer_filled : Nat
  contendlen : Nat
  hs32 : List Nat
  payload_buffer_as32bit : List Nat
  m_hash : DArray
  deriving DecidableEq

namespace Sha256

/-- The constant `size_payload_buffer_as08bit`. -/
def size_payload_buffer_as08bit : Nat := 64

/-- The table `hs32init`. -/
def hs32init : List Nat :=
  [0x6a09e667, 0xbb67ae85, 0x3c6ef372, 0xa54ff53a, 0x510e527f, 0x9b05688c, 0x1f83d9ab, 0x5be0cd19]

/-- The table `k`. -/
def k : List Nat :=
  [0x428A2F98, 0x71374491, 0xB5C0FBCF, 0xE9B5DBA5, 0x3956C25B, 0x59F111F1, 0x923F82A4, 0xAB1C5ED5,
   0xD807AA98, 0x12835B01, 0x243185BE, 0x550C7DC3, 0x72BE5D74, 0x80DEB1FE, 0x9BDC06A7, 0xC19BF174,
   0xE49B69C1, 0xEFBE4786, 0x0FC19DC6, 0x240CA1CC, 0x2DE92C6F, 0x4A7484AA, 0x5CB0A9DC, 0x76F988DA,
   0x983E5152, 0xA831C66D, 0xB00327C8, 0xBF597FC7, 0xC6E00BF3, 0xD5A79147, 0x06CA6351, 0x14292967,
   0x27B70A85, 0x2E1B2138, 0x4D2C6DFC, 0x53380D13, 0x650A7354, 0x766A0ABB, 0x81C2C92E, 0x92722C85,
   0xA2BFE8A1, 0xA81A664B, 0xC24B8B70, 0xC76C51A3, 0xD192E819, 0xD6990624, 0xF40E3585, 0x106AA070,
   0x19A4C116, 0x1E376C08, 0x2748774C, 0x34B0BCB5, 0x391C0CB3, 0x4ED8AA4A, 0x5B9CCA4F, 0x682E6FF3,
   0x748F82EE, 0x78A5636F, 0x84C87814, 0x8CC70208, 0x90BEFFFA, 0xA4506CEB, 0xBEF9A3F7, 0xC67178F2]

/-- The function `rot_r` on `u32`: `(a >> b) | (a << (32 - b))`. -/
def rot_r (a b : Nat) : Nat := (a >>> b) ||| ((a <<< (32 - b)) % 2 ^ 32)

/-- The function `ch`: `(x & y) ^ (~x & z)`. -/
def ch (x y z : Nat) : Nat := (x &&& y) ^^^ ((0xffffffff ^^^ x) &&& z)

/-- The function `maj`: `(x & y) ^ (x & z) ^ (y & z)`. -/
def maj (x y z : Nat) : Nat := (x &&& y) ^^^ (x &&& z) ^^^ (y &&& z)

/-- The function `ep0`. -/
def ep0 (x : Nat) : Nat := rot_r x 2 ^^^ rot_r x 13 ^^^ rot_r x 22

/-- The function `ep1`. -/
def ep1 (x : Nat) : Nat := rot_r x 6 ^^^ rot_r x 11 ^^^ rot_r x 25

/-- The function `sig0`. -/
def sig0 (x : Nat) : Nat := rot_r x 7 ^^^ rot_r x 18 ^^^ (x >>> 3)

/-- The function `sig1`. -/
def sig1 (x : Nat) : Nat := rot_r x 17 ^^^ rot_r x 19 ^^^ (x >>> 10)

/-- The first loop of `process_buffer`, one pass: word `i` of the message schedule
from the words before it, modulo `2 ^ 32`. -/
def schedule_step (w : List Nat) (i : Nat) : List Nat :=
  w.set i ((sig1 (w.getD (i - 2) 0) + w.getD (i - 7) 0 + sig0 (w.getD (i - 15) 0)
    + w.getD (i - 16) 0) % 2 ^ 32)

/-- The eight working variables `a .. h` of `process_buffer`. -/
structure Vars where
  a : Nat
  b : Nat
  c : Nat
  d : Nat
  e : Nat
  f : Nat
  g : Nat
  h : Nat
  deriving DecidableEq

/-- The second loop of `process_buffer`, one pass, with `ki = k[i]` and `wi` the
message-schedule word `i`. -/
def round_step (v : Vars) (ki wi : Nat) : Vars :=
  let t1 := (v.h + ep1 v.e + ch v.e v.f v.g + ki + wi) % 2 ^ 32
  let t2 := (ep0 v.a + maj v.a v.b v.c) % 2 ^ 32
  { h := v.g, g := v.f, f := v.e, e := (v.d + t1) % 2 ^ 32,
    d := v.c, c := v.b, b := v.a, a := (t1 + t2) % 2 ^ 32 }

/-- The method `process_buffer`. -/
def process_buffer (s : Sha256) : Sha256 :=
  let w := (List.range' 16 48).foldl schedule_step s.payload_buffer_as32bit
  let hs := s.hs32
  let v0 : Vars :=
    { a := hs.getD 0 0, b := hs.getD 1 0, c := hs.getD 2 0, d := hs.getD 3 0,
      e := hs.getD 4 0, f := hs.getD 5 0, g := hs.getD 6 0, h := hs.getD 7 0 }
  let v := (List.range 64).foldl (fun v i => round_step v (k.getD i 0) (w.getD i 0)) v0
  { s with
    payload_buffer_as32bit := w
    hs32 := [(hs.getD 0 0 + v.a) % 2 ^ 32, (hs.getD 1 0 + v.b) % 2 ^ 32,
             (hs.getD 2 0 + v.c) % 2 ^ 32, (hs.getD 3 0 + v.d) % 2 ^ 32,
             (hs.getD 4 0 + v.e) % 2 ^ 32, (hs.getD 5 0 + v.f) % 2 ^ 32,
             (hs.getD 6 0 + v.g) % 2 ^ 32, (hs.getD 7 0 + v.h) % 2 ^ 32]
    buffer_filled := 0 }

/-- The method `payloadLen`: `contendlen + buffer_filled` in `u64`. -/
def payloadLen (s : Sha256) : Nat := (s.contendlen + s.buffer_filled) % 2 ^ 64

/-- The method `reset`. -/
def reset (s : Sha256) : Sha256 :=
  { s with
    finished := false
    contendlen := 0
    buffer_filled := 0
    m_hash := s.m_hash.reset
    hs32 := hs32init }

/-- The method `add_byte`; `++buffer_filled` wraps in `u8`, `contendlen +=` in `u64`. -/
def add_byte (s : Sha256) (b : Nat) : Sha256 :=
  let s := if s.finished then s.reset else s
  let s := { s with
    payload_buffer_as32bit :=
      s.payload_buffer_as32bit.set (s.buffer_filled / 4)
        (BytesOfScalar.setByte Endianes.Big b (s.buffer_filled % 4)
          (s.payload_buffer_as32bit.getD (s.buffer_filled / 4) 0)) }
  let s := { s with buffer_filled := (s.buffer_filled + 1) % 256 }
  if s.buffer_filled < size_payload_buffer_as08bit then s
  else
    let s := s.process_buffer
    { s with contendlen := (s.contendlen + size_payload_buffer_as08bit) % 2 ^ 64 }

/-- The loop of the fast path of `add_block`: every element of
`payload_buffer_as32bit` takes four bytes of the span, read at `buffer_filled++`. -/
def add_block_fill (p : ArraySpan) : List Nat → Nat → List Nat × Nat
  | [], bf => ([], bf)
  | a_32b :: rest, bf =>
    let a_32b := BytesOfScalar.setByte Endianes.Big (p.get bf) 0 a_32b
    let bf := (bf + 1) % 256
    let a_32b := BytesOfScalar.setByte Endianes.Big (p.get bf) 1 a_32b
    let bf := (bf + 1) % 256
    let a_32b := BytesOfScalar.setByte Endianes.Big (p.get bf) 2 a_32b
    let bf := (bf + 1) % 256
    let a_32b := BytesOfScalar.setByte Endianes.Big (p.get bf) 3 a_32b
    let bf := (bf + 1) % 256
    let r := add_block_fill p rest bf
    (a_32b :: r.1, r.2)

/-- The method `add_block`. -/
def add_block (s : Sha256) (p_a_08b : ArraySpan) : Sha256 :=
  let s := if s.finished then s.reset else s
  if s.buffer_filled = 0 ∧ p_a_08b.count = size_payload_buffer_as08bit then
    let r := add_block_fill p_a_08b s.payload_buffer_as32bit s.buffer_filled
    let s := { s with payload_buffer_as32bit := r.1, buffer_filled := r.2 }
    let s := s.process_buffer
    { s with contendlen := (s.contendlen + size_payload_buffer_as08bit) % 2 ^ 64 }
  else
    p_a_08b.elems.foldl add_byte s

/-- The conversion of an `int` to `i8`. -/
def toI8 (x : Int) : Int := (x + 128) % 256 - 128

/-- The loop `while (to_fill--) add_byte(0)` for a non-negative `to_fill`. -/
def pad_zeros : Nat → Sha256 → Sha256
  | 0, s => s
  | n + 1, s => pad_zeros n (s.add_byte 0)

/-- The method `padding_the_message_except_space`; the first argument bounds the depth
of the recursion, and `none` means that the bound was reached. -/
def padding_the_message_except_space : Nat → Nat → Sha256 → Option Sha256
  | 0, _, _ => none
  | fuel + 1, up_to_space, s =>
    let to_fill : Int :=
      toI8 ((size_payload_buffer_as08bit : Int) - (s.buffer_filled : Int) - (up_to_space : Int))
    if to_fill ≥ 0 then
      some (pad_zeros to_fill.toNat s)
    else
      match padding_the_message_except_space fuel 0 s with
      | none => none
      | some s1 => padding_the_message_except_space fuel up_to_space s1

/-- The method `finalize`; the first argument bounds the depth of the recursion of
`padding_the_message_except_space`. -/
def finalize (fuel : Nat) (s : Sha256) : Option Sha256 :=
  if !s.finished then
    let conten_bit_len := (s.payloadLen * 8) % 2 ^ 64
    let s := s.add_byte 0x80
    match padding_the_message_except_space fuel 8 s with
    | none => none
    | some s =>
      let s := (ByteArrayOfScalar Endianes.Big 8 conten_bit_len).elems.foldl add_byte s
      let s := { s with m_hash := s.m_hash.reset }
      let s := { s with
        m_hash := s.hs32.foldl
          (fun m st => m.streamIn (ByteArrayOfScalar Endianes.Big 4 st)) s.m_hash }
      some { s with finished := true }
  else some s

/-- The method `hash`: `finalize()`, then `m_hash.reader()`; the engine after the call
comes with the result. The range returned is a view of `m_hash`; it is given here by
what it holds at the return, and `hash_view` gives its bounds. -/
def hash (fuel : Nat) (s : Sha256) : Option (ArraySpan × Sha256) :=
  match finalize fuel s with
  | none => none
  | some s => some (s.m_hash.reader, s)

/-- The constructor `Sha256()`: the member initialisers, then `reset()`. -/
def new : Sha256 :=
  reset
    { finished := false
      buffer_filled := 0
      contendlen := 0
      hs32 := List.replicate 8 0
      payload_buffer_as32bit := List.replicate 64 0
      m_hash := DArrayContainer 32 }

end Sha256

/-! ## base.hpp and sha256.hpp: numbers and digests as text -/

/-- The conversion of an integer to `i64`. -/
def toI64 (x : Int) : Int := (x + 2 ^ 63) % 2 ^ 64 - 2 ^ 63

/-- The function `toDigit`: the character at `b & 0x0f` of "0123456789abcdef", as its
code. -/
def toDigit (b : Int) : Nat :=
  [48, 49, 50, 51, 52, 53, 54, 55, 56, 57, 97, 98, 99, 100, 101, 102].getD (b % 16).toNat 0

/-- The first loop of `Scalar::serialize`:
`for (i64 c = v; c >= BASIS; digits--, c /= BASIS) divisor *= BASIS;` with `divisor` an
`i64` and `digits` an `i8`. It returns `divisor` and `digits`; the first argument
bounds the number of passes, and `none` means that the bound was reached. -/
def Scalar.count_digits : Nat → Nat → Int → Int → Int → Option (Int × Int)
  | 0, _, _, _, _ => none
  | fuel + 1, BASIS, c, divisor, digits =>
    if c ≥ (BASIS : Int) then
      Scalar.count_digits fuel BASIS (Int.tdiv c (BASIS : Int)) (toI64 (divisor * (BASIS : Int)))
        (Sha256.toI8 (digits - 1))
    else some (divisor, digits)

/-- The second loop of `Scalar::serialize`: `while (--digits > 0) p_stream << SPACE;`. -/
def Scalar.put_spaces : Nat → Int → Nat → DArray → Option DArray
  | 0, _, _, _ => none
  | fuel + 1, digits, SPACE, p_stream =>
    let digits := Sha256.toI8 (digits - 1)
    if digits > 0 then Scalar.put_spaces fuel digits SPACE (p_stream.putIn SPACE)
    else some p_stream

/-- The third loop of `Scalar::serialize`: `for (; divisor > 0; divisor /= BASIS)` with
the body `c = toDigit(v / divisor); p_stream << c; v %= divisor;`. -/
def Scalar.put_digits : Nat → Nat → Int → Int → DArray → Option DArray
  | 0, _, _, _, _ => none
  | fuel + 1, BASIS, divisor, v, p_stream =>
    if divisor > 0 then
      Scalar.put_digits fuel BASIS (Int.tdiv divisor (BASIS : Int)) (Int.tmod v divisor)
        (p_stream.putIn (toDigit (Int.tdiv v divisor)))
    else some p_stream

/-- The method `Scalar<DIGITS, BASIS, SPACE>::serialize` on the value `m_v`, an `i64`;
the first argument bounds the number of passes of each of its loops. The character
'-' has the code 45. -/
def Scalar.serialize (fuel DIGITS BASIS SPACE : Nat) (m_v : Int) (p_stream : DArray) :
    Option DArray :=
  let v : Int := if m_v < 0 then toI64 (m_v * -1) else m_v
  let p_stream := if m_v < 0 then p_stream.putIn 45 else p_stream
  match Scalar.count_digits fuel BASIS v 1 (Sha256.toI8 (DIGITS : Int)) with
  | none => none
  | some (divisor, digits) =>
    match Scalar.put_spaces fuel digits SPACE p_stream with
    | none => none
    | some p_stream => Scalar.put_digits fuel BASIS divisor v p_stream

/-- The loop of the function `serialize<T, BASIS, DELEMITER>` over the elements of
`p_src`, with the variable `sendingDelemiter`: the delimiter is sent when
`sendingDelemiter` is not 0, else `sendingDelemiter` becomes `DELEMITER`; then the
element is sent as `Hex<sizeof(T) * 2>`, which is `Scalar<sizeof(T) * 2, 16, '0'>`. -/
def serialize_loop (fuel sizeofT DELEMITER : Nat) : Nat → DArray → List Nat → Option DArray
  | _, p_stream, [] => some p_stream
  | sendingDelemiter, p_stream, hb :: rest =>
    let p_stream := if sendingDelemiter ≠ 0 then p_stream.putIn DELEMITER else p_stream
    let sendingDelemiter := if sendingDelemiter ≠ 0 then sendingDelemiter else DELEMITER
    match Scalar.serialize fuel ((sizeofT * 2) % 256) 16 48 (hb : Int) p_stream with
    | none => none
    | some p_stream => serialize_loop fuel sizeofT DELEMITER sendingDelemiter p_stream rest

/-- The function `serialize<T, BASIS, DELEMITER>(p_stream, p_src)` for a type `T` of
`sizeofT` bytes; it does not use `BASIS`. -/
def serialize (fuel sizeofT _BASIS DELEMITER : Nat) (p_stream : DArray) (p_src : ArraySpan) :
    Option DArray :=
  serialize_loop fuel sizeofT DELEMITER 0 p_stream p_src.elems

/-- The operator `<<` of a `DArray<char>` and a `Sha256`:
`serialize<u8, 16, 0>(p_s, m_sha.hash())`; the engine after the call comes with the
result. -/
def operator_shl_Sha256 (fuel : Nat) (p_s : DArray) (m_sha : Sha256) :
    Option (DArray × Sha256) :=
  match Sha256.hash fuel m_sha with
  | none => none
  | some r =>
    match serialize fuel 1 16 0 p_s r.1 with
    | none => none
    | some p_s => some (p_s, r.2)

/-! ## base.hpp and sha256filesMain.cpp: tables of pairs -/

/-- The struct `Pair<T1, T2>`. -/
structure Pair (T1 T2 : Type) where
  key : T1
  value : T2

/-- The constructor `Array(T(&p_a)[SIZE])`: the span of `&p_a[0]` and `&p_a[SIZE] - 1`;
the bounds are offsets into `p_a`. -/
def Array.span (SIZE : Nat) : Span := Span.mk2 0 (SIZE - 1)

/-- The struct `KeyPairs<T1, T2>`: the C array `p_a` its base `CArray` was constructed
over, and the default pair. -/
structure KeyPairs (T1 T2 : Type) where
  p_a : List (Pair T1 T2)
  m_default : Pair T1 T2

/-- The elements that a range-based `for` over a `KeyPairs` passes: those of `p_a`
from `begin()` to `end()` of the span of its `Array`. -/
def KeyPairs.elems {T1 T2 : Type} (t : KeyPairs T1 T2) : List (Pair T1 T2) :=
  (t.p_a.drop (Array.span t.p_a.length).m_begin).take
    ((Array.span t.p_a.length).m_end - (Array.span t.p_a.length).m_begin)

/-- The loop of `KeyPairs::valueOf`: the value of the first element with the key, or
`d` behind the loop. -/
def KeyPairs.valueOf_loop {T1 T2 : Type} [DecidableEq T1] : List (Pair T1 T2) → T1 → T2 → T2
  | [], _, d => d
  | e :: rest, key, d => if e.key = key then e.value else KeyPairs.valueOf_loop rest key d

/-- The method `KeyPairs::valueOf`. -/
def KeyPairs.valueOf {T1 T2 : Type} [DecidableEq T1] (t : KeyPairs T1 T2) (key : T1) : T2 :=
  KeyPairs.valueOf_loop t.elems key t.m_default.value

/-- The enumeration `FileType` of sha256filesMain.cpp (under POSIX these names are
constants of dirent.h, different from each other as well). -/
inductive FileType where
  | DT_UNKNOWN
  | DT_FIFO
  | DT_LNK
  | DT_CHR
  | DT_DIR
  | DT_BLK
  | DT_REG
  | DT_SOCK
  | DT_WHT
  deriving DecidableEq

/-- The constant `cFIFO`. -/
def cFIFO : String := "FIFO"

/-- The constant `cLNK`. -/
def cLNK : String := "LNK "

/-- The constant `cCHR`. -/
def cCHR : String := "CHR "

/-- The constant `cDIR`. -/
def cDIR : String := "DIR "

/-- The constant `cBLK`. -/
def cBLK : String := "BLK "

/-- The constant `cFILE`. -/
def cFILE : String := "FILE"

/-- The constant `cSOCK`. -/
def cSOCK : String := "SOCK"

/-- The constant `cWHT`. -/
def cWHT : String := "WHT "

/-- The constant `cUNKNOWN`. -/
def cUNKNOWN : String := "??? "

/-- The table `fileTypeList`. -/
def fileTypeList : List (Pair FileType String) :=
  [⟨FileType.DT_FIFO, cFIFO⟩, ⟨FileType.DT_LNK, cLNK⟩, ⟨FileType.DT_CHR, cCHR⟩,
   ⟨FileType.DT_DIR, cDIR⟩, ⟨FileType.DT_BLK, cBLK⟩, ⟨FileType.DT_REG, cFILE⟩,
   ⟨FileType.DT_SOCK, cSOCK⟩, ⟨FileType.DT_WHT, cWHT⟩]

/-- The table `fileTypName`: `KeyPairs` over `fileTypeList`, with the default pair of
`DT_UNKNOWN` and `cUNKNOWN`. -/
def fileTypName : KeyPairs FileType String :=
  { p_a := fileTypeList, m_default := ⟨FileType.DT_UNKNOWN, cUNKNOWN⟩ }

/-! ## The reference: SHA-256 as FIPS 180-4 defines it

These definitions follow the words of the specification (section 4.3) and of FIPS 180-4,
not the code: the message is padded as a whole, cut into blocks of 64 bytes, and the
compression function is folded over the blocks. -/

namespace FIPS

/-- The operation ROTR on a word of 32 bits. -/
def rotr (x n : Nat) : Nat := (x >>> n) ||| ((x <<< (32 - n)) % 2 ^ 32)

/-- The function Ch(e,f,g) = (e and f) xor (not e and g). -/
def Ch (x y z : Nat) : Nat := (x &&& y) ^^^ ((0xffffffff ^^^ x) &&& z)

/-- The function Maj(a,b,c) = (a and b) xor (a and c) xor (b and c). -/
def Maj (x y z : Nat) : Nat := (x &&& y) ^^^ (x &&& z) ^^^ (y &&& z)

/-- The function Sigma0(a) = rotr(a,2) xor rotr(a,13) xor rotr(a,22). -/
def Sigma0 (x : Nat) : Nat := rotr x 2 ^^^ rotr x 13 ^^^ rotr x 22

/-- The function Sigma1(e) = rotr(e,6) xor rotr(e,11) xor rotr(e,25). -/
def Sigma1 (x : Nat) : Nat := rotr x 6 ^^^ rotr x 11 ^^^ rotr x 25

/-- The function sigma0(x) = rotr(x,7) xor rotr(x,18) xor (x >> 3). -/
def sigma0 (x : Nat) : Nat := rotr x 7 ^^^ rotr x 18 ^^^ (x >>> 3)

/-- The function sigma1(x) = rotr(x,17) xor rotr(x,19) xor (x >> 10). -/
def sigma1 (x : Nat) : Nat := rotr x 17 ^^^ rotr x 19 ^^^ (x >>> 10)

/-- The round constants of FIPS 180-4, section 4.2.2. -/
def K : List Nat :=
  [0x428A2F98, 0x71374491, 0xB5C0FBCF, 0xE9B5DBA5, 0x3956C25B, 0x59F111F1, 0x923F82A4, 0xAB1C5ED5,
   0xD807AA98, 0x12835B01, 0x243185BE, 0x550C7DC3, 0x72BE5D74, 0x80DEB1FE, 0x9BDC06A7, 0xC19BF174,
   0xE49B69C1, 0xEFBE4786, 0x0FC19DC6, 0x240CA1CC, 0x2DE92C6F, 0x4A7484AA, 0x5CB0A9DC, 0x76F988DA,
   0x983E5152, 0xA831C66D, 0xB00327C8, 0xBF597FC7, 0xC6E00BF3, 0xD5A79147, 0x06CA6351, 0x14292967,
   0x27B70A85, 0x2E1B2138, 0x4D2C6DFC, 0x53380D13, 0x650A7354, 0x766A0ABB, 0x81C2C92E, 0x92722C85,
   0xA2BFE8A1, 0xA81A664B, 0xC24B8B70, 0xC76C51A3, 0xD192E819, 0xD6990624, 0xF40E3585, 0x106AA070,
   0x19A4C116, 0x1E376C08, 0x2748774C, 0x34B0BCB5, 0x391C0CB3, 0x4ED8AA4A, 0x5B9CCA4F, 0x682E6FF3,
   0x748F82EE, 0x78A5636F, 0x84C87814, 0x8CC70208, 0x90BEFFFA, 0xA4506CEB, 0xBEF9A3F7, 0xC67178F2]

/-- The initial hash value of FIPS 180-4, section 5.3.3. -/
def H0 : List Nat :=
  [0x6a09e667, 0xbb67ae85, 0x3c6ef372, 0xa54ff53a, 0x510e527f, 0x9b05688c, 0x1f83d9ab, 0x5be0cd19]

/-- Four bytes as one big-endian word of 32 bits. -/
def be32 (b0 b1 b2 b3 : Nat) : Nat := b0 * 2 ^ 24 + b1 * 2 ^ 16 + b2 * 2 ^ 8 + b3

/-- The sixteen message words of a block of 64 bytes. -/
def words (block : List Nat) : List Nat :=
  (List.range 16).map fun t =>
    be32 (block.getD (4 * t) 0) (block.getD (4 * t + 1) 0) (block.getD (4 * t + 2) 0)
      (block.getD (4 * t + 3) 0)

/-- One more word of the message schedule:
`w[t] = sigma1(w[t-2]) + w[t-7] + sigma0(w[t-15]) + w[t-16]` modulo `2 ^ 32`. -/
def extend (W : List Nat) : List Nat :=
  W ++ [(sigma1 (W.getD (W.length - 2) 0) + W.getD (W.length - 7) 0
    + sigma0 (W.getD (W.length - 15) 0) + W.getD (W.length - 16) 0) % 2 ^ 32]

/-- The message schedule of 64 words, from the sixteen message words. -/
def schedule (M : List Nat) : List Nat := Nat.iterate extend 48 M

/-- One round on the working variables `a .. h`, with a round constant and a word of
the message schedule. -/
def round (v : Sha256.Vars) (kw : Nat × Nat) : Sha256.Vars :=
  let t1 := (v.h + Sigma1 v.e + Ch v.e v.f v.g + kw.1 + kw.2) % 2 ^ 32
  let t2 := (Sigma0 v.a + Maj v.a v.b v.c) % 2 ^ 32
  { a := (t1 + t2) % 2 ^ 32, b := v.a, c := v.b, d := v.c,
    e := (v.d + t1) % 2 ^ 32, f := v.e, g := v.f, h := v.g }

/-- The compression function: the hash value after a block, from the hash value before
it and the sixteen message words of the block. -/
def compressWords (H M : List Nat) : List Nat :=
  let v0 : Sha256.Vars :=
    { a := H.getD 0 0, b := H.getD 1 0, c := H.getD 2 0, d := H.getD 3 0,
      e := H.getD 4 0, f := H.getD 5 0, g := H.getD 6 0, h := H.getD 7 0 }
  let v := (K.zip (schedule M)).foldl round v0
  List.zipWith (fun x y => (x + y) % 2 ^ 32) H [v.a, v.b, v.c, v.d, v.e, v.f, v.g, v.h]

/-- The compression function on a block of 64 bytes. -/
def compress (H block : List Nat) : List Nat := compressWords H (words block)

/-- The eight bytes of the big-endian encoding of a number below `2 ^ 64`. -/
def be64 (x : Nat) : List Nat := (List.range 8).map fun i => x / 2 ^ (8 * (7 - i)) % 256

/-- The padded message, with the field of the bit length given: the byte 0x80, then the
least number `k` of zero bytes with `length + 1 + k = 56` modulo 64, then the field. -/
def padWith (bitlen : Nat) (m : List Nat) : List Nat :=
  m ++ [0x80] ++ List.replicate ((119 - m.length % 64) % 64) 0 ++ be64 bitlen

/-- The padded message of FIPS 180-4, section 5.1.1. -/
def pad (m : List Nat) : List Nat := padWith (8 * m.length) m

/-- The first `n` blocks of 64 bytes of a message. -/
def blocks : Nat → List Nat → List (List Nat)
  | 0, _ => []
  | n + 1, p => p.take 64 :: blocks n (p.drop 64)

/-- The digest of a hash value: its words as big-endian bytes. -/
def digest (H : List Nat) : List Nat :=
  H.flatMap fun h => [h / 2 ^ 24 % 256, h / 2 ^ 16 % 256, h / 2 ^ 8 % 256, h % 256]

/-- The compression function iterated from the initial hash value over the blocks of a
padded message, and the digest of the result. -/
def hashPadded (p : List Nat) : List Nat :=
  digest ((blocks (p.length / 64) p).foldl compress H0)

/-- The function SHA-256. -/
def sha256 (m : List Nat) : List Nat := hashPadded (pad m)

end FIPS

/-! ## Notions used to state the properties -/

/-- Bytes fed to an engine one `add_byte` at a time. -/
def feed (s : Sha256) (m : List Nat) : Sha256 := m.foldl Sha256.add_byte s

/-- One way to hand a chunk to the engine: byte by byte through `add_byte`, or as a
span through one call of `add_block`; the span lies outside the engine, so that what
it holds does not depend on the engine (`Handover` has the other spans). -/
inductive Call where
  | bytes (c : List Nat)
  | block (p : ArraySpan)

/-- The bytes a call hands over. -/
def Call.content : Call → List Nat
  | Call.bytes c => c
  | Call.block p => p.elems

/-- The engine after a call. -/
def Call.run (s : Sha256) : Call → Sha256
  | Call.bytes c => feed s c
  | Call.block p => s.add_block p

/-- The bytes a sequence of calls hands over, in order. -/
def content (cs : List Call) : List Nat := cs.flatMap Call.content

/-- The engine after a sequence of calls. -/
def run (s : Sha256) (cs : List Call) : Sha256 := cs.foldl Call.run s

/-- The arrays of an engine have the sizes of their declarations: 64 words in
`payload_buffer_as32bit`, and `m_hash` a `DArrayContainer<u8, 32>`. -/
def Sized (s : Sha256) : Prop :=
  s.payload_buffer_as32bit.length = 64 ∧ s.m_hash.idx.m_begin = 0 ∧ s.m_hash.idx.m_end = 32
    ∧ s.m_hash.m_array.length = 33

/-- The states an engine can be in: after construction and any sequence of calls of
`reset`, `add_byte`, `add_block` and `hash`. -/
inductive Reachable : Sha256 → Prop where
  | new : Reachable Sha256.new
  | reset (s : Sha256) : Reachable s → Reachable s.reset
  | add_byte (s : Sha256) (b : Nat) : Reachable s → Reachable (s.add_byte b)
  | add_block (s : Sha256) (p : ArraySpan) : Reachable s → Reachable (s.add_block p)
  | hash (s : Sha256) (fuel : Nat) (r : ArraySpan × Sha256) :
      Reachable s → Sha256.hash fuel s = some r → Reachable r.2

/-- The result of `hash`, as the list of the bytes of the returned range. -/
def digestOf (r : Option (ArraySpan × Sha256)) : Option (List Nat) := r.map fun x => x.1.elems

/-- The number of calls of `process_buffer` while bytes go through `add_byte`: a call
of `add_byte` reaches `process_buffer` exactly when `++buffer_filled` is not below 64. -/
def processRuns (s : Sha256) : List Nat → Nat
  | [] => 0
  | b :: l =>
    (if ((if s.finished then s.reset else s).buffer_filled + 1) % 256
        < Sha256.size_payload_buffer_as08bit then 0 else 1)
      + processRuns (s.add_byte b) l

/-- What holds in every state an engine can be in, besides the sizes of the arrays:
eight running words, fewer than 64 bytes buffered, a length counter that is a multiple
of 64 below `2 ^ 64`, and, once finished, the digest of the running words in `m_hash`. -/
def Inv (s : Sha256) : Prop :=
  s.hs32.length = 8 ∧ s.buffer_filled < 64 ∧ s.contendlen % 64 = 0 ∧ s.contendlen < 2 ^ 64
    ∧ (s.finished = true → s.m_hash.reader.elems = FIPS.digest s.hs32)

/-- The bytes `pend` are the ones stored so far in the message words `P`: byte `i` is
byte `i % 4` of word `i / 4`, and the words touched are below `2 ^ 32`. -/
def Buffered (P pend : List Nat) : Prop :=
  ∀ i, i < pend.length →
    P.getD (i / 4) 0 < 2 ^ 32 ∧
      BytesOfScalar.getByte Endianes.Big 4 (P.getD (i / 4) 0) (i % 4) = pend.getD i 0

/-- The message words after `add_byte` has stored a byte, before the block is looked at. -/
def Sha256.store (s : Sha256) (b : Nat) : List Nat :=
  s.payload_buffer_as32bit.set (s.buffer_filled / 4)
    (BytesOfScalar.setByte Endianes.Big b (s.buffer_filled % 4)
      (s.payload_buffer_as32bit.getD (s.buffer_filled / 4) 0))

/-- The bytes `finalize` hands to `add_byte` after the message: 0x80, the zero bytes of
`padding_the_message_except_space`, and the eight bytes of the bit length. -/
def Sha256.padTail (s : Sha256) : List Nat :=
  0x80 :: (List.replicate ((119 - s.buffer_filled) % 64) 0
    ++ (ByteArrayOfScalar Endianes.Big 8 ((s.payloadLen * 8) % 2 ^ 64)).elems)

/-- The last steps of `finalize`: `m_hash` is reset and takes the bytes of the words
of `hs32`, and `finished` is set. -/
def Sha256.writeDigest (s : Sha256) : Sha256 :=
  { s with
    m_hash := s.hs32.foldl
      (fun m st => m.streamIn (ByteArrayOfScalar Endianes.Big 4 st)) s.m_hash.reset
    finished := true }

/-- The digest of a message as the engine computes it: the bytes are taken modulo 256
and the bit length modulo `2 ^ 64`, as the types `u8` and `u64` do; otherwise SHA-256. -/
def engineDigest (m : List Nat) : List Nat :=
  FIPS.hashPadded (FIPS.padWith (m.length % 2 ^ 64 * 8 % 2 ^ 64) (m.map (fun x => x % 256)))

/-- The bounds of the range that `hash()` returns, those of `m_hash.reader()`:
`begin()` and `current()` of `m_hash`, as offsets into its array. The range is a view
of `m_hash`: it holds what `m_hash` holds at the time it is read. -/
def Sha256.hash_view (s : Sha256) : Span :=
  Span.mk2 s.m_hash.idx.m_begin s.m_hash.idx.current

/-- What a range of `m_hash` with the bounds `v` holds in the state `s`: its elements,
and the element at its end. -/
def Sha256.read_view (s : Sha256) (v : Span) : ArraySpan :=
  { elems := (s.m_hash.m_array.drop v.m_begin).take (v.m_end - v.m_begin)
    spare := s.m_hash.m_array.getD v.m_end 0 }

/-- The method `add_block` on a range of the engine's own `m_hash`, as `hash()`
returns one: a finished engine is reset first, which clears `m_hash`, and the elements
are read after that; nothing else in `add_block` writes to `m_hash`. -/
def Sha256.add_block_view (s : Sha256) (v : Span) : Sha256 :=
  let s := if s.finished then s.reset else s
  s.add_block (s.read_view v)

/-- One way to hand bytes to an engine: a call with bytes or with a span that lies
outside the engine, or `add_block` on a range of the engine's own `m_hash`, given by
its bounds. -/
inductive Handover where
  | outside (c : Call)
  | own (v : Span)

/-- The engine after bytes were handed over. -/
def Handover.run (s : Sha256) : Handover → Sha256
  | Handover.outside c => Call.run s c
  | Handover.own v => s.add_block_view v

/-- The bytes handed over to an engine in the state `s`: for a range of `m_hash`,
those it holds when the call is made. -/
def Handover.content (s : Sha256) : Handover → List Nat
  | Handover.outside c => c.content
  | Handover.own v => (s.read_view v).elems

/-- The bytes handed over to an engine in the state `s` by a sequence, in order. -/
def Handover.contents : Sha256 → List Handover → List Nat
  | _, [] => []
  | s, h :: l => h.content s ++ Handover.contents (h.run s) l

/-- The number that a list of bytes stands for in big-endian order. -/
def ofBigEndian (l : List Nat) : Nat := l.foldl (fun a b => a * 256 + b) 0

/-- A call of one of the methods of `Index` that set the position. -/
inductive IndexCall where
  | get_next
  | move_index (add : Nat)
  | resetIndex (p_index : Nat)

/-- The cursor after a call. -/
def IndexCall.run (x : Index) : IndexCall → Index
  | IndexCall.get_next => x.get_next.2
  | IndexCall.move_index add => x.move_index add
  | IndexCall.resetIndex p_index => x.resetIndex p_index

/-- The offsets from `begin()` that the loop of the fast path of `add_block`
addresses in the span, in the order of its reads: where `add_block_fill` reads
`p_a_08b[buffer_filled++]`, this lists the offset `min<u64>(buffer_filled, count())`
that `operator[]` computes. -/
def Sha256.add_block_fill_reads (p : ArraySpan) : List Nat → Nat → List Nat
  | [], _ => []
  | _ :: rest, bf =>
    let r0 := p.offset bf
    let bf := (bf + 1) % 256
    let r1 := p.offset bf
    let bf := (bf + 1) % 256
    let r2 := p.offset bf
    let bf := (bf + 1) % 256
    let r3 := p.offset bf
    let bf := (bf + 1) % 256
    r0 :: r1 :: r2 :: r3 :: Sha256.add_block_fill_reads p rest bf

/-- The offsets from `begin()` of the elements of the span that `add_block` reads, in
order: in the fast path those of its loop, in the other path those the range-based
`for` passes on its way from `begin()` to `end()`. -/
def Sha256.add_block_reads (s : Sha256) (p_a_08b : ArraySpan) : List Nat :=
  let s := if s.finished then s.reset else s
  if s.buffer_filled = 0 ∧ p_a_08b.count = Sha256.size_payload_buffer_as08bit then
    Sha256.add_block_fill_reads p_a_08b s.payload_buffer_as32bit s.buffer_filled
  else
    List.range p_a_08b.count

/-- The variable `to_fill` of `padding_the_message_except_space(up_to_space)`:
`size_payload_buffer_as08bit - buffer_filled - up_to_space`, converted to `i8`. -/
def Sha256.to_fill (s : Sha256) (up_to_space : Nat) : Int :=
  Sha256.toI8
    ((Sha256.size_payload_buffer_as08bit : Int) - (s.buffer_filled : Int) - (up_to_space : Int))

/-- The character of a digit below 16, in lowercase: '0' to '9', then 'a' to 'f'; as
its code. -/
def hexDigit (n : Nat) : Nat := if n < 10 then 48 + n else 97 + (n - 10)

/-- The `k + 1` digits of `v` in base `B` at the places `k` down to 0, most
significant first: the digit at place `i` is `v / B ^ i % B`. -/
def msdDigits (B : Nat) : Nat → Nat → List Nat
  | 0, v => [v % B]
  | k + 1, v => (v / B ^ (k + 1) % B) :: msdDigits B k v

/-! ## Lemmas: bits and bytes -/

theorem testBit_255 (k : Nat) : Nat.testBit 255 k = decide (k < 8) :=
  Nat.testBit_two_pow_sub_one 8 k

theorem testBit_mod256 (b k : Nat) :
    (b % 256).testBit k = (decide (k < 8) && b.testBit k) :=
  Nat.testBit_mod_two_pow b 8 k

theorem testBit_mask (sh n : Nat) :
    Nat.testBit ((2 ^ 32 - 1) ^^^ ((255 <<< sh) % 2 ^ 32)) n
      = (decide (n < 32) && !(decide (sh ≤ n) && decide (n < sh + 8))) := by
  rw [Nat.testBit_xor, Nat.testBit_two_pow_sub_one, Nat.testBit_mod_two_pow,
    Nat.testBit_shiftLeft, testBit_255]
  by_cases h1 : n < 32 <;> by_cases h2 : sh ≤ n <;> by_cases h3 : n < sh + 8 <;>
    simp [h1, h2, h3] <;> omega

/-- Clearing one byte position of a word and or-ing a byte in, then reading a byte
position: the byte itself at the same position, the old byte at another one. -/
theorem byte_core (w b si sj : Nat) (hsi : si + 8 ≤ 32) (hsj : sj + 8 ≤ 32)
    (hd : sj = si ∨ si + 8 ≤ sj ∨ sj + 8 ≤ si) :
    255 &&& ((((w &&& ((2 ^ 32 - 1) ^^^ ((255 <<< si) % 2 ^ 32)))
        ||| ((b % 2 ^ 8) <<< si) % 2 ^ 32) % 2 ^ 32) >>> sj)
      = if sj = si then b % 2 ^ 8 else 255 &&& (w >>> sj) := by
  apply Nat.eq_of_testBit_eq
  intro k
  rw [Nat.testBit_and, testBit_255, Nat.testBit_shiftRight, Nat.testBit_mod_two_pow,
    Nat.testBit_or, Nat.testBit_and, testBit_mask, Nat.testBit_mod_two_pow,
    Nat.testBit_shiftLeft, Nat.testBit_mod_two_pow]
  by_cases hk : k < 8
  · rcases hd with rfl | h | h
    · have e1 : sj + k - sj = k := by omega
      have e2 : sj + k < 32 := by omega
      simp [hk, e1, e2, testBit_mod256]
    · have e1 : ¬ (sj + k - si < 8) := by omega
      have e2 : sj + k < 32 := by omega
      have e3 : ¬ (sj + k < si + 8) := by omega
      have e4 : ¬ (sj = si) := by omega
      simp [hk, e1, e2, e3, e4, Nat.testBit_and, testBit_255, Nat.testBit_shiftRight]
    · have e1 : ¬ (si ≤ sj + k) := by omega
      have e2 : sj + k < 32 := by omega
      have e4 : ¬ (sj = si) := by omega
      simp [hk, e1, e2, e4, Nat.testBit_and, testBit_255, Nat.testBit_shiftRight]
  · by_cases h : sj = si
    · simp [hk, h, testBit_mod256]
    · simp [hk, h, Nat.testBit_and, testBit_255]

namespace BytesOfScalar

theorem setByte_lt (e : Endianes) (b i w : Nat) : setByte e b i w < 2 ^ 32 :=
  Nat.mod_lt _ (by norm_num)

theorem getByte_setByte (b i j w : Nat) :
    getByte Endianes.Big 4 (setByte Endianes.Big b i w) j
      = if j % 4 = i % 4 then b % 256 else getByte Endianes.Big 4 w j := by
  have h := byte_core w b (8 * (4 - 1 - i % 4)) (8 * (4 - 1 - j % 4)) (by omega) (by omega)
    (by omega)
  unfold getByte setByte mask shift
  by_cases hc : j % 4 = i % 4
  · rw [if_pos hc]
    rw [if_pos (by omega)] at h
    exact h
  · rw [if_neg hc]
    rw [if_neg (by omega)] at h
    exact h

theorem getByte_eq_div (N v j : Nat) :
    getByte Endianes.Big N v j = v / 2 ^ (8 * (N - 1 - j % N)) % 256 := by
  unfold getByte shift
  rw [Nat.and_comm, Nat.shiftRight_eq_div_pow]
  exact Nat.and_pow_two_sub_one_eq_mod _ 8

theorem getByte_eq (v j : Nat) :
    getByte Endianes.Big 4 v j = v / 2 ^ (8 * (3 - j % 4)) % 256 :=
  getByte_eq_div 4 v j

theorem getByte_lt (e : Endianes) (N v j : Nat) : getByte e N v j < 256 := by
  unfold getByte
  rw [Nat.and_comm]
  exact Nat.lt_of_le_of_lt (Nat.and_pow_two_sub_one_eq_mod _ 8).le (Nat.mod_lt _ (by norm_num))

/-- A word below `2 ^ 32` is the big-endian word of its four bytes. -/
theorem eq_be32 (w : Nat) (hw : w < 2 ^ 32) :
    w = FIPS.be32 (getByte Endianes.Big 4 w 0) (getByte Endianes.Big 4 w 1)
      (getByte Endianes.Big 4 w 2) (getByte Endianes.Big 4 w 3) := by
  simp only [getByte_eq, FIPS.be32]
  norm_num at hw ⊢
  omega

end BytesOfScalar

/-! ## Lemmas: lists -/

theorem getD_set (l : List Nat) (i j a d : Nat) :
    (l.set i a).getD j d = if i = j ∧ i < l.length then a else l.getD j d := by
  rw [List.getD_eq_getElem?_getD, List.getD_eq_getElem?_getD, List.getElem?_set]
  by_cases h : i = j
  · subst h
    by_cases h2 : i < l.length
    · simp [h2]
    · have h3 : l[i]? = none := List.getElem?_eq_none (by omega)
      simp [h2, h3]
  · simp [h]

theorem take_succ_set (l : List Nat) (i a : Nat) (h : i < l.length) :
    (l.set i a).take (i + 1) = l.take i ++ [a] := by
  induction l generalizing i with
  | nil => simp at h
  | cons x xs ih =>
    cases i with
    | zero => simp
    | succ n =>
      simp only [List.length_cons, Nat.add_lt_add_iff_right] at h
      simp [ih n h]

theorem getD_take (l : List Nat) (i j d : Nat) (h : j < i) :
    (l.take i).getD j d = l.getD j d := by
  rw [List.getD_eq_getElem?_getD, List.getD_eq_getElem?_getD, List.getElem?_take_of_lt h]

theorem ext_getD (l1 l2 : List Nat) (hl : l1.length = l2.length)
    (h : ∀ i, i < l1.length → l1.getD i 0 = l2.getD i 0) : l1 = l2 := by
  apply List.ext_getElem hl
  intro n h1 h2
  have := h n h1
  rwa [List.getD_eq_getElem _ _ h1, List.getD_eq_getElem _ _ h2] at this

/-! ## Lemmas: `process_buffer` is the compression function -/

namespace Sha256

theorem schedule_step_length (P : List Nat) (i : Nat) :
    (schedule_step P i).length = P.length := by
  unfold schedule_step
  exact List.length_set _ _ _

theorem schedule_step_take (P : List Nat) (i : Nat) (h16 : 16 ≤ i) (hi : i < P.length) :
    (schedule_step P i).take (i + 1) = FIPS.extend (P.take i) := by
  unfold schedule_step FIPS.extend
  rw [take_succ_set _ _ _ hi]
  have hl : (P.take i).length = i := by
    rw [List.length_take]
    omega
  rw [hl, getD_take P i (i - 2) 0 (by omega), getD_take P i (i - 7) 0 (by omega),
    getD_take P i (i - 15) 0 (by omega), getD_take P i (i - 16) 0 (by omega)]
  rfl

theorem schedule_loop (n : Nat) : ∀ (P : List Nat) (i : Nat), 16 ≤ i → i + n ≤ P.length →
    ((List.range' i n).foldl schedule_step P).length = P.length ∧
    ((List.range' i n).foldl schedule_step P).take (i + n)
      = Nat.iterate FIPS.extend n (P.take i) := by
  induction n with
  | zero =>
    intro P i _ _
    exact ⟨rfl, rfl⟩
  | succ n ih =>
    intro P i h16 hi
    rw [List.range'_succ, List.foldl_cons]
    have hlen := schedule_step_length P i
    obtain ⟨h1, h2⟩ := ih (schedule_step P i) (i + 1) (by omega) (by omega)
    refine ⟨h1.trans hlen, ?_⟩
    rw [show i + (n + 1) = i + 1 + n by omega, h2,
      schedule_step_take P i h16 (by omega)]
    rfl

/-- The first loop of `process_buffer` yields the message schedule of the first sixteen
words, whatever the other 48 words were. -/
theorem schedule_eq (P : List Nat) (hP : P.length = 64) :
    (List.range' 16 48).foldl schedule_step P = FIPS.schedule (P.take 16) := by
  obtain ⟨h1, h2⟩ := schedule_loop 48 P 16 (le_refl _) (by omega)
  unfold FIPS.schedule
  rw [← h2]
  symm
  apply List.take_of_length_le
  omega

theorem extend_length (W : List Nat) : (FIPS.extend W).length = W.length + 1 := by
  simp [FIPS.extend]

theorem iterate_extend_length (n : Nat) : ∀ W : List Nat,
    (Nat.iterate FIPS.extend n W).length = W.length + n := by
  induction n with
  | zero => intro W; rfl
  | succ n ih =>
    intro W
    rw [Function.iterate_succ_apply, ih, extend_length]
    omega

theorem schedule_length (M : List Nat) : (FIPS.schedule M).length = M.length + 48 :=
  iterate_extend_length 48 M

theorem extend_take (W : List Nat) (n : Nat) (h : n ≤ W.length) :
    (FIPS.extend W).take n = W.take n := by
  unfold FIPS.extend
  rw [List.take_append_of_le_length h]

theorem iterate_extend_take (n : Nat) : ∀ (W : List Nat) (j : Nat), j ≤ W.length →
    (Nat.iterate FIPS.extend n W).take j = W.take j := by
  induction n with
  | zero => intro W j _; rfl
  | succ n ih =>
    intro W j h
    rw [Function.iterate_succ_apply, ih _ j (by rw [extend_length]; omega), extend_take W j h]

/-- The first sixteen words of the message schedule are the message words. -/
theorem schedule_take (M : List Nat) : (FIPS.schedule M).take M.length = M := by
  unfold FIPS.schedule
  rw [iterate_extend_take 48 M M.length (le_refl _), List.take_length]

/-- The second loop of `process_buffer`, over the indices, is the fold of the round
function over the round constants paired with the message schedule. -/
theorem rounds_eq (W : List Nat) (hW : W.length = 64) (v0 : Vars) :
    (List.range 64).foldl (fun v i => round_step v (k.getD i 0) (W.getD i 0)) v0
      = (FIPS.K.zip W).foldl FIPS.round v0 := by
  have hz : FIPS.K.zip W = (List.range 64).map (fun i => (k.getD i 0, W.getD i 0)) := by
    apply List.ext_getElem
    · simp [hW, FIPS.K]
    · intro n h1 h2
      have hn : n < 64 := by simpa using h2
      have hk : n < k.length := by simpa [k] using hn
      rw [List.getElem_zip, List.getElem_map, List.getElem_range,
        List.getD_eq_getElem _ _ hk, List.getD_eq_getElem _ _ (by omega : n < W.length)]
      rfl
  rw [hz, List.foldl_map]
  rfl

/-- The method `process_buffer` is the compression function on the first sixteen words
of the buffer. -/
theorem process_buffer_eq (s : Sha256) (hP : s.payload_buffer_as32bit.length = 64)
    (hH : s.hs32.length = 8) :
    s.process_buffer =
      { s with
        payload_buffer_as32bit := FIPS.schedule (s.payload_buffer_as32bit.take 16)
        hs32 := FIPS.compressWords s.hs32 (s.payload_buffer_as32bit.take 16)
        buffer_filled := 0 } := by
  unfold process_buffer
  simp only []
  rw [schedule_eq _ hP]
  have hW : (FIPS.schedule (s.payload_buffer_as32bit.take 16)).length = 64 := by
    rw [schedule_length, List.length_take]
    omega
  rw [rounds_eq _ hW]
  unfold FIPS.compressWords
  simp only []
  generalize (FIPS.K.zip (FIPS.schedule (s.payload_buffer_as32bit.take 16))).foldl FIPS.round
    _ = v
  match hs : s.hs32, hH with
  | [h0, h1, h2, h3, h4, h5, h6, h7], _ => rfl

end Sha256

/-! ## Lemmas: `add_byte` and the block it completes -/

namespace Sha256

theorem add_byte_lt (s : Sha256) (b : Nat) (hf : s.finished = false)
    (hb : s.buffer_filled < 63) :
    s.add_byte b =
      { s with payload_buffer_as32bit := s.store b, buffer_filled := s.buffer_filled + 1 } := by
  unfold add_byte store
  have h1 : (s.buffer_filled + 1) % 256 = s.buffer_filled + 1 := by omega
  have h2 : s.buffer_filled + 1 < size_payload_buffer_as08bit := by
    unfold size_payload_buffer_as08bit
    omega
  simp [hf, h1, h2]

theorem add_byte_full (s : Sha256) (b : Nat) (hf : s.finished = false)
    (hb : s.buffer_filled = 63) :
    s.add_byte b =
      { process_buffer { s with payload_buffer_as32bit := s.store b, buffer_filled := 64 } with
        contendlen := (s.contendlen + 64) % 2 ^ 64 } := by
  unfold add_byte store
  simp [hf, hb, size_payload_buffer_as08bit, process_buffer]

theorem store_length (s : Sha256) (b : Nat) :
    (s.store b).length = s.payload_buffer_as32bit.length := by
  unfold store
  exact List.length_set _ _ _

theorem buffered_nil (P : List Nat) : Buffered P [] := by
  intro i hi
  simp at hi

theorem buffered_store (s : Sha256) (pend : List Nat) (b : Nat)
    (hP : s.payload_buffer_as32bit.length = 64) (hbf : s.buffer_filled = pend.length)
    (h63 : pend.length ≤ 63) (hB : Buffered s.payload_buffer_as32bit pend) :
    Buffered (s.store b) (pend ++ [b % 256]) := by
  intro i hi
  have hi2 : i ≤ pend.length := by
    simp only [List.length_append, List.length_singleton] at hi
    omega
  unfold store
  rw [getD_set]
  by_cases hw : s.buffer_filled / 4 = i / 4
  · rw [if_pos ⟨hw, by omega⟩]
    refine ⟨BytesOfScalar.setByte_lt _ _ _ _, ?_⟩
    rw [BytesOfScalar.getByte_setByte]
    by_cases hb : i = pend.length
    · have e1 : i % 4 % 4 = s.buffer_filled % 4 % 4 := by omega
      rw [if_pos e1, hb, List.getD_append_right _ _ _ _ (le_refl _)]
      simp
    · have e1 : ¬ (i % 4 % 4 = s.buffer_filled % 4 % 4) := by omega
      have hlt : i < pend.length := by omega
      rw [if_neg e1, List.getD_append _ _ _ _ hlt, hw]
      exact (hB i hlt).2
  · have hlt : i < pend.length := by
      rcases Nat.lt_or_ge i pend.length with h | h
      · exact h
      · exfalso
        apply hw
        rw [hbf]
        congr 1
        omega
    rw [if_neg (fun h => hw h.1), List.getD_append _ _ _ _ hlt]
    exact hB i hlt

/-- Sixty-four stored bytes make the sixteen message words of the block. -/
theorem words_of_buffered (P pend : List Nat) (hP : P.length = 64) (hp : pend.length = 64)
    (hB : Buffered P pend) : P.take 16 = FIPS.words pend := by
  apply ext_getD
  · simp [FIPS.words, hP]
  · intro t ht
    have ht16 : t < 16 := by
      rw [List.length_take] at ht
      omega
    rw [getD_take _ _ _ _ ht16]
    have hlen : t < (FIPS.words pend).length := by simp [FIPS.words, ht16]
    rw [List.getD_eq_getElem _ _ hlen]
    unfold FIPS.words
    rw [List.getElem_map, List.getElem_range]
    have h0 := hB (4 * t) (by omega)
    have h1 := hB (4 * t + 1) (by omega)
    have h2 := hB (4 * t + 2) (by omega)
    have h3 := hB (4 * t + 3) (by omega)
    rw [show 4 * t / 4 = t by omega, show 4 * t % 4 = 0 by omega] at h0
    rw [show (4 * t + 1) / 4 = t by omega, show (4 * t + 1) % 4 = 1 by omega] at h1
    rw [show (4 * t + 2) / 4 = t by omega, show (4 * t + 2) % 4 = 2 by omega] at h2
    rw [show (4 * t + 3) / 4 = t by omega, show (4 * t + 3) % 4 = 3 by omega] at h3
    rw [← h0.2, ← h1.2, ← h2.2, ← h3.2]
    exact BytesOfScalar.eq_be32 _ h0.1

theorem feed_nil (s : Sha256) : feed s [] = s := rfl

theorem feed_cons (s : Sha256) (b : Nat) (l : List Nat) :
    feed s (b :: l) = feed (s.add_byte b) l := rfl

theorem feed_append (s : Sha256) (l1 l2 : List Nat) :
    feed s (l1 ++ l2) = feed (feed s l1) l2 := by
  unfold feed
  exact List.foldl_append _ _ _ _

/-- Bytes that do not complete the block are stored, and nothing else changes. -/
theorem feed_partial (l : List Nat) : ∀ (s : Sha256) (pend : List Nat),
    s.finished = false → s.payload_buffer_as32bit.length = 64 →
    s.buffer_filled = pend.length → Buffered s.payload_buffer_as32bit pend →
    pend.length + l.length ≤ 63 →
    ∃ P : List Nat, feed s l
        = { s with payload_buffer_as32bit := P, buffer_filled := s.buffer_filled + l.length }
      ∧ P.length = 64 ∧ Buffered P (pend ++ l.map (fun x => x % 256)) := by
  induction l with
  | nil =>
    intro s pend _ hP _ hB _
    exact ⟨s.payload_buffer_as32bit, rfl, hP, by simpa using hB⟩
  | cons b l ih =>
    intro s pend hf hP hbf hB hlen
    simp only [List.length_cons] at hlen
    rw [feed_cons, add_byte_lt s b hf (by omega)]
    obtain ⟨P, h1, h2, h3⟩ := ih
      { s with payload_buffer_as32bit := s.store b, buffer_filled := s.buffer_filled + 1 }
      (pend ++ [b % 256]) hf (by simpa [store_length] using hP)
      (by simp [hbf]) (buffered_store s pend b hP hbf (by omega) hB)
      (by simp only [List.length_append, List.length_singleton]; omega)
    refine ⟨P, ?_, h2, ?_⟩
    · rw [h1]
      simp only [List.length_cons]
      congr 1
      omega
    · simpa using h3

/-- Sixty-four bytes fed to an engine with an empty accumulator: `process_buffer` runs
once, on a buffer whose first sixteen words are the message words of the block. -/
theorem feed_block_pre (s : Sha256) (block : List Nat) (hf : s.finished = false)
    (hbf : s.buffer_filled = 0) (hP : s.payload_buffer_as32bit.length = 64)
    (hb : block.length = 64) :
    ∃ P : List Nat, P.length = 64 ∧ P.take 16 = FIPS.words (block.map (fun x => x % 256)) ∧
      feed s block =
        { process_buffer { s with payload_buffer_as32bit := P, buffer_filled := 64 } with
          contendlen := (s.contendlen + 64) % 2 ^ 64 } := by
  have hsplit : block = block.take 63 ++ [block.getD 63 0] := by
    apply ext_getD
    · simp [hb]
    · intro i hi
      by_cases h : i < 63
      · rw [List.getD_append _ _ _ _ (by simp [hb, h]), getD_take _ _ _ _ h]
      · have hi63 : i = 63 := by omega
        subst hi63
        rw [List.getD_append_right _ _ _ _ (by simp [hb])]
        simp [hb]
  generalize block.getD 63 0 = x at hsplit
  have hinit : (block.take 63).length = 63 := by simp [hb]
  generalize block.take 63 = ini at hsplit hinit
  subst hsplit
  rw [feed_append]
  obtain ⟨P, h1, h2, h3⟩ := feed_partial ini s [] hf hP (by simpa using hbf)
    (buffered_nil _) (by simp [hinit])
  rw [h1, feed_cons, feed_nil, add_byte_full
    { s with payload_buffer_as32bit := P, buffer_filled := s.buffer_filled + ini.length }
    x hf (by simp [hbf, hinit])]
  have hB := buffered_store
    { s with payload_buffer_as32bit := P, buffer_filled := s.buffer_filled + ini.length }
    (ini.map (fun x => x % 256)) x h2 (by simp [hbf]) (by simp [hinit]) (by simpa using h3)
  have hw := words_of_buffered _ _ (by simpa [store_length] using h2)
    (by simp [hinit]) hB
  refine ⟨_, ?_, ?_, rfl⟩
  · simpa [store_length] using h2
  · rw [hw]
    simp

/-- Sixty-four bytes fed to an engine with an empty accumulator: the hash value goes
through the compression function once, the counter grows by 64, the buffer holds the
message schedule of the block. -/
theorem feed_block (s : Sha256) (block : List Nat) (hf : s.finished = false)
    (hbf : s.buffer_filled = 0) (hP : s.payload_buffer_as32bit.length = 64)
    (hH : s.hs32.length = 8) (hb : block.length = 64) :
    feed s block =
      { s with
        payload_buffer_as32bit := FIPS.schedule (FIPS.words (block.map (fun x => x % 256)))
        hs32 := FIPS.compress s.hs32 (block.map (fun x => x % 256))
        contendlen := (s.contendlen + 64) % 2 ^ 64 } := by
  obtain ⟨P, h1, h2, h3⟩ := feed_block_pre s block hf hbf hP hb
  have key := process_buffer_eq
    { s with payload_buffer_as32bit := P, buffer_filled := 64 } h1 hH
  simp only [] at key
  rw [h3, key, h2]
  unfold FIPS.compress
  simp [hbf]

/-- The method `process_buffer` reads the first sixteen words of the buffer only, and
does not read `buffer_filled`. -/
theorem process_buffer_congr (s t : Sha256) (hs : s.payload_buffer_as32bit.length = 64)
    (ht : t.payload_buffer_as32bit.length = 64)
    (hw : s.payload_buffer_as32bit.take 16 = t.payload_buffer_as32bit.take 16)
    (h1 : s.finished = t.finished) (h2 : s.contendlen = t.contendlen) (h3 : s.hs32 = t.hs32)
    (h4 : s.m_hash = t.m_hash) : s.process_buffer = t.process_buffer := by
  unfold process_buffer
  simp only []
  rw [schedule_eq _ hs, schedule_eq _ ht, hw, h1, h2, h3, h4]

theorem process_buffer_length (s : Sha256) :
    s.process_buffer.payload_buffer_as32bit.length = s.payload_buffer_as32bit.length := by
  unfold process_buffer
  simp only []
  by_cases h : 16 + 48 ≤ s.payload_buffer_as32bit.length
  · exact (schedule_loop 48 _ 16 (le_refl _) h).1
  · have : ∀ (l : List Nat) (P : List Nat),
        (l.foldl schedule_step P).length = P.length := by
      intro l
      induction l with
      | nil => intro P; rfl
      | cons a l ih => intro P; rw [List.foldl_cons, ih, schedule_step_length]
    exact this _ _

/-- What one `add_byte` does to an engine that is not finished, field by field. -/
theorem add_byte_frame (s : Sha256) (b : Nat) (hf : s.finished = false)
    (hbf : s.buffer_filled < 64) :
    (s.add_byte b).finished = false
      ∧ (s.add_byte b).buffer_filled = (s.buffer_filled + 1) % 64
      ∧ (s.add_byte b).payload_buffer_as32bit.length = s.payload_buffer_as32bit.length
      ∧ (s.add_byte b).m_hash = s.m_hash
      ∧ (s.add_byte b).payloadLen = (s.payloadLen + 1) % 2 ^ 64 := by
  by_cases h : s.buffer_filled < 63
  · rw [add_byte_lt s b hf h]
    refine ⟨hf, ?_, store_length s b, rfl, ?_⟩
    · simp only []
      omega
    · simp only [payloadLen]
      omega
  · have h63 : s.buffer_filled = 63 := by omega
    rw [add_byte_full s b hf h63]
    refine ⟨hf, ?_, ?_, rfl, ?_⟩
    · simp [process_buffer, h63]
    · simp only []
      rw [process_buffer_length]
      exact store_length s b
    · simp only [payloadLen, process_buffer, h63]
      omega

/-- What feeding bytes does to an engine that is not finished, field by field. -/
theorem feed_frame (l : List Nat) : ∀ (s : Sha256), s.finished = false →
    s.buffer_filled < 64 →
    (feed s l).finished = false
      ∧ (feed s l).buffer_filled = (s.buffer_filled + l.length) % 64
      ∧ (feed s l).payload_buffer_as32bit.length = s.payload_buffer_as32bit.length
      ∧ (feed s l).m_hash = s.m_hash
      ∧ (feed s l).payloadLen = (s.payloadLen + l.length) % 2 ^ 64 := by
  induction l with
  | nil =>
    intro s hf hbf
    refine ⟨hf, ?_, rfl, rfl, ?_⟩
    · simp only [feed_nil, List.length_nil]
      omega
    · simp only [feed_nil, List.length_nil, payloadLen]
      omega
  | cons b l ih =>
    intro s hf hbf
    obtain ⟨a1, a2, a3, a4, a5⟩ := add_byte_frame s b hf hbf
    obtain ⟨b1, b2, b3, b4, b5⟩ := ih (s.add_byte b) a1 (by rw [a2]; omega)
    rw [feed_cons]
    refine ⟨b1, ?_, b3.trans a3, b4.trans a4, ?_⟩
    · rw [b2, a2]
      simp only [List.length_cons]
      omega
    · rw [b5, a5]
      simp only [List.length_cons]
      omega

/-! ## Lemmas: the fast path of `add_block` -/

theorem add_block_fill_spec (p : ArraySpan) : ∀ (ws : List Nat) (bf : Nat),
    bf + 4 * ws.length ≤ 256 →
    (add_block_fill p ws bf).1.length = ws.length ∧
    ∀ i, i < ws.length → (add_block_fill p ws bf).1.getD i 0 =
      BytesOfScalar.setByte Endianes.Big (p.get (bf + 4 * i + 3)) 3
        (BytesOfScalar.setByte Endianes.Big (p.get (bf + 4 * i + 2)) 2
          (BytesOfScalar.setByte Endianes.Big (p.get (bf + 4 * i + 1)) 1
            (BytesOfScalar.setByte Endianes.Big (p.get (bf + 4 * i)) 0 (ws.getD i 0)))) := by
  intro ws
  induction ws with
  | nil =>
    intro bf _
    exact ⟨rfl, fun i hi => by simp at hi⟩
  | cons a rest ih =>
    intro bf h
    simp only [List.length_cons] at h
    have e1 : (bf + 1) % 256 = bf + 1 := by omega
    have e2 : (bf + 1 + 1) % 256 = bf + 2 := by omega
    have e3 : (bf + 2 + 1) % 256 = bf + 3 := by omega
    unfold add_block_fill
    simp only [e1, e2, e3]
    by_cases hr : rest = []
    · subst hr
      refine ⟨by simp [add_block_fill], ?_⟩
      intro i hi
      have hi0 : i = 0 := by simpa using hi
      subst hi0
      simp [add_block_fill]
    · have hpos : 0 < rest.length := List.length_pos.mpr hr
      have e4 : (bf + 3 + 1) % 256 = bf + 4 := by omega
      rw [e4]
      obtain ⟨h1, h2⟩ := ih (bf + 4) (by omega)
      refine ⟨by simp [h1], ?_⟩
      intro i hi
      cases i with
      | zero => simp
      | succ j =>
        have hj : j < rest.length := by simpa using hi
        have := h2 j hj
        simp only [List.getD_cons_succ]
        rw [this]
        have a0 : bf + 4 + 4 * j = bf + 4 * (j + 1) := by omega
        rw [a0]

theorem get_of_lt (p : ArraySpan) (i : Nat) (h : i < p.count) :
    p.get i = p.elems.getD i 0 := by
  unfold ArraySpan.count at h
  unfold ArraySpan.get ArraySpan.offset ArraySpan.count min
  rw [if_pos h, List.getD_append _ _ _ _ h]

/-- The loop of the fast path stores the 64 bytes of the span in the first sixteen
words; the bytes it puts into the other 48 words are read at `count()`. -/
theorem add_block_fill_words (p : ArraySpan) (P : List Nat) (hP : P.length = 64)
    (hp : p.count = 64) :
    (add_block_fill p P 0).1.length = 64 ∧
    (add_block_fill p P 0).1.take 16 = FIPS.words (p.elems.map (fun x => x % 256)) := by
  obtain ⟨h1, h2⟩ := add_block_fill_spec p P 0 (by omega)
  refine ⟨h1.trans hP, ?_⟩
  apply words_of_buffered _ _ (h1.trans hP) (by simpa [ArraySpan.count] using hp)
  intro i hi
  have hi64 : i < 64 := by
    rw [List.length_map] at hi
    unfold ArraySpan.count at hp
    omega
  rw [h2 (i / 4) (by omega)]
  refine ⟨BytesOfScalar.setByte_lt _ _ _ _, ?_⟩
  simp only [BytesOfScalar.getByte_setByte]
  have hmap : ∀ j, j < 64 → (p.elems.map (fun x => x % 256)).getD j 0 = p.get j % 256 := by
    intro j hj
    rw [get_of_lt p j (by omega)]
    unfold ArraySpan.count at hp
    rw [List.getD_eq_getElem _ _ (by simp [hp, hj]), List.getD_eq_getElem _ _ (by omega),
      List.getElem_map]
  rw [hmap i hi64]
  have hc : i % 4 = 0 ∨ i % 4 = 1 ∨ i % 4 = 2 ∨ i % 4 = 3 := by omega
  rcases hc with h | h | h | h
  · have e : 4 * (i / 4) = i := by omega
    simp [h, e]
  · have e : 4 * (i / 4) + 1 = i := by omega
    simp [h, e]
  · have e : 4 * (i / 4) + 2 = i := by omega
    simp [h, e]
  · have e : 4 * (i / 4) + 3 = i := by omega
    simp [h, e]

/-- On an engine that is not finished, `add_block` is `add_byte` on every byte of
the span. -/
theorem add_block_eq_feed (s : Sha256) (p : ArraySpan) (hf : s.finished = false)
    (hP : s.payload_buffer_as32bit.length = 64) : s.add_block p = feed s p.elems := by
  unfold add_block
  simp only [hf, Bool.false_eq_true, if_false]
  by_cases hc : s.buffer_filled = 0 ∧ p.count = size_payload_buffer_as08bit
  · rw [if_pos hc]
    obtain ⟨hbf, hcnt⟩ := hc
    have hcnt64 : p.count = 64 := hcnt
    obtain ⟨P, q1, q2, q3⟩ := feed_block_pre s p.elems hf hbf hP hcnt64
    obtain ⟨r1, r2⟩ := add_block_fill_words p s.payload_buffer_as32bit hP hcnt64
    rw [q3, hbf]
    have key := process_buffer_congr
      { s with payload_buffer_as32bit := (add_block_fill p s.payload_buffer_as32bit 0).1,
               buffer_filled := (add_block_fill p s.payload_buffer_as32bit 0).2 }
      { s with payload_buffer_as32bit := P, buffer_filled := 64 }
      r1 q1 (r2.trans q2.symm) rfl rfl rfl rfl
    simp only [hf] at key ⊢
    rw [key]
    rfl
  · rw [if_neg hc]
    rfl

theorem add_block_frame (s : Sha256) (p : ArraySpan) (hf : s.finished = false)
    (hbf : s.buffer_filled < 64) (hP : s.payload_buffer_as32bit.length = 64) :
    (s.add_block p).finished = false ∧ (s.add_block p).buffer_filled < 64
      ∧ (s.add_block p).payload_buffer_as32bit.length = 64 := by
  rw [add_block_eq_feed s p hf hP]
  obtain ⟨a1, a2, a3, _, _⟩ := feed_frame p.elems s hf hbf
  exact ⟨a1, by rw [a2]; omega, a3.trans hP⟩

/-- On an engine that is not finished, a sequence of calls is `add_byte` on every
byte handed over, whatever the chunks and the way each one is handed over. -/
theorem run_eq_feed (cs : List Call) : ∀ (s : Sha256), s.finished = false →
    s.buffer_filled < 64 → s.payload_buffer_as32bit.length = 64 →
    run s cs = feed s (content cs) := by
  induction cs with
  | nil => intro s _ _ _; rfl
  | cons c cs ih =>
    intro s hf hbf hP
    have hstep : Call.run s c = feed s c.content := by
      cases c with
      | bytes l => rfl
      | block p => exact add_block_eq_feed s p hf hP
    obtain ⟨a1, a2, a3, _, _⟩ := feed_frame c.content s hf hbf
    have h := ih (Call.run s c) (by rw [hstep]; exact a1) (by rw [hstep, a2]; omega)
      (by rw [hstep, a3]; exact hP)
    show run (Call.run s c) cs = _
    rw [h, hstep]
    unfold content
    rw [List.flatMap_cons, feed_append]

/-! ## Lemmas: `finalize` -/

theorem pad_zeros_eq (n : Nat) : ∀ s : Sha256, pad_zeros n s = feed s (List.replicate n 0) := by
  induction n with
  | zero => intro s; rfl
  | succ n ih =>
    intro s
    rw [pad_zeros, ih, List.replicate_succ, feed_cons]

/-- With room for the padding, `padding_the_message_except_space` does not recurse. -/
theorem padding_fits (fuel up : Nat) (s : Sha256) (h : s.buffer_filled + up ≤ 64) :
    padding_the_message_except_space (fuel + 1) up s
      = some (feed s (List.replicate (64 - s.buffer_filled - up) 0)) := by
  unfold padding_the_message_except_space
  have e : toI8 ((size_payload_buffer_as08bit : Int) - (s.buffer_filled : Int) - (up : Int))
      = ((64 - s.buffer_filled - up : Nat) : Int) := by
    unfold toI8 size_payload_buffer_as08bit
    omega
  simp only [e]
  rw [if_pos (by omega), Int.toNat_ofNat, pad_zeros_eq]

/-- Without room, it recurses once: the block is filled up and processed, then 56
zero bytes follow. -/
theorem padding_eq (fuel : Nat) (s : Sha256) (hf : s.finished = false)
    (hbf : s.buffer_filled < 64) :
    padding_the_message_except_space (fuel + 2) 8 s
      = some (feed s (List.replicate ((120 - s.buffer_filled) % 64) 0)) := by
  by_cases h : s.buffer_filled ≤ 56
  · rw [padding_fits (fuel + 1) 8 s (by omega)]
    congr 3
    omega
  · unfold padding_the_message_except_space
    have e : toI8 ((size_payload_buffer_as08bit : Int) - (s.buffer_filled : Int) - ((8 : Nat) : Int))
        = (56 : Int) - (s.buffer_filled : Int) := by
      unfold toI8 size_payload_buffer_as08bit
      omega
    simp only [e]
    rw [if_neg (by omega), padding_fits fuel 0 s (by omega)]
    simp only []
    obtain ⟨a1, a2, _, _, _⟩ :=
      feed_frame (List.replicate (64 - s.buffer_filled - 0) 0) s hf hbf
    have hz : (feed s (List.replicate (64 - s.buffer_filled - 0) 0)).buffer_filled = 0 := by
      rw [a2, List.length_replicate]
      omega
    rw [padding_fits fuel 8 _ (by rw [hz]; omega), hz, ← feed_append,
      ← List.replicate_add]
    congr 3
    omega

/-- The method `finalize` on an engine that is not finished: the bytes of `padTail`
go through `add_byte`, then the digest is written. It returns with any bound of at
least 2 on the depth of the recursion. -/
theorem finalize_eq (fuel : Nat) (s : Sha256) (hf : s.finished = false)
    (hbf : s.buffer_filled < 64) :
    finalize (fuel + 2) s = some (writeDigest (feed s s.padTail)) := by
  obtain ⟨a1, a2, _, _, _⟩ := add_byte_frame s 0x80 hf hbf
  unfold finalize
  rw [if_pos (by rw [hf]; rfl)]
  simp only []
  rw [padding_eq fuel _ a1 (by rw [a2]; omega)]
  simp only []
  unfold padTail
  rw [feed_cons, feed_append, a2]
  have e : (120 - (s.buffer_filled + 1) % 64) % 64 = (119 - s.buffer_filled) % 64 := by omega
  rw [e]
  rfl

end Sha256

/-! ## Lemmas: the digest buffer -/

theorem take_set_of_le (l : List Nat) (m n a : Nat) (h : m ≤ n) :
    (l.set n a).take m = l.take m := by
  rcases Nat.lt_or_ge m n with h1 | h1
  · exact List.take_set_of_lt a l h1
  · have : m = n := by omega
    subst this
    induction l generalizing m with
    | nil => simp
    | cons x xs ih =>
      cases m with
      | zero => simp
      | succ k => simp [ih k (le_refl _) (le_refl _)]

namespace DArray

theorem putIn_lt (d : DArray) (c : Nat) (hb : d.idx.m_begin = 0)
    (hc : d.idx.m_current < d.idx.m_end) :
    d.putIn c =
      { idx := { d.idx with m_current := d.idx.m_current + 1 }
        m_array := (d.m_array.set d.idx.m_current c).set (d.idx.m_current + 1) 0 } := by
  unfold putIn Index.get_next Index.current Index.limit Index.eof max min CEOF
  have h1 : ¬ (d.idx.m_current ≥ d.idx.m_end) := by omega
  simp only [h1, hb, hc, decide_False, Bool.not_false, if_true]
  have h2 : ¬ (0 > d.idx.m_current) := by omega
  simp only [h2, if_false]
  by_cases h3 : d.idx.m_current + 1 < d.idx.m_end
  · have h4 : ¬ (0 > d.idx.m_current + 1) := by omega
    simp [h3]
  · have h4 : d.idx.m_end = d.idx.m_current + 1 := by omega
    simp [h3, h4]

/-- Elements streamed into a `DArray` with room for them lie behind its content, in
order, and the cursor moves by their number. -/
theorem foldl_putIn (bs : List Nat) : ∀ d : DArray, d.idx.m_begin = 0 →
    d.idx.m_current + bs.length ≤ d.idx.m_end → d.idx.m_end < d.m_array.length →
    (bs.foldl putIn d).idx = { d.idx with m_current := d.idx.m_current + bs.length }
      ∧ (bs.foldl putIn d).m_array.length = d.m_array.length
      ∧ (bs.foldl putIn d).m_array.take (d.idx.m_current + bs.length)
          = d.m_array.take d.idx.m_current ++ bs := by
  induction bs with
  | nil =>
    intro d _ _ _
    exact ⟨rfl, rfl, by simp⟩
  | cons c bs ih =>
    intro d hb hc hl
    simp only [List.length_cons] at hc
    rw [List.foldl_cons, putIn_lt d c hb (by omega)]
    obtain ⟨h1, h2, h3⟩ := ih
      { idx := { d.idx with m_current := d.idx.m_current + 1 }
        m_array := (d.m_array.set d.idx.m_current c).set (d.idx.m_current + 1) 0 }
      hb (by simp only []; omega) (by simpa using hl)
    simp only [] at h1 h2 h3
    refine ⟨?_, ?_, ?_⟩
    · rw [h1]
      simp only [List.length_cons]
      congr 1
      omega
    · rw [h2]
      simp
    · simp only [List.length_cons]
      rw [show d.idx.m_current + (bs.length + 1) = d.idx.m_current + 1 + bs.length by omega,
        h3, take_set_of_le _ _ _ _ (le_refl _), take_succ_set _ _ _ (by omega)]
      simp

theorem memClean_length (l : List Nat) : ∀ a : List Nat,
    (l.foldl (fun a i => a.set i 0) a).length = a.length := by
  induction l with
  | nil => intro a; rfl
  | cons x l ih => intro a; rw [List.foldl_cons, ih, List.length_set]

theorem reset_idx (d : DArray) (hb : d.idx.m_begin = 0) :
    d.reset.idx = { d.idx with m_current := 0 } ∧ d.reset.m_array.length = d.m_array.length := by
  unfold reset Index.resetIndex Index.limit memClean max min
  refine ⟨?_, memClean_length _ _⟩
  simp only [hb]
  by_cases h : 0 + 0 < d.idx.m_end
  · simp [h]
  · simp [h]
    omega

theorem reader_elems (d : DArray) (hb : d.idx.m_begin = 0)
    (hc : d.idx.m_current ≤ d.idx.m_end) : d.reader.elems = d.m_array.take d.idx.m_current := by
  unfold reader Index.current Index.limit max min
  simp only [hb]
  have e1 : (if d.idx.m_current < d.idx.m_end then d.idx.m_current else d.idx.m_end)
      = d.idx.m_current := by
    split_ifs <;> omega
  rw [e1]
  have e2 : (if 0 > d.idx.m_current then 0 else d.idx.m_current) = d.idx.m_current := by
    split_ifs <;> omega
  rw [e2]
  have e3 : (if 0 < d.idx.m_current then 0 else d.idx.m_current) = 0 := by
    split_ifs <;> omega
  rw [e3, e2]
  simp

theorem foldl_streamIn (f : Nat → ArraySpan) (H : List Nat) : ∀ d : DArray,
    H.foldl (fun m st => m.streamIn (f st)) d
      = (H.flatMap fun st => (f st).elems).foldl putIn d := by
  induction H with
  | nil => intro d; rfl
  | cons h H ih =>
    intro d
    rw [List.foldl_cons, ih, List.flatMap_cons, List.foldl_append]
    rfl

end DArray

theorem byteArray4_elems (st : Nat) :
    (ByteArrayOfScalar Endianes.Big 4 st).elems
      = [st / 2 ^ 24 % 256, st / 2 ^ 16 % 256, st / 2 ^ 8 % 256, st % 256] := by
  unfold ByteArrayOfScalar
  have hr : List.range (4 + 1) = [0, 1, 2, 3, 4] := by decide
  simp only [hr, List.map, List.take, BytesOfScalar.getByte_eq_div]
  norm_num

theorem byteArray8_elems (x : Nat) :
    (ByteArrayOfScalar Endianes.Big 8 x).elems = FIPS.be64 x := by
  unfold ByteArrayOfScalar FIPS.be64
  have hr : List.range (8 + 1) = [0, 1, 2, 3, 4, 5, 6, 7, 8] := by decide
  have hr8 : List.range 8 = [0, 1, 2, 3, 4, 5, 6, 7] := by decide
  simp only [hr, hr8, List.map, List.take, BytesOfScalar.getByte_eq_div]

namespace Sha256

/-- After the last steps of `finalize`, `m_hash.reader()` is the digest of `hs32`. -/
theorem writeDigest_reader (s : Sha256) (hH : s.hs32.length = 8) (h0 : s.m_hash.idx.m_begin = 0)
    (h32 : s.m_hash.idx.m_end = 32) (hl : s.m_hash.m_array.length = 33) :
    s.writeDigest.m_hash.reader.elems = FIPS.digest s.hs32 := by
  unfold writeDigest
  simp only []
  rw [DArray.foldl_streamIn]
  obtain ⟨r1, r2⟩ := DArray.reset_idx s.m_hash h0
  have hbytes : (s.hs32.flatMap fun st => (ByteArrayOfScalar Endianes.Big 4 st).elems)
      = FIPS.digest s.hs32 := by
    unfold FIPS.digest
    congr 1
    funext st
    exact byteArray4_elems st
  rw [hbytes]
  have hlen : (FIPS.digest s.hs32).length = 32 := by
    match hs : s.hs32, hH with
    | [a0, a1, a2, a3, a4, a5, a6, a7], _ => rfl
  obtain ⟨q1, q2, q3⟩ := DArray.foldl_putIn (FIPS.digest s.hs32) s.m_hash.reset
    (by rw [r1]; exact h0) (by rw [r1, hlen]; simp [h32]) (by rw [r1, r2, hl]; simp [h32])
  rw [DArray.reader_elems _ (by rw [q1, r1]; exact h0) (by rw [q1, r1, hlen]; simp [h32]),
    q1, r1]
  simp only [r1] at q3
  simp only []
  rw [q3]
  simp

/-! ## Lemmas: the digest of a message -/

theorem compress_length (H block : List Nat) (hH : H.length = 8) :
    (FIPS.compress H block).length = 8 := by
  unfold FIPS.compress FIPS.compressWords
  simp [hH]

/-- Whole blocks fed to an engine with an empty accumulator: the hash value is the
compression function folded over the blocks. -/
theorem feed_blocks (n : Nat) : ∀ (s : Sha256) (l : List Nat), s.finished = false →
    s.buffer_filled = 0 → s.payload_buffer_as32bit.length = 64 → s.hs32.length = 8 →
    l.length = 64 * n →
    (feed s l).hs32 = (FIPS.blocks n (l.map (fun x => x % 256))).foldl FIPS.compress s.hs32
      ∧ (feed s l).hs32.length = 8 := by
  induction n with
  | zero =>
    intro s l _ _ _ hH hl
    have : l = [] := List.length_eq_zero.mp (by omega)
    subst this
    exact ⟨rfl, hH⟩
  | succ n ih =>
    intro s l hf hbf hP hH hl
    have hsplit : l = l.take 64 ++ l.drop 64 := (List.take_append_drop 64 l).symm
    have h64 : (l.take 64).length = 64 := by
      rw [List.length_take]
      omega
    rw [hsplit, feed_append, feed_block s (l.take 64) hf hbf hP hH h64]
    obtain ⟨h1, h2⟩ := ih
      { s with
        payload_buffer_as32bit :=
          FIPS.schedule (FIPS.words ((l.take 64).map (fun x => x % 256)))
        hs32 := FIPS.compress s.hs32 ((l.take 64).map (fun x => x % 256))
        contendlen := (s.contendlen + 64) % 2 ^ 64 }
      (l.drop 64) hf hbf
      (by simp [schedule_length, FIPS.words])
      (compress_length _ _ hH)
      (by rw [List.length_drop]; omega)
    refine ⟨?_, h2⟩
    rw [h1, ← hsplit]
    simp only [FIPS.blocks, List.foldl_cons, List.map_take, List.map_drop]

theorem be64_map (x : Nat) : (FIPS.be64 x).map (fun y => y % 256) = FIPS.be64 x := by
  unfold FIPS.be64
  rw [List.map_map]
  apply List.map_congr_left
  intro i _
  simp

theorem padWith_length (bitlen : Nat) (m : List Nat) :
    (FIPS.padWith bitlen m).length = 64 * ((m.length + 9 + (119 - m.length % 64) % 64) / 64) := by
  unfold FIPS.padWith FIPS.be64
  simp only [List.length_append, List.length_replicate, List.length_map, List.length_range,
    List.length_singleton]
  omega

/-- The digest of an engine that was fed a message from the state `reset` leaves:
it depends on the message only. -/
theorem hash_feed (s : Sha256) (m : List Nat) (fuel : Nat) (hS : Sized s)
    (hf : s.finished = false) (hbf : s.buffer_filled = 0) (hc : s.contendlen = 0)
    (hH : s.hs32 = hs32init) :
    digestOf (hash (fuel + 2) (feed s m)) = some (engineDigest m) := by
  obtain ⟨hP, hb0, hb32, hbl⟩ := hS
  obtain ⟨a1, a2, a3, a4, a5⟩ := feed_frame m s hf (by omega)
  unfold hash
  rw [finalize_eq fuel _ a1 (by rw [a2]; omega), ← feed_append]
  simp only [digestOf, Option.map_some']
  have hlen8 : s.hs32.length = 8 := by rw [hH]; rfl
  have htail : (m ++ (feed s m).padTail).map (fun x => x % 256)
      = FIPS.padWith (m.length % 2 ^ 64 * 8 % 2 ^ 64) (m.map (fun x => x % 256)) := by
    unfold padTail FIPS.padWith
    rw [a2, a5, byteArray8_elems]
    have hp0 : s.payloadLen = 0 := by simp [payloadLen, hbf, hc]
    rw [hp0, hbf]
    simp only [List.map_append, List.map_cons, List.map_replicate, be64_map, List.length_map,
      Nat.zero_add, Nat.zero_mod, List.append_assoc, List.singleton_append, List.map_nil]
    rfl
  have hpl := padWith_length (m.length % 2 ^ 64 * 8 % 2 ^ 64) (m.map (fun x => x % 256))
  rw [← htail] at hpl
  simp only [List.length_map] at hpl
  obtain ⟨b1, b2⟩ := feed_blocks _ s _ hf hbf hP hlen8 hpl
  obtain ⟨c1, c2, c3, c4, c5⟩ := feed_frame (m ++ (feed s m).padTail) s hf (by omega)
  rw [writeDigest_reader _ b2 (by rw [c4]; exact hb0) (by rw [c4]; exact hb32)
    (by rw [c4]; exact hbl), b1]
  unfold engineDigest FIPS.hashPadded
  rw [← htail, List.length_map, hpl, Nat.mul_div_cancel_left _ (by norm_num : 0 < 64), hH]
  rfl

/-! ## Lemmas: the states of an engine -/

theorem reset_finished (s : Sha256) : s.reset.finished = false := rfl

theorem reset_sized (s : Sha256) (hS : Sized s) : Sized s.reset := by
  obtain ⟨h1, h2, h3, h4⟩ := hS
  obtain ⟨r1, r2⟩ := DArray.reset_idx s.m_hash h2
  refine ⟨h1, ?_, ?_, ?_⟩
  · show s.m_hash.reset.idx.m_begin = 0
    rw [r1]
    exact h2
  · show s.m_hash.reset.idx.m_end = 32
    rw [r1]
    exact h3
  · show s.m_hash.reset.m_array.length = 33
    rw [r2]
    exact h4

theorem add_byte_reset (s : Sha256) (b : Nat) (hf : s.finished = true) :
    s.add_byte b = s.reset.add_byte b := by
  unfold add_byte
  simp [hf, reset_finished]

theorem add_block_reset (s : Sha256) (p : ArraySpan) (hf : s.finished = true) :
    s.add_block p = s.reset.add_block p := by
  unfold add_block
  simp [hf, reset_finished]

/-- After `add_byte` the engine is not finished and holds fewer than 64 bytes,
whatever the state before. -/
theorem add_byte_post (s : Sha256) (b : Nat) :
    (s.add_byte b).finished = false ∧ (s.add_byte b).buffer_filled < 64 := by
  have key : ∀ t : Sha256, t.finished = false →
      (t.add_byte b).finished = false ∧ (t.add_byte b).buffer_filled < 64 := by
    intro t ht
    unfold add_byte
    simp only [ht, Bool.false_eq_true, if_false]
    by_cases h : (t.buffer_filled + 1) % 256 < size_payload_buffer_as08bit
    · rw [if_pos h]
      exact ⟨rfl, h⟩
    · rw [if_neg h]
      exact ⟨rfl, by simp [process_buffer]⟩
  cases hf : s.finished with
  | false => exact key s hf
  | true =>
    rw [add_byte_reset s b hf]
    exact key _ (reset_finished s)

theorem add_byte_sized (s : Sha256) (b : Nat) (hS : Sized s) : Sized (s.add_byte b) := by
  have key : ∀ t : Sha256, t.finished = false → Sized t → Sized (t.add_byte b) := by
    intro t ht hT
    obtain ⟨h1, h2, h3, h4⟩ := hT
    unfold add_byte
    simp only [ht, Bool.false_eq_true, if_false]
    by_cases h : (t.buffer_filled + 1) % 256 < size_payload_buffer_as08bit
    · rw [if_pos h]
      exact ⟨by simpa using h1, h2, h3, h4⟩
    · rw [if_neg h]
      refine ⟨?_, h2, h3, h4⟩
      simp only []
      rw [process_buffer_length]
      simpa using h1
  cases hf : s.finished with
  | false => exact key s hf hS
  | true =>
    rw [add_byte_reset s b hf]
    exact key _ (reset_finished s) (reset_sized s hS)

theorem feed_sized (l : List Nat) : ∀ s : Sha256, Sized s → Sized (feed s l) := by
  induction l with
  | nil => intro s h; exact h
  | cons b l ih => intro s h; exact ih _ (add_byte_sized s b h)

theorem add_block_sized (s : Sha256) (p : ArraySpan) (hS : Sized s) : Sized (s.add_block p) := by
  cases hf : s.finished with
  | false =>
    rw [add_block_eq_feed s p hf hS.1]
    exact feed_sized _ _ hS
  | true =>
    rw [add_block_reset s p hf, add_block_eq_feed _ p (reset_finished s) (reset_sized s hS).1]
    exact feed_sized _ _ (reset_sized s hS)

theorem padding_sized (fuel : Nat) : ∀ (up : Nat) (s t : Sha256),
    padding_the_message_except_space fuel up s = some t → Sized s → Sized t := by
  induction fuel with
  | zero =>
    intro up s t h _
    simp [padding_the_message_except_space] at h
  | succ fuel ih =>
    intro up s t h hS
    unfold padding_the_message_except_space at h
    simp only [] at h
    split at h
    · rw [pad_zeros_eq] at h
      cases h
      exact feed_sized _ _ hS
    · cases h1 : padding_the_message_except_space fuel 0 s with
      | none => simp [h1] at h
      | some s1 =>
        rw [h1] at h
        exact ih up s1 t h (ih 0 s s1 h1 hS)

theorem putIn_shape (d : DArray) (c : Nat) :
    (d.putIn c).idx.m_begin = d.idx.m_begin ∧ (d.putIn c).idx.m_end = d.idx.m_end
      ∧ (d.putIn c).m_array.length = d.m_array.length := by
  unfold DArray.putIn Index.get_next
  simp only []
  refine ⟨?_, ?_, by simp⟩
  · split <;> rfl
  · split <;> rfl

theorem foldl_putIn_shape (l : List Nat) : ∀ d : DArray,
    (l.foldl DArray.putIn d).idx.m_begin = d.idx.m_begin
      ∧ (l.foldl DArray.putIn d).idx.m_end = d.idx.m_end
      ∧ (l.foldl DArray.putIn d).m_array.length = d.m_array.length := by
  induction l with
  | nil => intro d; exact ⟨rfl, rfl, rfl⟩
  | cons c l ih =>
    intro d
    obtain ⟨a1, a2, a3⟩ := ih (d.putIn c)
    obtain ⟨b1, b2, b3⟩ := putIn_shape d c
    exact ⟨a1.trans b1, a2.trans b2, a3.trans b3⟩

theorem writeDigest_sized (s : Sha256) (hS : Sized s) : Sized s.writeDigest := by
  obtain ⟨h1, h2, h3, h4⟩ := hS
  obtain ⟨r1, r2⟩ := DArray.reset_idx s.m_hash h2
  unfold writeDigest
  rw [DArray.foldl_streamIn]
  obtain ⟨a1, a2, a3⟩ := foldl_putIn_shape
    (s.hs32.flatMap fun st => (ByteArrayOfScalar Endianes.Big 4 st).elems) s.m_hash.reset
  refine ⟨h1, ?_, ?_, ?_⟩
  · simp only []
    rw [a1, r1]
    exact h2
  · simp only []
    rw [a2, r1]
    exact h3
  · simp only []
    rw [a3, r2]
    exact h4

theorem finalize_sized (fuel : Nat) (s t : Sha256) (h : finalize fuel s = some t)
    (hS : Sized s) : Sized t := by
  unfold finalize at h
  cases hf : s.finished with
  | true =>
    rw [if_neg (by rw [hf]; decide)] at h
    cases h
    exact hS
  | false =>
    rw [if_pos (by rw [hf]; rfl)] at h
    simp only [] at h
    cases h1 : padding_the_message_except_space fuel 8 (s.add_byte 128) with
    | none => simp [h1] at h
    | some s1 =>
      rw [h1] at h
      simp only [Option.some.injEq] at h
      rw [← h]
      exact writeDigest_sized _
        (feed_sized _ _ (padding_sized fuel 8 _ s1 h1 (add_byte_sized s _ hS)))

theorem new_sized : Sized Sha256.new := by
  unfold Sized
  decide

theorem new_finished : Sha256.new.finished = false := rfl

theorem new_buffer_filled : Sha256.new.buffer_filled = 0 := rfl

theorem new_contendlen : Sha256.new.contendlen = 0 := rfl

theorem new_hs32 : Sha256.new.hs32 = hs32init := rfl

/-- Every state an engine can be in has arrays of the declared sizes. -/
theorem reachable_sized (s : Sha256) (h : Reachable s) : Sized s := by
  induction h with
  | new => exact new_sized
  | reset s _ ih => exact reset_sized s ih
  | add_byte s b _ ih => exact add_byte_sized s b ih
  | add_block s p _ ih => exact add_block_sized s p ih
  | hash s fuel r _ hr ih =>
    unfold hash at hr
    cases h1 : finalize fuel s with
    | none => simp [h1] at hr
    | some t =>
      rw [h1] at hr
      simp only [Option.some.injEq] at hr
      rw [← hr]
      exact finalize_sized fuel s t h1 ih

/-- On a finished engine, calls that hand over at least one byte start a new message. -/
theorem run_finished (cs : List Call) : ∀ (s : Sha256), s.finished = true → Sized s →
    content cs ≠ [] → run s cs = feed s.reset (content cs) := by
  induction cs with
  | nil => intro s _ _ h; exact absurd rfl h
  | cons c cs ih =>
    intro s hf hS hne
    have hR := reset_sized s hS
    have hstep : ∀ l : List Nat, Call.run s c = feed s.reset l → c.content = l →
        run s (c :: cs) = feed s.reset (content (c :: cs)) := by
      intro l h1 h2
      obtain ⟨a1, a2, a3, _, _⟩ := feed_frame l s.reset (reset_finished s)
        (by show (0 : Nat) < 64; omega)
      show run (Call.run s c) cs = _
      rw [h1, run_eq_feed cs _ a1 (by rw [a2]; omega) (by rw [a3]; exact hR.1)]
      unfold content
      rw [List.flatMap_cons, feed_append, h2]
    cases c with
    | bytes l =>
      cases l with
      | nil =>
        show run s cs = _
        have : content (Call.bytes [] :: cs) = content cs := rfl
        rw [this] at hne ⊢
        exact ih s hf hS hne
      | cons x l =>
        apply hstep (x :: l) _ rfl
        show feed s (x :: l) = _
        rw [feed_cons, feed_cons, add_byte_reset s x hf]
    | block p =>
      apply hstep p.elems _ rfl
      show s.add_block p = _
      rw [add_block_reset s p hf, add_block_eq_feed _ p (reset_finished s) hR.1]

theorem foldl_compress_length (bs : List (List Nat)) : ∀ H : List Nat, H.length = 8 →
    (bs.foldl FIPS.compress H).length = 8 := by
  induction bs with
  | nil => intro H h; exact h
  | cons b bs ih => intro H h; exact ih _ (compress_length H b h)

theorem engineDigest_length (m : List Nat) : (engineDigest m).length = 32 := by
  unfold engineDigest FIPS.hashPadded
  have h := foldl_compress_length
    (FIPS.blocks ((FIPS.padWith (m.length % 2 ^ 64 * 8 % 2 ^ 64)
      (m.map (fun x => x % 256))).length / 64)
      (FIPS.padWith (m.length % 2 ^ 64 * 8 % 2 ^ 64) (m.map (fun x => x % 256))))
    FIPS.H0 rfl
  revert h
  generalize List.foldl FIPS.compress FIPS.H0 _ = H
  intro h
  match H, h with
  | [a0, a1, a2, a3, a4, a5, a6, a7], _ => rfl

theorem finalize_finished (fuel : Nat) (s : Sha256) (hf : s.finished = true) :
    finalize fuel s = some s := by
  unfold finalize
  rw [if_neg (by rw [hf]; decide)]

/-- The method `finalize` returns from every state, with any bound of at least 2 on
the depth of the recursion, and leaves the engine finished. -/
theorem finalize_total (fuel : Nat) (s : Sha256) :
    ∃ t, finalize (fuel + 2) s = some t ∧ t.finished = true := by
  cases hf : s.finished with
  | true => exact ⟨s, finalize_finished _ s hf, hf⟩
  | false =>
    obtain ⟨a1, a2⟩ := add_byte_post s 0x80
    unfold finalize
    rw [if_pos (by rw [hf]; rfl)]
    simp only []
    rw [padding_eq fuel _ a1 a2]
    exact ⟨_, rfl, rfl⟩

/-- The method `process_buffer` leaves the sixteen message words as they are. -/
theorem process_buffer_getD (s : Sha256) (i : Nat) (hP : s.payload_buffer_as32bit.length = 64)
    (hi : i < 16) :
    s.process_buffer.payload_buffer_as32bit.getD i 0 = s.payload_buffer_as32bit.getD i 0 := by
  unfold process_buffer
  simp only []
  rw [schedule_eq _ hP, ← getD_take _ 16 i 0 hi]
  have h16 : (s.payload_buffer_as32bit.take 16).length = 16 := by
    rw [List.length_take]
    omega
  have h := schedule_take (s.payload_buffer_as32bit.take 16)
  rw [h16] at h
  rw [h, getD_take _ 16 i 0 hi]

end Sha256

/-! ## Lemmas: the reference on the test vectors of the standard -/

/-- The number of zero bytes of the padding is the least one that brings the length,
with the byte 0x80, to 56 modulo 64. -/
theorem padWith_zeros (n : Nat) :
    (n + 1 + (119 - n % 64) % 64) % 64 = 56 ∧ (119 - n % 64) % 64 < 64 := by
  omega

theorem sha256_empty :
    FIPS.sha256 [] =
      [0xe3, 0xb0, 0xc4, 0x42, 0x98, 0xfc, 0x1c, 0x14, 0x9a, 0xfb, 0xf4, 0xc8, 0x99, 0x6f, 0xb9, 0x24,
       0x27, 0xae, 0x41, 0xe4, 0x64, 0x9b, 0x93, 0x4c, 0xa4, 0x95, 0x99, 0x1b, 0x78, 0x52, 0xb8, 0x55] := by
  decide!

theorem sha256_abc :
    FIPS.sha256 [0x61, 0x62, 0x63] =
      [0xba, 0x78, 0x16, 0xbf, 0x8f, 0x01, 0xcf, 0xea, 0x41, 0x41, 0x40, 0xde, 0x5d, 0xae, 0x22, 0x23,
       0xb0, 0x03, 0x61, 0xa3, 0x96, 0x17, 0x7a, 0x9c, 0xb4, 0x10, 0xff, 0x61, 0xf2, 0x00, 0x15, 0xad] := by
  decide!

theorem sha256_two_blocks :
    FIPS.sha256
      [97, 98, 99, 100, 98, 99, 100, 101, 99, 100, 101, 102, 100, 101, 102, 103, 101, 102, 103,
      104, 102, 103, 104, 105, 103, 104, 105, 106, 104, 105, 106, 107, 105, 106, 107, 108, 106,
      107, 108, 109, 107, 108, 109, 110, 108, 109, 110, 111, 109, 110, 111, 112, 110, 111, 112,
      113] =
      [0x24, 0x8d, 0x6a, 0x61, 0xd2, 0x06, 0x38, 0xb8, 0xe5, 0xc0, 0x26, 0x93, 0x0c, 0x3e, 0x60, 0x39,
       0xa3, 0x3c, 0xe4, 0x59, 0x64, 0xff, 0x21, 0x67, 0xf6, 0xec, 0xed, 0xd4, 0x19, 0xdb, 0x06, 0xc1] := by
  decide!

/-! ## The properties of the specification -/

open Sha256

/-- C1. Chunking invariance: however a message is cut into chunks, and whether each
chunk goes through `add_byte` byte by byte or through one `add_block`, a new engine
reaches the same state as when the whole message goes through `add_byte`, and `hash`
returns the same digest of 32 bytes. -/
theorem C1_chunking_invariance (cs : List Call) (fuel : Nat) :
    run Sha256.new cs = feed Sha256.new (content cs) ∧
    ∃ d : List Nat, d.length = 32 ∧
      digestOf (hash (fuel + 2) (run Sha256.new cs)) = some d ∧
      digestOf (hash (fuel + 2) (feed Sha256.new (content cs))) = some d := by
  have h := run_eq_feed cs Sha256.new new_finished (by decide) new_sized.1
  refine ⟨h, engineDigest (content cs), engineDigest_length _, ?_, ?_⟩
  · rw [h]
    exact hash_feed _ _ fuel new_sized new_finished new_buffer_filled new_contendlen new_hs32
  · exact hash_feed _ _ fuel new_sized new_finished new_buffer_filled new_contendlen new_hs32

/-- C2. For a message of bytes, shorter than `2 ^ 61` bytes, fed to a new engine, `hash`
returns the SHA-256 digest of the message as FIPS 180-4 defines it. -/
theorem C2_digest_is_sha256 (m : List Nat) (fuel : Nat) (hb : ∀ x ∈ m, x < 256)
    (hl : m.length < 2 ^ 61) :
    digestOf (hash (fuel + 2) (feed Sha256.new m)) = some (FIPS.sha256 m) := by
  rw [hash_feed _ _ fuel new_sized new_finished new_buffer_filled new_contendlen new_hs32]
  unfold engineDigest FIPS.sha256 FIPS.pad
  have h1 : m.map (fun x => x % 256) = m := by
    conv_rhs => rw [← List.map_id m]
    apply List.map_congr_left
    intro x hx
    exact Nat.mod_eq_of_lt (hb x hx)
  have h2 : m.length % 2 ^ 64 * 8 % 2 ^ 64 = 8 * m.length := by
    norm_num at hl ⊢
    omega
  rw [h1, h2]

/-- C2, at the lengths 55, 56, 63, 64 and 65 around the extra block of padding. -/
theorem C2_digest_is_sha256_witness :
    digestOf (hash 2 (feed Sha256.new (List.replicate 55 97)))
        = some (FIPS.sha256 (List.replicate 55 97)) ∧
    digestOf (hash 2 (feed Sha256.new (List.replicate 56 97)))
        = some (FIPS.sha256 (List.replicate 56 97)) ∧
    digestOf (hash 2 (feed Sha256.new (List.replicate 63 97)))
        = some (FIPS.sha256 (List.replicate 63 97)) ∧
    digestOf (hash 2 (feed Sha256.new (List.replicate 64 97)))
        = some (FIPS.sha256 (List.replicate 64 97)) ∧
    digestOf (hash 2 (feed Sha256.new (List.replicate 65 97)))
        = some (FIPS.sha256 (List.replicate 65 97)) :=
  ⟨C2_digest_is_sha256 (List.replicate 55 97) 0 (by simp) (by simp),
   C2_digest_is_sha256 (List.replicate 56 97) 0 (by simp) (by simp),
   C2_digest_is_sha256 (List.replicate 63 97) 0 (by simp) (by simp),
   C2_digest_is_sha256 (List.replicate 64 97) 0 (by simp) (by simp),
   C2_digest_is_sha256 (List.replicate 65 97) 0 (by simp) (by simp)⟩

/-- C3. With no byte added, `hash` on a new engine, and on any engine an engine can
become after `reset`, returns e3b0c442 98fc1c14 9afbf4c8 996fb924 27ae41e4 649b934c
a495991b 7852b855. -/
theorem C3_empty_digest (s : Sha256) (fuel : Nat) (hr : Reachable s) :
    digestOf (hash (fuel + 2) Sha256.new) = some
      [0xe3, 0xb0, 0xc4, 0x42, 0x98, 0xfc, 0x1c, 0x14, 0x9a, 0xfb, 0xf4, 0xc8, 0x99, 0x6f, 0xb9, 0x24,
       0x27, 0xae, 0x41, 0xe4, 0x64, 0x9b, 0x93, 0x4c, 0xa4, 0x95, 0x99, 0x1b, 0x78, 0x52, 0xb8, 0x55] ∧
    digestOf (hash (fuel + 2) s.reset) = some
      [0xe3, 0xb0, 0xc4, 0x42, 0x98, 0xfc, 0x1c, 0x14, 0x9a, 0xfb, 0xf4, 0xc8, 0x99, 0x6f, 0xb9, 0x24,
       0x27, 0xae, 0x41, 0xe4, 0x64, 0x9b, 0x93, 0x4c, 0xa4, 0x95, 0x99, 0x1b, 0x78, 0x52, 0xb8, 0x55] := by
  have he : engineDigest [] =
      [0xe3, 0xb0, 0xc4, 0x42, 0x98, 0xfc, 0x1c, 0x14, 0x9a, 0xfb, 0xf4, 0xc8, 0x99, 0x6f, 0xb9, 0x24,
       0x27, 0xae, 0x41, 0xe4, 0x64, 0x9b, 0x93, 0x4c, 0xa4, 0x95, 0x99, 0x1b, 0x78, 0x52, 0xb8, 0x55] := by
    decide!
  rw [← he]
  exact ⟨hash_feed Sha256.new [] fuel new_sized new_finished new_buffer_filled new_contendlen
      new_hs32,
    hash_feed s.reset [] fuel (reset_sized s (reachable_sized s hr)) rfl rfl rfl rfl⟩

/-- C3, on a new engine and on an engine reset in the middle of a block. -/
theorem C3_empty_digest_witness :
    digestOf (hash 2 Sha256.new) = some
      [0xe3, 0xb0, 0xc4, 0x42, 0x98, 0xfc, 0x1c, 0x14, 0x9a, 0xfb, 0xf4, 0xc8, 0x99, 0x6f, 0xb9, 0x24,
       0x27, 0xae, 0x41, 0xe4, 0x64, 0x9b, 0x93, 0x4c, 0xa4, 0x95, 0x99, 0x1b, 0x78, 0x52, 0xb8, 0x55] ∧
    digestOf (hash 2 (Sha256.new.add_byte 7).reset) = some
      [0xe3, 0xb0, 0xc4, 0x42, 0x98, 0xfc, 0x1c, 0x14, 0x9a, 0xfb, 0xf4, 0xc8, 0x99, 0x6f, 0xb9, 0x24,
       0x27, 0xae, 0x41, 0xe4, 0x64, 0x9b, 0x93, 0x4c, 0xa4, 0x95, 0x99, 0x1b, 0x78, 0x52, 0xb8, 0x55] :=
  C3_empty_digest (Sha256.new.add_byte 7) 0 (Reachable.add_byte _ 7 Reachable.new)

/-- C4. The bytes 0x61, 0x62, 0x63 added to a new engine: `hash` returns ba7816bf
8f01cfea 414140de 5dae2223 b00361a3 96177a9c b410ff61 f20015ad. -/
theorem C4_abc_digest (fuel : Nat) :
    digestOf (hash (fuel + 2) (((Sha256.new.add_byte 0x61).add_byte 0x62).add_byte 0x63)) = some
      [0xba, 0x78, 0x16, 0xbf, 0x8f, 0x01, 0xcf, 0xea, 0x41, 0x41, 0x40, 0xde, 0x5d, 0xae, 0x22, 0x23,
       0xb0, 0x03, 0x61, 0xa3, 0x96, 0x17, 0x7a, 0x9c, 0xb4, 0x10, 0xff, 0x61, 0xf2, 0x00, 0x15, 0xad] := by
  have he : engineDigest [0x61, 0x62, 0x63] =
      [0xba, 0x78, 0x16, 0xbf, 0x8f, 0x01, 0xcf, 0xea, 0x41, 0x41, 0x40, 0xde, 0x5d, 0xae, 0x22, 0x23,
       0xb0, 0x03, 0x61, 0xa3, 0x96, 0x17, 0x7a, 0x9c, 0xb4, 0x10, 0xff, 0x61, 0xf2, 0x00, 0x15, 0xad] := by
    decide!
  rw [← he]
  exact hash_feed Sha256.new [0x61, 0x62, 0x63] fuel new_sized new_finished new_buffer_filled
    new_contendlen new_hs32

/-- C5. Fast path and slow path: on an engine with an empty accumulator, `add_block`
on a span of exactly 64 bytes takes the fast path (when the engine is not finished, the
state it reaches is `process_buffer` after the loop that packs the span) and reaches
the very state that `add_byte` on the 64 bytes, one at a time, reaches: every field is
the same; hence `hash` returns the same. -/
theorem C5_fast_path_is_slow_path (s : Sha256) (p : ArraySpan) (fuel : Nat)
    (hbf : s.buffer_filled = 0) (hp : p.count = 64)
    (hP : s.payload_buffer_as32bit.length = 64) :
    (s.finished = false →
      s.add_block p =
        { process_buffer
            { s with
              payload_buffer_as32bit := (add_block_fill p s.payload_buffer_as32bit 0).1
              buffer_filled := (add_block_fill p s.payload_buffer_as32bit 0).2 } with
          contendlen := (s.contendlen + 64) % 2 ^ 64 }) ∧
    s.add_block p = feed s p.elems ∧
    hash fuel (s.add_block p) = hash fuel (feed s p.elems) := by
  have h : s.add_block p = feed s p.elems := by
    cases hf : s.finished with
    | false => exact add_block_eq_feed s p hf hP
    | true =>
      rw [add_block_reset s p hf, add_block_eq_feed _ p (reset_finished s) hP]
      unfold ArraySpan.count at hp
      match he : p.elems, hp with
      | x :: l, _ => rw [feed_cons, feed_cons, add_byte_reset s x hf]
  refine ⟨?_, h, by rw [h]⟩
  intro hf
  unfold add_block
  simp only [hf, Bool.false_eq_true, if_false]
  rw [if_pos ⟨hbf, hp⟩, hbf]
  rfl

/-- C5, on a new engine and a span of 64 bytes 0x61 followed in memory by a byte 5. -/
theorem C5_fast_path_is_slow_path_witness :
    (Sha256.new.finished = false →
      Sha256.new.add_block ⟨List.replicate 64 97, 5⟩ =
        { process_buffer
            { Sha256.new with
              payload_buffer_as32bit :=
                (add_block_fill ⟨List.replicate 64 97, 5⟩
                  Sha256.new.payload_buffer_as32bit 0).1
              buffer_filled :=
                (add_block_fill ⟨List.replicate 64 97, 5⟩
                  Sha256.new.payload_buffer_as32bit 0).2 } with
          contendlen := (Sha256.new.contendlen + 64) % 2 ^ 64 }) ∧
    Sha256.new.add_block ⟨List.replicate 64 97, 5⟩ = feed Sha256.new (List.replicate 64 97) ∧
    hash 2 (Sha256.new.add_block ⟨List.replicate 64 97, 5⟩)
      = hash 2 (feed Sha256.new (List.replicate 64 97)) :=
  C5_fast_path_is_slow_path Sha256.new ⟨List.replicate 64 97, 5⟩ 2 rfl rfl (by decide)

/-- C6. Idempotent finalize: from every state `hash` returns, and a second `hash`
right after it returns the same range and leaves every field of the engine as it was. -/
theorem C6_hash_idempotent (s : Sha256) (fuel : Nat) :
    ∃ r : ArraySpan × Sha256, hash (fuel + 2) s = some r ∧ hash (fuel + 2) r.2 = some r := by
  obtain ⟨t, h1, h2⟩ := finalize_total fuel s
  refine ⟨(t.m_hash.reader, t), ?_, ?_⟩
  · unfold Sha256.hash
    rw [h1]
  · unfold Sha256.hash
    rw [finalize_finished _ t h2]

/-! ## Lemmas: ranges of the engine's own buffer -/

/-- What `hash` returns is what the view of `m_hash` holds after the call. -/
theorem hash_is_view (fuel : Nat) (s : Sha256) (r : ArraySpan × Sha256)
    (h : Sha256.hash fuel s = some r) : r.1 = r.2.read_view r.2.hash_view := by
  unfold Sha256.hash at h
  cases hf : finalize fuel s with
  | none => simp [hf] at h
  | some t =>
    rw [hf] at h
    simp only [Option.some.injEq] at h
    rw [← h]
    rfl

/-- A call of `add_block` on a range of the engine's own `m_hash` leads to a state an
engine can be in. -/
theorem reachable_add_block_view (s : Sha256) (v : Span) (hr : Reachable s) :
    Reachable (s.add_block_view v) := by
  unfold add_block_view
  cases hf : s.finished with
  | true => exact Reachable.add_block _ _ (Reachable.reset s hr)
  | false => exact Reachable.add_block _ _ hr

theorem handover_outside (bs : List Handover) (hout : ∀ h ∈ bs, ∃ c, h = Handover.outside c) :
    ∃ cs : List Call, bs = cs.map Handover.outside := by
  induction bs with
  | nil => exact ⟨[], rfl⟩
  | cons h l ih =>
    obtain ⟨c, hc⟩ := hout h (List.mem_cons_self _ _)
    obtain ⟨cs, hcs⟩ := ih (fun x hx => hout x (List.mem_cons_of_mem _ hx))
    exact ⟨c :: cs, by rw [hc, hcs]; rfl⟩

theorem handover_map (cs : List Call) : ∀ s : Sha256,
    (cs.map Handover.outside).foldl Handover.run s = run s cs
      ∧ Handover.contents s (cs.map Handover.outside) = content cs := by
  induction cs with
  | nil => intro s; exact ⟨rfl, rfl⟩
  | cons c cs ih =>
    intro s
    obtain ⟨h1, h2⟩ := ih (Call.run s c)
    refine ⟨?_, ?_⟩
    · rw [List.map_cons, List.foldl_cons]
      exact h1
    · rw [List.map_cons, Handover.contents]
      show c.content ++ Handover.contents (Call.run s c) (cs.map Handover.outside) = _
      rw [h2]
      unfold content
      rw [List.flatMap_cons]

/-- C7, as stated, fails: when the range that `hash()` returned on a new engine, which
holds the 32 bytes of the digest of the empty message, is handed back through
`add_block`, the engine is reset before it reads the range, reads 32 zero bytes, and
the second `hash` returns their digest, 66687aad ..., and not the digest that a new
engine returns for the 32 bytes that were handed over, 5df6e0e2 .... -/
theorem C7_reuse_counterexample :
    ∃ r : ArraySpan × Sha256, Sha256.hash 2 Sha256.new = some r ∧
      Handover.content r.2 (Handover.own r.2.hash_view) = r.1.elems ∧
      r.1.elems.length = 32 ∧
      digestOf (Sha256.hash 2 (Handover.run r.2 (Handover.own r.2.hash_view))) = some
        [0x66, 0x68, 0x7a, 0xad, 0xf8, 0x62, 0xbd, 0x77, 0x6c, 0x8f, 0xc1, 0x8b, 0x8e, 0x9f, 0x8e, 0x20,
         0x08, 0x97, 0x14, 0x85, 0x6e, 0xe2, 0x33, 0xb3, 0x90, 0x2a, 0x59, 0x1d, 0x0d, 0x5f, 0x29, 0x25] ∧
      digestOf (Sha256.hash 2 (feed Sha256.new r.1.elems)) = some
        [0x5d, 0xf6, 0xe0, 0xe2, 0x76, 0x13, 0x59, 0xd3, 0x0a, 0x82, 0x75, 0x05, 0x8e, 0x29, 0x9f, 0xcc,
         0x03, 0x81, 0x53, 0x45, 0x45, 0xf5, 0x5c, 0xf4, 0x3e, 0x41, 0x98, 0x3f, 0x5d, 0x4c, 0x94, 0x56] ∧
      digestOf (Sha256.hash 2 (Handover.run r.2 (Handover.own r.2.hash_view)))
        ≠ digestOf (Sha256.hash 2 (feed Sha256.new r.1.elems)) := by
  decide!


/-- C7, amended. Reuse after finalize: after a first message and `hash`, bytes handed
over through `add_byte`, or through `add_block` with spans that lie outside the
engine, at least one byte in all, and a second `hash` return the digest a new engine
returns for these bytes alone. -/
theorem C7_reuse_after_finalize (as : List Call) (bs : List Handover) (fuel : Nat)
    (hout : ∀ h ∈ bs, ∃ c, h = Handover.outside c) :
    ∃ r : ArraySpan × Sha256, Sha256.hash (fuel + 2) (run Sha256.new as) = some r ∧
      (Handover.contents r.2 bs ≠ [] →
        digestOf (Sha256.hash (fuel + 2) (bs.foldl Handover.run r.2))
          = digestOf (Sha256.hash (fuel + 2) (bs.foldl Handover.run Sha256.new)) ∧
        digestOf (Sha256.hash (fuel + 2) (bs.foldl Handover.run r.2))
          = some (engineDigest (Handover.contents r.2 bs)) ∧
        digestOf (Sha256.hash (fuel + 2) (bs.foldl Handover.run r.2))
          = digestOf (Sha256.hash (fuel + 2) (feed Sha256.new (Handover.contents r.2 bs)))) := by
  obtain ⟨cs, hcs⟩ := handover_outside bs hout
  subst hcs
  obtain ⟨t, h1, h2⟩ := finalize_total fuel (run Sha256.new as)
  have hS : Sized t := by
    apply finalize_sized _ _ t h1
    rw [run_eq_feed as Sha256.new new_finished (by decide) new_sized.1]
    exact feed_sized _ _ new_sized
  refine ⟨(t.m_hash.reader, t), ?_, ?_⟩
  · unfold Sha256.hash
    rw [h1]
  · show Handover.contents t _ ≠ [] → _
    rw [(handover_map cs t).1, (handover_map cs t).2, (handover_map cs Sha256.new).1]
    intro hb
    have e1 : digestOf (Sha256.hash (fuel + 2) (run t cs)) = some (engineDigest (content cs)) := by
      rw [run_finished cs t h2 hS hb]
      exact hash_feed _ _ fuel (reset_sized t hS) rfl rfl rfl rfl
    have e2 : digestOf (Sha256.hash (fuel + 2) (run Sha256.new cs))
        = some (engineDigest (content cs)) := by
      rw [run_eq_feed cs Sha256.new new_finished (by decide) new_sized.1]
      exact hash_feed _ _ fuel new_sized new_finished new_buffer_filled new_contendlen new_hs32
    have e3 : digestOf (Sha256.hash (fuel + 2) (feed Sha256.new (content cs)))
        = some (engineDigest (content cs)) :=
      hash_feed _ _ fuel new_sized new_finished new_buffer_filled new_contendlen new_hs32
    exact ⟨e1.trans e2.symm, e1, e1.trans e3.symm⟩

/-- C7, with a first message of three bytes and a second one handed over as a span
that lies outside the engine. -/
theorem C7_reuse_after_finalize_witness :
    ∃ r : ArraySpan × Sha256,
      Sha256.hash (0 + 2) (run Sha256.new [Call.bytes [1, 2, 3]]) = some r ∧
      digestOf (Sha256.hash (0 + 2)
          ([Handover.outside (Call.block ⟨[4, 5], 0⟩)].foldl Handover.run r.2))
        = digestOf (Sha256.hash (0 + 2) (feed Sha256.new [4, 5])) := by
  obtain ⟨r, h1, h2⟩ := C7_reuse_after_finalize [Call.bytes [1, 2, 3]]
    [Handover.outside (Call.block ⟨[4, 5], 0⟩)] 0
    (fun h hm => ⟨Call.block ⟨[4, 5], 0⟩, List.mem_singleton.mp hm⟩)
  exact ⟨r, h1, (h2 (List.cons_ne_nil _ _)).2.2⟩

/-- C8. Reuse through `reset`: from every state an engine can be in, `reset`, then any
calls, then `hash` return the digest a new engine returns for the same calls; `reset`
leaves `payload_buffer_as32bit` as it was, and what it holds does not show. -/
theorem C8_reuse_after_reset (s : Sha256) (cs : List Call) (fuel : Nat) (hr : Reachable s) :
    s.reset.payload_buffer_as32bit = s.payload_buffer_as32bit ∧
    digestOf (hash (fuel + 2) (run s.reset cs))
      = digestOf (hash (fuel + 2) (run Sha256.new cs)) ∧
    digestOf (hash (fuel + 2) (run s.reset cs)) = some (engineDigest (content cs)) := by
  have hS := reset_sized s (reachable_sized s hr)
  have e1 : digestOf (hash (fuel + 2) (run s.reset cs)) = some (engineDigest (content cs)) := by
    rw [run_eq_feed cs s.reset rfl (by show (0 : Nat) < 64; omega) hS.1]
    exact hash_feed _ _ fuel hS rfl rfl rfl rfl
  have e2 : digestOf (hash (fuel + 2) (run Sha256.new cs)) = some (engineDigest (content cs)) := by
    rw [run_eq_feed cs Sha256.new new_finished (by decide) new_sized.1]
    exact hash_feed _ _ fuel new_sized new_finished new_buffer_filled new_contendlen new_hs32
  exact ⟨rfl, e1.trans e2.symm, e1⟩

/-- C8, on an engine reset with one byte in the accumulator. -/
theorem C8_reuse_after_reset_witness :
    (Sha256.new.add_byte 9).reset.payload_buffer_as32bit
      = (Sha256.new.add_byte 9).payload_buffer_as32bit ∧
    digestOf (hash 2 (run (Sha256.new.add_byte 9).reset [Call.bytes [1, 2]]))
      = digestOf (hash 2 (run Sha256.new [Call.bytes [1, 2]])) ∧
    digestOf (hash 2 (run (Sha256.new.add_byte 9).reset [Call.bytes [1, 2]]))
      = some (engineDigest (content [Call.bytes [1, 2]])) :=
  C8_reuse_after_reset (Sha256.new.add_byte 9) [Call.bytes [1, 2]] 0
    (Reachable.add_byte _ 9 Reachable.new)

/-- C9. After `reset`, from every state: the eight running words are the initial
constants of SHA-256, the length counter and the count of buffered bytes are 0, and
`finished` is false. -/
theorem C9_reset_postcondition (s : Sha256) :
    s.reset.hs32 = [0x6a09e667, 0xbb67ae85, 0x3c6ef372, 0xa54ff53a,
                    0x510e527f, 0x9b05688c, 0x1f83d9ab, 0x5be0cd19] ∧
    s.reset.contendlen = 0 ∧ s.reset.buffer_filled = 0 ∧ s.reset.finished = false :=
  ⟨rfl, rfl, rfl, rfl⟩

/-- C10. One `add_byte` on an engine that is not finished and holds `n` bytes, `n` at
most 63: the byte becomes byte `n % 4`, in big-endian order, of message word `n / 4`,
and every other byte of the sixteen message words stays; with `n < 63` the count
becomes `n + 1` and the running words and the length counter stay; with `n = 63`
`process_buffer` runs once on the completed block, the count becomes 0 and the length
counter grows by 64 (in `u64`). -/
theorem C10_add_byte_transition (s : Sha256) (b : Nat) (hf : s.finished = false)
    (hn : s.buffer_filled ≤ 63) (hP : s.payload_buffer_as32bit.length = 64) (hb : b < 256) :
    BytesOfScalar.getByte Endianes.Big 4
        ((s.add_byte b).payload_buffer_as32bit.getD (s.buffer_filled / 4) 0)
        (s.buffer_filled % 4) = b ∧
    (∀ i j, i < 16 → j < 4 → (i ≠ s.buffer_filled / 4 ∨ j ≠ s.buffer_filled % 4) →
      BytesOfScalar.getByte Endianes.Big 4 ((s.add_byte b).payload_buffer_as32bit.getD i 0) j
        = BytesOfScalar.getByte Endianes.Big 4 (s.payload_buffer_as32bit.getD i 0) j) ∧
    (s.buffer_filled < 63 →
      (s.add_byte b).buffer_filled = s.buffer_filled + 1 ∧ (s.add_byte b).hs32 = s.hs32 ∧
      (s.add_byte b).contendlen = s.contendlen) ∧
    (s.buffer_filled = 63 →
      s.add_byte b =
        { process_buffer { s with payload_buffer_as32bit := s.store b, buffer_filled := 64 } with
          contendlen := (s.contendlen + 64) % 2 ^ 64 } ∧
      (s.add_byte b).buffer_filled = 0 ∧
      (s.contendlen + 64 < 2 ^ 64 → (s.add_byte b).contendlen = s.contendlen + 64)) := by
  have hw : ∀ i, i < 16 → (s.add_byte b).payload_buffer_as32bit.getD i 0
      = (s.store b).getD i 0 := by
    intro i hi
    by_cases h : s.buffer_filled < 63
    · rw [add_byte_lt s b hf h]
    · rw [add_byte_full s b hf (by omega)]
      have key := process_buffer_getD
        { s with payload_buffer_as32bit := s.store b, buffer_filled := 64 } i
        (by simpa [store_length] using hP) hi
      simp only [] at key ⊢
      exact key
  refine ⟨?_, ?_, ?_, ?_⟩
  · rw [hw _ (by omega)]
    unfold store
    rw [getD_set, if_pos ⟨rfl, by omega⟩, BytesOfScalar.getByte_setByte, if_pos rfl]
    exact Nat.mod_eq_of_lt hb
  · intro i j hi hj hne
    rw [hw i hi]
    unfold store
    rw [getD_set]
    by_cases hc : s.buffer_filled / 4 = i
    · rw [if_pos ⟨hc, by omega⟩, BytesOfScalar.getByte_setByte, if_neg (by omega), hc]
    · rw [if_neg (fun h => hc h.1)]
  · intro h
    rw [add_byte_lt s b hf h]
    exact ⟨rfl, rfl, rfl⟩
  · intro h
    rw [add_byte_full s b hf h]
    refine ⟨rfl, rfl, ?_⟩
    intro hlt
    exact Nat.mod_eq_of_lt hlt

/-- C10, on a new engine (the byte 0x61 becomes byte 0 of word 0). -/
theorem C10_add_byte_transition_witness :
    BytesOfScalar.getByte Endianes.Big 4
        ((Sha256.new.add_byte 0x61).payload_buffer_as32bit.getD (Sha256.new.buffer_filled / 4) 0)
        (Sha256.new.buffer_filled % 4) = 0x61 ∧
    (∀ i j, i < 16 → j < 4 →
      (i ≠ Sha256.new.buffer_filled / 4 ∨ j ≠ Sha256.new.buffer_filled % 4) →
      BytesOfScalar.getByte Endianes.Big 4
          ((Sha256.new.add_byte 0x61).payload_buffer_as32bit.getD i 0) j
        = BytesOfScalar.getByte Endianes.Big 4 (Sha256.new.payload_buffer_as32bit.getD i 0) j) ∧
    (Sha256.new.buffer_filled < 63 →
      (Sha256.new.add_byte 0x61).buffer_filled = Sha256.new.buffer_filled + 1 ∧
      (Sha256.new.add_byte 0x61).hs32 = Sha256.new.hs32 ∧
      (Sha256.new.add_byte 0x61).contendlen = Sha256.new.contendlen) ∧
    (Sha256.new.buffer_filled = 63 →
      Sha256.new.add_byte 0x61 =
        { process_buffer { Sha256.new with
            payload_buffer_as32bit := Sha256.new.store 0x61, buffer_filled := 64 } with
          contendlen := (Sha256.new.contendlen + 64) % 2 ^ 64 } ∧
      (Sha256.new.add_byte 0x61).buffer_filled = 0 ∧
      (Sha256.new.contendlen + 64 < 2 ^ 64 →
        (Sha256.new.add_byte 0x61).contendlen = Sha256.new.contendlen + 64)) :=
  C10_add_byte_transition Sha256.new 0x61 rfl (by decide) (by decide) (by decide)

/-! ## Lemmas: spans -/

theorem min_le_max (a b : Nat) : min a b ≤ max a b := by
  unfold min max
  split_ifs <;> omega

theorem to_u64_of_nonneg (n : Nat) (h : n < 2 ^ 64) : narrow.to_u64 (n : Int) = n := by
  unfold narrow.to_u64 max
  have e : ((n : Int) % 2 ^ 64).toNat = n := by omega
  rw [e]
  split_ifs <;> omega

/-! ## Lemmas: bytes of a scalar, both byte orders -/

namespace BytesOfScalar

theorem getByte_setByte_little (b i j w : Nat) :
    getByte Endianes.Little 4 (setByte Endianes.Little b i w) j
      = if j % 4 = i % 4 then b % 256 else getByte Endianes.Little 4 w j := by
  have h := byte_core w b (8 * (i % 4)) (8 * (j % 4)) (by omega) (by omega) (by omega)
  unfold getByte setByte mask shift
  by_cases hc : j % 4 = i % 4
  · rw [if_pos hc]
    rw [if_pos (by omega)] at h
    exact h
  · rw [if_neg hc]
    rw [if_neg (by omega)] at h
    exact h

theorem getByte_setByte_any (e : Endianes) (b i j w : Nat) :
    getByte e 4 (setByte e b i w) j
      = if j % 4 = i % 4 then b % 256 else getByte e 4 w j := by
  cases e with
  | Big => exact getByte_setByte b i j w
  | Little => exact getByte_setByte_little b i j w

theorem getByte_little_div (N v j : Nat) :
    getByte Endianes.Little N v j = v / 2 ^ (8 * (j % N)) % 256 := by
  unfold getByte shift
  rw [Nat.and_comm, Nat.shiftRight_eq_div_pow]
  exact Nat.and_pow_two_sub_one_eq_mod _ 8

/-- Two words below `2 ^ 32` with the same four bytes are equal. -/
theorem word_ext (e : Endianes) (v w : Nat) (hv : v < 2 ^ 32) (hw : w < 2 ^ 32)
    (h0 : getByte e 4 v 0 = getByte e 4 w 0) (h1 : getByte e 4 v 1 = getByte e 4 w 1)
    (h2 : getByte e 4 v 2 = getByte e 4 w 2) (h3 : getByte e 4 v 3 = getByte e 4 w 3) :
    v = w := by
  cases e with
  | Big =>
    simp only [getByte_eq_div] at h0 h1 h2 h3
    norm_num at hv hw h0 h1 h2 h3
    omega
  | Little =>
    simp only [getByte_little_div] at h0 h1 h2 h3
    norm_num at hv hw h0 h1 h2 h3
    omega

/-- At four bytes the shift of `setByte` is defined and `setByteN` is `setByte`. -/
theorem setByteN_four (ub : Nat → Nat → Int) (e : Endianes) (b i w : Nat) :
    setByteN ub e 4 b i w = setByte e b i w := by
  have hs : shift e 4 (i % 4) < 32 := by
    unfold shift
    cases e <;> simp only [] <;> omega
  have hx : (b % 256) * 2 ^ shift e 4 (i % 4) < 2 ^ 32 := by
    have h1 : b % 256 < 2 ^ 8 := Nat.mod_lt _ (by norm_num)
    have h2 : shift e 4 (i % 4) ≤ 24 := by
      unfold shift
      cases e <;> simp only [] <;> omega
    calc (b % 256) * 2 ^ shift e 4 (i % 4)
        < 2 ^ 8 * 2 ^ shift e 4 (i % 4) :=
          Nat.mul_lt_mul_of_pos_right h1 (Nat.pow_pos (by norm_num))
      _ = 2 ^ (8 + shift e 4 (i % 4)) := (Nat.pow_add 2 8 _).symm
      _ ≤ 2 ^ 32 := Nat.pow_le_pow_right (by norm_num) (by omega)
  unfold setByteN shiftByte setByte
  simp only []
  rw [if_pos ⟨hs, hx⟩]
  generalize shift e 4 (i % 4) = sh at hs hx
  generalize hX : (b % 256) * 2 ^ sh = X at hx
  have hconv : ((if X < 2 ^ 31 then (X : Int) else (X : Int) - 2 ^ 32) % 2 ^ (8 * 4)).toNat
      = X := by
    norm_num at hx ⊢
    split_ifs <;> omega
  rw [hconv, Nat.shiftLeft_eq, hX, Nat.mod_eq_of_lt hx]

end BytesOfScalar

theorem byteArray4_any (e : Endianes) (v : Nat) :
    (ByteArrayOfScalar e 4 v).elems
      = [BytesOfScalar.getByte e 4 v 0, BytesOfScalar.getByte e 4 v 1,
         BytesOfScalar.getByte e 4 v 2, BytesOfScalar.getByte e 4 v 3] := by
  unfold ByteArrayOfScalar
  have hr : List.range (4 + 1) = [0, 1, 2, 3, 4] := by decide
  simp only [hr, List.map, List.take]

theorem byteArray8_any (e : Endianes) (v : Nat) :
    (ByteArrayOfScalar e 8 v).elems
      = [BytesOfScalar.getByte e 8 v 0, BytesOfScalar.getByte e 8 v 1,
         BytesOfScalar.getByte e 8 v 2, BytesOfScalar.getByte e 8 v 3,
         BytesOfScalar.getByte e 8 v 4, BytesOfScalar.getByte e 8 v 5,
         BytesOfScalar.getByte e 8 v 6, BytesOfScalar.getByte e 8 v 7] := by
  unfold ByteArrayOfScalar
  have hr : List.range (8 + 1) = [0, 1, 2, 3, 4, 5, 6, 7, 8] := by decide
  simp only [hr, List.map, List.take]

namespace BytesOfScalar

/-- An `int` converted to a type of 64 bits has its sign in all the bits from 31 on. -/
theorem sign_bits (i : Int) (h1 : -2 ^ 31 ≤ i) (h2 : i < 2 ^ 31) (k : Nat) (hk1 : 31 ≤ k)
    (hk2 : k < 64) : ((i % 2 ^ 64).toNat).testBit k = decide (i < 0) := by
  by_cases hn : i < 0
  · have e : (i % 2 ^ 64).toNat = 2 ^ 64 - ((-i - 1).toNat + 1) := by omega
    have hlt : (-i - 1).toNat < 2 ^ 31 := by omega
    rw [e, Nat.testBit_two_pow_sub_succ (lt_of_lt_of_le hlt (by norm_num))]
    have hb : (-i - 1).toNat.testBit k = false :=
      Nat.testBit_lt_two_pow (lt_of_lt_of_le hlt (Nat.pow_le_pow_right (by norm_num) hk1))
    rw [hb]
    simp [hk2, hn]
  · have e : (i % 2 ^ 64).toNat = i.toNat := by omega
    have hlt : i.toNat < 2 ^ 31 := by omega
    rw [e, Nat.testBit_lt_two_pow (lt_of_lt_of_le hlt (Nat.pow_le_pow_right (by norm_num) hk1))]
    simp [hn]

/-- What `setByte` puts into a value of 64 bits has the bits 56 and 57 equal: both are
the sign of the shifted `int`, whatever the shift gave. -/
theorem shiftByte_sign (ub : Nat → Nat → Int) (b s : Nat) :
    (shiftByte ub 8 b s).testBit 56 = (shiftByte ub 8 b s).testBit 57 := by
  unfold shiftByte
  simp only []
  have key : ∀ i : Int, -2 ^ 31 ≤ i → i < 2 ^ 31 →
      ((i % 2 ^ (8 * 8)).toNat).testBit 56 = ((i % 2 ^ (8 * 8)).toNat).testBit 57 := by
    intro i h1 h2
    rw [show (8 * 8 : Nat) = 64 from rfl, sign_bits i h1 h2 56 (by norm_num) (by norm_num),
      sign_bits i h1 h2 57 (by norm_num) (by norm_num)]
  apply key
  · split_ifs with h h3
    · omega
    · omega
    · unfold toI32; omega
  · split_ifs with h h3
    · omega
    · omega
    · unfold toI32; omega

theorem mask_bits (e : Endianes) (i : Nat) :
    (mask e 8 (i % 8)).testBit 56 = (mask e 8 (i % 8)).testBit 57 := by
  have h : i % 8 < 8 := Nat.mod_lt _ (by norm_num)
  generalize i % 8 = j at h
  interval_cases j <;> cases e <;> decide

/-- A call of `setByte` on a value of 64 bits keeps the bits 56 and 57 equal. -/
theorem setByteN_bits (ub : Nat → Nat → Int) (e : Endianes) (b i m : Nat)
    (h : m.testBit 56 = m.testBit 57) :
    (setByteN ub e 8 b i m).testBit 56 = (setByteN ub e 8 b i m).testBit 57 := by
  unfold setByteN
  simp only []
  rw [show (8 * 8 : Nat) = 64 from rfl, Nat.testBit_mod_two_pow, Nat.testBit_mod_two_pow,
    Nat.testBit_or, Nat.testBit_or, Nat.testBit_and, Nat.testBit_and, h, mask_bits,
    shiftByte_sign]
  simp

/-- What `fromBytes` returns for a type of eight bytes has the bits 56 and 57 equal,
whatever the bytes, the byte order and the shifts that the language leaves open. -/
theorem fromBytes_bits (ub : Nat → Nat → Int) (e : Endianes) (p_a : List Nat) :
    (fromBytes ub e 8 p_a).testBit 56 = (fromBytes ub e 8 p_a).testBit 57 := by
  unfold fromBytes
  have key : ∀ (l : List Nat) (m : Nat), m.testBit 56 = m.testBit 57 →
      (l.foldl (fun m_v i => setByteN ub e 8 (p_a.getD i 0) (i % 256) m_v) m).testBit 56
        = (l.foldl (fun m_v i => setByteN ub e 8 (p_a.getD i 0) (i % 256) m_v) m).testBit 57 := by
    intro l
    induction l with
    | nil => intro m h; exact h
    | cons a l ih =>
      intro m h
      rw [List.foldl_cons]
      exact ih _ (setByteN_bits ub e _ _ m h)
  exact key _ 0 (by decide)

/-- The byte 0x80 shifted by 24 is a negative `int`: converted to 64 bits it has the
bits 31 to 63 set. -/
theorem shiftByte_sign_extends (ub : Nat → Nat → Int) :
    shiftByte ub 8 0x80 24 = 0xFFFFFFFF80000000 := by
  unfold shiftByte
  simp only []
  rw [if_pos (by decide)]
  decide

/-- With the shift count taken modulo 32, the value 1 packed into eight bytes comes
back from `fromBytes`, in both byte orders: its only byte that is not zero is shifted
by 0. -/
theorem fromBytes_of_one :
    fromBytes shl_count_masked Endianes.Big 8 (ByteArrayOfScalar Endianes.Big 8 1).elems = 1 ∧
    fromBytes shl_count_masked Endianes.Little 8 (ByteArrayOfScalar Endianes.Little 8 1).elems
      = 1 := by
  decide

end BytesOfScalar

/-! ## Lemmas: what holds in every state of an engine -/

namespace Sha256

theorem add_byte_inv (s : Sha256) (b : Nat) (hf : s.finished = false)
    (hH : s.hs32.length = 8) (hbf : s.buffer_filled < 64) (hc : s.contendlen % 64 = 0)
    (hc2 : s.contendlen < 2 ^ 64) :
    (s.add_byte b).finished = false ∧ (s.add_byte b).hs32.length = 8
      ∧ (s.add_byte b).buffer_filled < 64 ∧ (s.add_byte b).contendlen % 64 = 0
      ∧ (s.add_byte b).contendlen < 2 ^ 64 := by
  by_cases h : s.buffer_filled < 63
  · rw [add_byte_lt s b hf h]
    exact ⟨hf, hH, by simp only []; omega, hc, hc2⟩
  · rw [add_byte_full s b hf (by omega)]
    refine ⟨hf, rfl, by simp [process_buffer], ?_, ?_⟩
    · simp only []
      omega
    · simp only []
      omega

theorem feed_inv (l : List Nat) : ∀ s : Sha256, s.finished = false → s.hs32.length = 8 →
    s.buffer_filled < 64 → s.contendlen % 64 = 0 → s.contendlen < 2 ^ 64 →
    (feed s l).finished = false ∧ (feed s l).hs32.length = 8
      ∧ (feed s l).buffer_filled < 64 ∧ (feed s l).contendlen % 64 = 0
      ∧ (feed s l).contendlen < 2 ^ 64 := by
  induction l with
  | nil => intro s h1 h2 h3 h4 h5; exact ⟨h1, h2, h3, h4, h5⟩
  | cons b l ih =>
    intro s h1 h2 h3 h4 h5
    obtain ⟨a1, a2, a3, a4, a5⟩ := add_byte_inv s b h1 h2 h3 h4 h5
    exact ih _ a1 a2 a3 a4 a5

theorem reset_inv (s : Sha256) :
    s.reset.finished = false ∧ s.reset.hs32.length = 8 ∧ s.reset.buffer_filled < 64
      ∧ s.reset.contendlen % 64 = 0 ∧ s.reset.contendlen < 2 ^ 64 :=
  ⟨rfl, rfl, by show (0 : Nat) < 64; omega, rfl, by show (0 : Nat) < 2 ^ 64; norm_num⟩

theorem inv_of_not_finished (s : Sha256) (h : s.finished = false ∧ s.hs32.length = 8
      ∧ s.buffer_filled < 64 ∧ s.contendlen % 64 = 0 ∧ s.contendlen < 2 ^ 64) : Inv s :=
  ⟨h.2.1, h.2.2.1, h.2.2.2.1, h.2.2.2.2, fun hf => by rw [h.1] at hf; cases hf⟩

/-- What `padding_the_message_except_space` returns, with any bound on the depth, is
the engine after some bytes went through `add_byte`. -/
theorem padding_feed (fuel : Nat) : ∀ (up : Nat) (s t : Sha256),
    padding_the_message_except_space fuel up s = some t → ∃ l : List Nat, t = feed s l := by
  induction fuel with
  | zero =>
    intro up s t h
    simp [padding_the_message_except_space] at h
  | succ fuel ih =>
    intro up s t h
    unfold padding_the_message_except_space at h
    simp only [] at h
    split at h
    · rw [pad_zeros_eq] at h
      cases h
      exact ⟨_, rfl⟩
    · cases h1 : padding_the_message_except_space fuel 0 s with
      | none => simp [h1] at h
      | some s1 =>
        rw [h1] at h
        obtain ⟨l1, e1⟩ := ih 0 s s1 h1
        obtain ⟨l2, e2⟩ := ih up s1 t h
        exact ⟨l1 ++ l2, by rw [feed_append, ← e1, e2]⟩

/-- What `finalize` returns on an engine that is not finished, with any bound on the
depth: the engine after some bytes went through `add_byte`, with the digest written. -/
theorem finalize_some (fuel : Nat) (s t : Sha256) (h : finalize fuel s = some t)
    (hf : s.finished = false) : ∃ l : List Nat, t = writeDigest (feed s l) := by
  unfold finalize at h
  rw [if_pos (by rw [hf]; rfl)] at h
  simp only [] at h
  cases h1 : padding_the_message_except_space fuel 8 (s.add_byte 128) with
  | none => simp [h1] at h
  | some s1 =>
    rw [h1] at h
    simp only [Option.some.injEq] at h
    obtain ⟨l1, e1⟩ := padding_feed fuel 8 _ s1 h1
    refine ⟨128 :: (l1 ++ (ByteArrayOfScalar Endianes.Big 8 (s.payloadLen * 8 % 2 ^ 64)).elems),
      ?_⟩
    rw [← h, feed_cons, feed_append, ← e1]
    rfl

theorem writeDigest_inv (s : Sha256) (hS : Sized s) (hH : s.hs32.length = 8)
    (hbf : s.buffer_filled < 64) (hc : s.contendlen % 64 = 0) (hc2 : s.contendlen < 2 ^ 64) :
    Inv s.writeDigest :=
  ⟨hH, hbf, hc, hc2, fun _ => writeDigest_reader s hH hS.2.1 hS.2.2.1 hS.2.2.2⟩

theorem new_reset : Sha256.new.reset = Sha256.new := by
  decide

theorem new_inv : Inv Sha256.new :=
  inv_of_not_finished _ ⟨rfl, rfl, by decide, rfl, by decide⟩

/-- Every state an engine can be in has eight running words, fewer than 64 bytes
buffered, a length counter that is a multiple of 64, and, once finished, the digest
of the running words in `m_hash`. -/
theorem reachable_inv (s : Sha256) (h : Reachable s) : Inv s := by
  induction h with
  | new => exact new_inv
  | reset s _ _ => exact inv_of_not_finished _ (reset_inv s)
  | add_byte s b _ ih =>
    obtain ⟨i1, i2, i3, i4, _⟩ := ih
    apply inv_of_not_finished
    cases hf : s.finished with
    | false => exact add_byte_inv s b hf i1 i2 i3 i4
    | true =>
      rw [add_byte_reset s b hf]
      obtain ⟨r1, r2, r3, r4, r5⟩ := reset_inv s
      exact add_byte_inv _ b r1 r2 r3 r4 r5
  | add_block s p hr ih =>
    obtain ⟨i1, i2, i3, i4, _⟩ := ih
    have hS := reachable_sized s hr
    apply inv_of_not_finished
    cases hf : s.finished with
    | false =>
      rw [add_block_eq_feed s p hf hS.1]
      exact feed_inv _ s hf i1 i2 i3 i4
    | true =>
      rw [add_block_reset s p hf, add_block_eq_feed _ p (reset_finished s) (reset_sized s hS).1]
      obtain ⟨r1, r2, r3, r4, r5⟩ := reset_inv s
      exact feed_inv _ _ r1 r2 r3 r4 r5
  | hash s fuel r hr hh ih =>
    have hS := reachable_sized s hr
    unfold Sha256.hash at hh
    cases h1 : finalize fuel s with
    | none => simp [h1] at hh
    | some t =>
      rw [h1] at hh
      simp only [Option.some.injEq] at hh
      rw [← hh]
      show Inv t
      cases hf : s.finished with
      | true =>
        rw [finalize_finished fuel s hf] at h1
        cases h1
        exact ih
      | false =>
        obtain ⟨i1, i2, i3, i4, _⟩ := ih
        obtain ⟨l, e⟩ := finalize_some fuel s t h1 hf
        obtain ⟨f1, f2, f3, f4, f5⟩ := feed_inv l s hf i1 i2 i3 i4
        rw [e]
        exact writeDigest_inv _ (feed_sized l s hS) f2 f3 f4 f5

/-- The calls of `process_buffer` while bytes go through `add_byte`, counted. -/
theorem processRuns_eq (l : List Nat) : ∀ s : Sha256, s.finished = false →
    s.buffer_filled < 64 → processRuns s l = (s.buffer_filled + l.length) / 64 := by
  induction l with
  | nil =>
    intro s _ hbf
    simp only [processRuns, List.length_nil]
    omega
  | cons b l ih =>
    intro s hf hbf
    obtain ⟨a1, a2, _, _, _⟩ := add_byte_frame s b hf hbf
    unfold processRuns
    rw [ih _ a1 (by rw [a2]; omega), a2]
    simp only [hf, Bool.false_eq_true, if_false, size_payload_buffer_as08bit, List.length_cons]
    split_ifs <;> omega

/-- The recurrence of the message schedule, on the words an iteration has added. -/
theorem iterate_extend_rec (n : Nat) : ∀ (W0 : List Nat) (i : Nat), 16 ≤ W0.length →
    W0.length ≤ i → i < W0.length + n →
    (Nat.iterate FIPS.extend n W0).getD i 0 =
      (FIPS.sigma1 ((Nat.iterate FIPS.extend n W0).getD (i - 2) 0)
        + (Nat.iterate FIPS.extend n W0).getD (i - 7) 0
        + FIPS.sigma0 ((Nat.iterate FIPS.extend n W0).getD (i - 15) 0)
        + (Nat.iterate FIPS.extend n W0).getD (i - 16) 0) % 2 ^ 32 := by
  induction n with
  | zero =>
    intro W0 i _ h1 h2
    omega
  | succ n ih =>
    intro W0 i h16 h1 h2
    rw [Function.iterate_succ_apply']
    have hlen := iterate_extend_length n W0
    have ihn := ih W0
    generalize Nat.iterate FIPS.extend n W0 = Wn at ihn hlen
    have hpre : ∀ j, j < Wn.length → (FIPS.extend Wn).getD j 0 = Wn.getD j 0 := by
      intro j hj
      unfold FIPS.extend
      exact List.getD_append _ _ _ _ hj
    by_cases hi : i < W0.length + n
    · rw [hpre i (by omega), hpre (i - 2) (by omega), hpre (i - 7) (by omega),
        hpre (i - 15) (by omega), hpre (i - 16) (by omega)]
      exact ihn i h16 h1 hi
    · have hi2 : i = Wn.length := by omega
      rw [hpre (i - 2) (by omega), hpre (i - 7) (by omega),
        hpre (i - 15) (by omega), hpre (i - 16) (by omega)]
      subst hi2
      unfold FIPS.extend
      rw [List.getD_append_right _ _ _ _ (le_refl _)]
      simp

end Sha256

/-! ## The properties of the specification, continued -/

/-- C11. For a message of `L` bytes, `L < 2 ^ 61`, handed in any chunks to an engine
after `reset` (a new engine is one, its constructor ends with `reset`): `finalize`
puts through `add_byte` the byte 0x80, then `k` zero bytes, `k` the least
number with `L + 1 + k = 56` modulo 64, then the eight bytes of `8 * L` in big-endian
order, and nothing else; `process_buffer` runs once in that when `L % 64 ≤ 55` and
twice otherwise, and the accumulator is empty at the end. -/
theorem C11_padding_bytes (s : Sha256) (cs : List Call) (fuel : Nat) (hr : Reachable s)
    (hl : (content cs).length < 2 ^ 61) :
    ((content cs).length + 1 + (119 - (content cs).length % 64) % 64) % 64 = 56 ∧
    (∀ k, ((content cs).length + 1 + k) % 64 = 56 →
      (119 - (content cs).length % 64) % 64 ≤ k) ∧
    (run s.reset cs).padTail =
      0x80 :: (List.replicate ((119 - (content cs).length % 64) % 64) 0
        ++ FIPS.be64 (8 * (content cs).length)) ∧
    finalize (fuel + 2) (run s.reset cs)
      = some (writeDigest (feed (run s.reset cs) (run s.reset cs).padTail)) ∧
    processRuns (run s.reset cs) (run s.reset cs).padTail
      = (if (content cs).length % 64 ≤ 55 then 1 else 2) ∧
    (feed (run s.reset cs) (run s.reset cs).padTail).buffer_filled = 0 := by
  have hS := reset_sized s (reachable_sized s hr)
  rw [run_eq_feed cs s.reset rfl (by show (0 : Nat) < 64; omega) hS.1]
  generalize content cs = m at hl
  obtain ⟨a1, a2, a3, a4, a5⟩ := feed_frame m s.reset rfl (by show (0 : Nat) < 64; omega)
  have hbf : (feed s.reset m).buffer_filled = m.length % 64 := by
    rw [a2]
    show (0 + m.length) % 64 = _
    rw [Nat.zero_add]
  have hpl : (feed s.reset m).payloadLen = m.length := by
    rw [a5]
    show ((0 + 0) % 2 ^ 64 + m.length) % 2 ^ 64 = _
    norm_num at hl ⊢
    omega
  have htail : (feed s.reset m).padTail =
      0x80 :: (List.replicate ((119 - m.length % 64) % 64) 0 ++ FIPS.be64 (8 * m.length)) := by
    unfold padTail
    rw [hbf, hpl, byteArray8_elems]
    have e : m.length * 8 % 2 ^ 64 = 8 * m.length := by
      norm_num at hl ⊢
      omega
    rw [e]
  obtain ⟨b1, b2, _, _, _⟩ := feed_frame (feed s.reset m).padTail (feed s.reset m) a1
    (by rw [hbf]; omega)
  have hlen : (feed s.reset m).padTail.length = 9 + (119 - m.length % 64) % 64 := by
    rw [htail]
    simp [FIPS.be64]
    omega
  refine ⟨by omega, fun k hk => by omega, htail,
    finalize_eq fuel _ a1 (by rw [hbf]; omega), ?_, ?_⟩
  · rw [processRuns_eq _ _ a1 (by rw [hbf]; omega), hbf, hlen]
    split_ifs <;> omega
  · rw [b2, hbf, hlen]
    omega

/-- C11, for a message of 56 bytes on a new engine that was reset. -/
theorem C11_padding_bytes_witness :
    ((content [Call.bytes (List.replicate 56 7)]).length + 1
      + (119 - (content [Call.bytes (List.replicate 56 7)]).length % 64) % 64) % 64 = 56 ∧
    (∀ k, ((content [Call.bytes (List.replicate 56 7)]).length + 1 + k) % 64 = 56 →
      (119 - (content [Call.bytes (List.replicate 56 7)]).length % 64) % 64 ≤ k) ∧
    (run Sha256.new.reset [Call.bytes (List.replicate 56 7)]).padTail =
      0x80 :: (List.replicate
          ((119 - (content [Call.bytes (List.replicate 56 7)]).length % 64) % 64) 0
        ++ FIPS.be64 (8 * (content [Call.bytes (List.replicate 56 7)]).length)) ∧
    finalize (0 + 2) (run Sha256.new.reset [Call.bytes (List.replicate 56 7)])
      = some (writeDigest (feed (run Sha256.new.reset [Call.bytes (List.replicate 56 7)])
          (run Sha256.new.reset [Call.bytes (List.replicate 56 7)]).padTail)) ∧
    processRuns (run Sha256.new.reset [Call.bytes (List.replicate 56 7)])
        (run Sha256.new.reset [Call.bytes (List.replicate 56 7)]).padTail
      = (if (content [Call.bytes (List.replicate 56 7)]).length % 64 ≤ 55 then 1 else 2) ∧
    (feed (run Sha256.new.reset [Call.bytes (List.replicate 56 7)])
      (run Sha256.new.reset [Call.bytes (List.replicate 56 7)]).padTail).buffer_filled = 0 :=
  C11_padding_bytes Sha256.new [Call.bytes (List.replicate 56 7)] 0 Reachable.new (by decide)

/-- C12. The method `process_buffer` is the compression function of FIPS 180-4: the
message schedule keeps the sixteen message words and has, from word 16 to word 63,
`w[i] = sigma1(w[i-2]) + w[i-7] + sigma0(w[i-15]) + w[i-16]` modulo `2 ^ 32`; the
running words become what the 64 rounds over the round constants and the schedule,
and the addition to the old running words modulo `2 ^ 32`, make of them. -/
theorem C12_process_buffer_is_compression (s : Sha256)
    (hP : s.payload_buffer_as32bit.length = 64) (hH : s.hs32.length = 8) :
    s.process_buffer =
      { s with
        payload_buffer_as32bit := FIPS.schedule (s.payload_buffer_as32bit.take 16)
        hs32 := FIPS.compressWords s.hs32 (s.payload_buffer_as32bit.take 16)
        buffer_filled := 0 } ∧
    s.process_buffer.payload_buffer_as32bit.length = 64 ∧
    (∀ i, i < 16 → s.process_buffer.payload_buffer_as32bit.getD i 0
      = s.payload_buffer_as32bit.getD i 0) ∧
    (∀ i, 16 ≤ i → i < 64 → s.process_buffer.payload_buffer_as32bit.getD i 0 =
      (FIPS.sigma1 (s.process_buffer.payload_buffer_as32bit.getD (i - 2) 0)
        + s.process_buffer.payload_buffer_as32bit.getD (i - 7) 0
        + FIPS.sigma0 (s.process_buffer.payload_buffer_as32bit.getD (i - 15) 0)
        + s.process_buffer.payload_buffer_as32bit.getD (i - 16) 0) % 2 ^ 32) := by
  have h := process_buffer_eq s hP hH
  have h16 : (s.payload_buffer_as32bit.take 16).length = 16 := by
    rw [List.length_take]
    omega
  refine ⟨h, ?_, fun i hi => process_buffer_getD s i hP hi, ?_⟩
  · rw [process_buffer_length]
    exact hP
  · intro i h1 h2
    rw [h]
    simp only []
    exact iterate_extend_rec 48 _ i (by omega) (by omega) (by omega)

/-- C12, on a new engine. -/
theorem C12_process_buffer_is_compression_witness :
    Sha256.new.process_buffer =
      { Sha256.new with
        payload_buffer_as32bit := FIPS.schedule (Sha256.new.payload_buffer_as32bit.take 16)
        hs32 := FIPS.compressWords Sha256.new.hs32 (Sha256.new.payload_buffer_as32bit.take 16)
        buffer_filled := 0 } ∧
    Sha256.new.process_buffer.payload_buffer_as32bit.length = 64 ∧
    (∀ i, i < 16 → Sha256.new.process_buffer.payload_buffer_as32bit.getD i 0
      = Sha256.new.payload_buffer_as32bit.getD i 0) ∧
    (∀ i, 16 ≤ i → i < 64 → Sha256.new.process_buffer.payload_buffer_as32bit.getD i 0 =
      (FIPS.sigma1 (Sha256.new.process_buffer.payload_buffer_as32bit.getD (i - 2) 0)
        + Sha256.new.process_buffer.payload_buffer_as32bit.getD (i - 7) 0
        + FIPS.sigma0 (Sha256.new.process_buffer.payload_buffer_as32bit.getD (i - 15) 0)
        + Sha256.new.process_buffer.payload_buffer_as32bit.getD (i - 16) 0) % 2 ^ 32) :=
  C12_process_buffer_is_compression Sha256.new (by decide) (by decide)

/-- C13. From every state an engine can be in, `hash` returns a range of exactly 32
bytes, and byte `4 * i + j` of it is the byte of the bits `8 * (3 - j)` to
`8 * (3 - j) + 7` of running word `i`: the running words in big-endian order. -/
theorem C13_digest_serialization (s : Sha256) (fuel : Nat) (hr : Reachable s) :
    ∃ r : ArraySpan × Sha256, Sha256.hash (fuel + 2) s = some r ∧ r.1.elems.length = 32 ∧
      ∀ i j, i < 8 → j < 4 →
        r.1.elems.getD (4 * i + j) 0 = r.2.hs32.getD i 0 / 2 ^ (8 * (3 - j)) % 256 := by
  obtain ⟨t, h1, h2⟩ := finalize_total fuel s
  have hh : Sha256.hash (fuel + 2) s = some (t.m_hash.reader, t) := by
    unfold Sha256.hash
    rw [h1]
  obtain ⟨i1, _, _, _, i5⟩ := reachable_inv t (Reachable.hash s (fuel + 2) _ hr hh)
  refine ⟨(t.m_hash.reader, t), hh, ?_, ?_⟩
  · show t.m_hash.reader.elems.length = 32
    rw [i5 h2]
    match hs : t.hs32, i1 with
    | [a0, a1, a2, a3, a4, a5, a6, a7], _ => rfl
  · intro i j hi hj
    show t.m_hash.reader.elems.getD (4 * i + j) 0 = t.hs32.getD i 0 / 2 ^ (8 * (3 - j)) % 256
    rw [i5 h2]
    match hs : t.hs32, i1 with
    | [a0, a1, a2, a3, a4, a5, a6, a7], _ =>
      interval_cases i <;> interval_cases j <;> simp [FIPS.digest]

/-- C13, on a new engine. -/
theorem C13_digest_serialization_witness :
    ∃ r : ArraySpan × Sha256, Sha256.hash (0 + 2) Sha256.new = some r ∧
      r.1.elems.length = 32 ∧
      ∀ i j, i < 8 → j < 4 →
        r.1.elems.getD (4 * i + j) 0 = r.2.hs32.getD i 0 / 2 ^ (8 * (3 - j)) % 256 :=
  C13_digest_serialization Sha256.new 0 Reachable.new

/-- The eight bytes of a number below `2 ^ 64` stand for the number. -/
theorem ofBigEndian_be64 (x : Nat) (h : x < 2 ^ 64) : ofBigEndian (FIPS.be64 x) = x := by
  unfold ofBigEndian FIPS.be64
  have hr : List.range 8 = [0, 1, 2, 3, 4, 5, 6, 7] := by decide
  rw [hr]
  simp only [List.map, List.foldl]
  norm_num at h ⊢
  omega


/-- C14. Length counting: after `n` bytes, `n < 2 ^ 61`, handed to a new engine or to
an engine after `reset`, through `add_byte` and `add_block` in any mix, `payloadLen()`
is `n`, and the bit length that `finalize` computes from it and appends is `8 * n`,
below `2 ^ 64`: `finalize` puts through `add_byte` the byte 0x80, the zero bytes, and
then eight bytes that stand for `8 * n` in big-endian order, and writes the digest. -/
theorem C14_length_counting (s : Sha256) (cs : List Call) (fuel : Nat) (hr : Reachable s)
    (hl : (content cs).length < 2 ^ 61) :
    (run Sha256.new cs).payloadLen = (content cs).length ∧
    (run s.reset cs).payloadLen = (content cs).length ∧
    (run s.reset cs).payloadLen * 8 % 2 ^ 64 = 8 * (content cs).length ∧
    8 * (content cs).length < 2 ^ 64 ∧
    (ByteArrayOfScalar Endianes.Big 8 ((run s.reset cs).payloadLen * 8 % 2 ^ 64)).elems
      = FIPS.be64 (8 * (content cs).length) ∧
    finalize (fuel + 2) (run Sha256.new cs)
      = some (writeDigest (feed (run Sha256.new cs)
          (0x80 :: (List.replicate ((119 - (content cs).length % 64) % 64) 0
            ++ FIPS.be64 (8 * (content cs).length))))) ∧
    finalize (fuel + 2) (run s.reset cs)
      = some (writeDigest (feed (run s.reset cs)
          (0x80 :: (List.replicate ((119 - (content cs).length % 64) % 64) 0
            ++ FIPS.be64 (8 * (content cs).length))))) ∧
    ofBigEndian (FIPS.be64 (8 * (content cs).length)) = 8 * (content cs).length := by
  have e : (content cs).length * 8 % 2 ^ 64 = 8 * (content cs).length := by
    norm_num at hl ⊢
    omega
  have key : ∀ t : Sha256, Sized t → t.finished = false → t.buffer_filled = 0 →
      t.contendlen = 0 → (run t cs).payloadLen = (content cs).length ∧
      finalize (fuel + 2) (run t cs)
        = some (writeDigest (feed (run t cs)
            (0x80 :: (List.replicate ((119 - (content cs).length % 64) % 64) 0
              ++ FIPS.be64 (8 * (content cs).length))))) := by
    intro t hT hf hbf hc
    rw [run_eq_feed cs t hf (by omega) hT.1]
    obtain ⟨a1, a2, _, _, a5⟩ := feed_frame (content cs) t hf (by omega)
    have hp : (feed t (content cs)).payloadLen = (content cs).length := by
      rw [a5]
      unfold payloadLen
      rw [hbf, hc]
      norm_num at hl ⊢
      omega
    have hb : (feed t (content cs)).buffer_filled = (content cs).length % 64 := by
      rw [a2, hbf, Nat.zero_add]
    refine ⟨hp, ?_⟩
    rw [finalize_eq fuel _ a1 (by rw [hb]; omega)]
    unfold padTail
    rw [hb, hp, e, byteArray8_elems]
  obtain ⟨h1, f1⟩ := key Sha256.new new_sized rfl rfl rfl
  obtain ⟨h2, f2⟩ := key s.reset (reset_sized s (reachable_sized s hr)) rfl rfl rfl
  refine ⟨h1, h2, by rw [h2, e], by norm_num at hl ⊢; omega, ?_, f1, f2,
    ofBigEndian_be64 _ (by norm_num at hl ⊢; omega)⟩
  rw [h2, e, byteArray8_elems]

/-- C14, for 70 bytes handed over as a span of 64 bytes and six single bytes. -/
theorem C14_length_counting_witness :
    (run Sha256.new [Call.block ⟨List.replicate 64 1, 0⟩, Call.bytes [1, 2, 3, 4, 5, 6]]).payloadLen
      = (content [Call.block ⟨List.replicate 64 1, 0⟩, Call.bytes [1, 2, 3, 4, 5, 6]]).length ∧
    (run Sha256.new.reset
        [Call.block ⟨List.replicate 64 1, 0⟩, Call.bytes [1, 2, 3, 4, 5, 6]]).payloadLen
      = (content [Call.block ⟨List.replicate 64 1, 0⟩, Call.bytes [1, 2, 3, 4, 5, 6]]).length ∧
    (run Sha256.new.reset
        [Call.block ⟨List.replicate 64 1, 0⟩, Call.bytes [1, 2, 3, 4, 5, 6]]).payloadLen
        * 8 % 2 ^ 64
      = 8 * (content [Call.block ⟨List.replicate 64 1, 0⟩, Call.bytes [1, 2, 3, 4, 5, 6]]).length ∧
    8 * (content [Call.block ⟨List.replicate 64 1, 0⟩, Call.bytes [1, 2, 3, 4, 5, 6]]).length
      < 2 ^ 64 ∧
    (ByteArrayOfScalar Endianes.Big 8
        ((run Sha256.new.reset
          [Call.block ⟨List.replicate 64 1, 0⟩, Call.bytes [1, 2, 3, 4, 5, 6]]).payloadLen
          * 8 % 2 ^ 64)).elems
      = FIPS.be64
        (8 * (content [Call.block ⟨List.replicate 64 1, 0⟩, Call.bytes [1, 2, 3, 4, 5, 6]]).length) ∧
    finalize (0 + 2) (run Sha256.new [Call.block ⟨List.replicate 64 1, 0⟩, Call.bytes [1, 2, 3, 4, 5, 6]])
      = some (writeDigest (feed
          (run Sha256.new [Call.block ⟨List.replicate 64 1, 0⟩, Call.bytes [1, 2, 3, 4, 5, 6]])
          (0x80 :: (List.replicate
            ((119 - (content [Call.block ⟨List.replicate 64 1, 0⟩, Call.bytes [1, 2, 3, 4, 5, 6]]).length
              % 64) % 64) 0
            ++ FIPS.be64
              (8 * (content [Call.block ⟨List.replicate 64 1, 0⟩, Call.bytes [1, 2, 3, 4, 5, 6]]).length))))) ∧
    finalize (0 + 2) (run Sha256.new.reset [Call.block ⟨List.replicate 64 1, 0⟩, Call.bytes [1, 2, 3, 4, 5, 6]])
      = some (writeDigest (feed
          (run Sha256.new.reset [Call.block ⟨List.replicate 64 1, 0⟩, Call.bytes [1, 2, 3, 4, 5, 6]])
          (0x80 :: (List.replicate
            ((119 - (content [Call.block ⟨List.replicate 64 1, 0⟩, Call.bytes [1, 2, 3, 4, 5, 6]]).length
              % 64) % 64) 0
            ++ FIPS.be64
              (8 * (content [Call.block ⟨List.replicate 64 1, 0⟩, Call.bytes [1, 2, 3, 4, 5, 6]]).length))))) ∧
    ofBigEndian
        (FIPS.be64 (8 * (content [Call.block ⟨List.replicate 64 1, 0⟩, Call.bytes [1, 2, 3, 4, 5, 6]]).length))
      = 8 * (content [Call.block ⟨List.replicate 64 1, 0⟩, Call.bytes [1, 2, 3, 4, 5, 6]]).length :=
  C14_length_counting Sha256.new
    [Call.block ⟨List.replicate 64 1, 0⟩, Call.bytes [1, 2, 3, 4, 5, 6]] 0 Reachable.new
    (by decide)

/-- C15. Round trip at 32 bits: in both byte orders, `fromBytes` on the four bytes
that `ByteArrayOfScalar` packs a value below `2 ^ 32` into, in the same byte order,
yields the value. -/
theorem C15_round_trip_32 (ub : Nat → Nat → Int) (e : Endianes) (v : Nat) (hv : v < 2 ^ 32) :
    BytesOfScalar.fromBytes ub e 4 (ByteArrayOfScalar e 4 v).elems = v := by
  have hr : List.range 4 = [0, 1, 2, 3] := by decide
  rw [byteArray4_any]
  unfold BytesOfScalar.fromBytes
  rw [hr]
  simp only [List.foldl, List.getD_cons_zero, List.getD_cons_succ,
    BytesOfScalar.setByteN_four]
  have hb : ∀ j, BytesOfScalar.getByte e 4 v j % 256 = BytesOfScalar.getByte e 4 v j :=
    fun j => Nat.mod_eq_of_lt (BytesOfScalar.getByte_lt e 4 v j)
  apply BytesOfScalar.word_ext e _ v (BytesOfScalar.setByte_lt _ _ _ _) hv <;>
    simp [BytesOfScalar.getByte_setByte_any, hb]

/-- C15, at the value 0x89abcdef in little-endian order. -/
theorem C15_round_trip_32_witness :
    BytesOfScalar.fromBytes shl_count_masked Endianes.Little 4
        (ByteArrayOfScalar Endianes.Little 4 0x89abcdef).elems
      = 0x89abcdef :=
  C15_round_trip_32 shl_count_masked Endianes.Little 0x89abcdef (by decide)

/-- C16, the code at a failing input: for the value 0x0102030405060708 packed into
eight bytes, `fromBytes` does not yield the value, in either byte order and whatever
the shifts by 32 to 56 give, which the language leaves open: all that `setByte` puts
into the bits 32 to 63 is the sign of an `int`, so the bits 56 and 57 of the result are
equal, and those of the value are not. With the shift count taken modulo 32 the
results are 0x05060708 and 0x0506070c. Where the shift is below 32, the byte 0x80 at
index 3 of a little-endian value of eight bytes sets the bits 31 to 63, because the
shifted `int` is negative. -/
theorem C16_round_trip_64_fails (ub : Nat → Nat → Int) :
    (ByteArrayOfScalar Endianes.Big 8 0x0102030405060708).elems = [1, 2, 3, 4, 5, 6, 7, 8] ∧
    (ByteArrayOfScalar Endianes.Little 8 0x0102030405060708).elems
      = [8, 7, 6, 5, 4, 3, 2, 1] ∧
    BytesOfScalar.fromBytes ub Endianes.Big 8
        (ByteArrayOfScalar Endianes.Big 8 0x0102030405060708).elems ≠ 0x0102030405060708 ∧
    BytesOfScalar.fromBytes ub Endianes.Little 8
        (ByteArrayOfScalar Endianes.Little 8 0x0102030405060708).elems ≠ 0x0102030405060708 ∧
    BytesOfScalar.fromBytes shl_count_masked Endianes.Big 8
        (ByteArrayOfScalar Endianes.Big 8 0x0102030405060708).elems = 0x05060708 ∧
    BytesOfScalar.fromBytes shl_count_masked Endianes.Little 8
        (ByteArrayOfScalar Endianes.Little 8 0x0102030405060708).elems = 0x0506070c ∧
    BytesOfScalar.setByteN ub Endianes.Little 8 0x80 3 0 = 0xFFFFFFFF80000000 := by
  have key : ∀ (e : Endianes) (p_a : List Nat),
      BytesOfScalar.fromBytes ub e 8 p_a ≠ 0x0102030405060708 := by
    intro e p_a h
    have hb := BytesOfScalar.fromBytes_bits ub e p_a
    rw [h] at hb
    revert hb
    decide
  refine ⟨by decide, by decide, key _ _, key _ _, by decide, by decide, ?_⟩
  unfold BytesOfScalar.setByteN
  simp only []
  rw [show BytesOfScalar.shift Endianes.Little 8 (3 % 8) = 24 from rfl,
    BytesOfScalar.shiftByte_sign_extends]
  decide

/-- C17. Byte placement of `ByteArrayOfScalar` at widths 4 and 8: the array holds as
many bytes as the width, and byte `i` is `(v >> 8 * i) & 0xff` in little-endian order
and `(v >> 8 * (width - 1 - i)) & 0xff` in big-endian order. -/
theorem C17_pack_placement (N v i : Nat) (hN : N = 4 ∨ N = 8) (hi : i < N) :
    (ByteArrayOfScalar Endianes.Little N v).elems.length = N ∧
    (ByteArrayOfScalar Endianes.Big N v).elems.length = N ∧
    (ByteArrayOfScalar Endianes.Little N v).elems.getD i 0 = (v >>> (8 * i)) &&& 0xff ∧
    (ByteArrayOfScalar Endianes.Big N v).elems.getD i 0 = (v >>> (8 * (N - 1 - i))) &&& 0xff := by
  rcases hN with rfl | rfl
  · rw [byteArray4_any, byteArray4_any]
    refine ⟨rfl, rfl, ?_, ?_⟩ <;> interval_cases i <;>
      simp [BytesOfScalar.getByte, BytesOfScalar.shift, Nat.and_comm]
  · rw [byteArray8_any, byteArray8_any]
    refine ⟨rfl, rfl, ?_, ?_⟩ <;> interval_cases i <;>
      simp [BytesOfScalar.getByte, BytesOfScalar.shift, Nat.and_comm]

/-- C17, at width 8, byte 6 of the value 0x0102030405060708. -/
theorem C17_pack_placement_witness :
    (ByteArrayOfScalar Endianes.Little 8 0x0102030405060708).elems.length = 8 ∧
    (ByteArrayOfScalar Endianes.Big 8 0x0102030405060708).elems.length = 8 ∧
    (ByteArrayOfScalar Endianes.Little 8 0x0102030405060708).elems.getD 6 0
      = (0x0102030405060708 >>> (8 * 6)) &&& 0xff ∧
    (ByteArrayOfScalar Endianes.Big 8 0x0102030405060708).elems.getD 6 0
      = (0x0102030405060708 >>> (8 * (8 - 1 - 6))) &&& 0xff :=
  C17_pack_placement 8 0x0102030405060708 6 (Or.inr rfl) (by decide)

/-- C18. For the span of any two bounds and every index `x`: `limit(x)` lies between
`begin()` and `end()`, is `x` when `x` does, is `begin()` when `x` is below and
`end()` when `x` is above. -/
theorem C18_limit_clamps (a b x : Nat) :
    (Span.mk2 a b).m_begin ≤ (Span.mk2 a b).limit x ∧
    (Span.mk2 a b).limit x ≤ (Span.mk2 a b).m_end ∧
    ((Span.mk2 a b).m_begin ≤ x → x ≤ (Span.mk2 a b).m_end → (Span.mk2 a b).limit x = x) ∧
    (x < (Span.mk2 a b).m_begin → (Span.mk2 a b).limit x = (Span.mk2 a b).m_begin) ∧
    ((Span.mk2 a b).m_end < x → (Span.mk2 a b).limit x = (Span.mk2 a b).m_end) := by
  have h := min_le_max a b
  unfold Span.limit Span.mk2
  simp only []
  generalize min a b = lo at h
  generalize max a b = hi at h
  unfold min max
  refine ⟨?_, ?_, ?_, ?_, ?_⟩
  · split_ifs <;> omega
  · split_ifs <;> omega
  · intro h1 h2
    split_ifs <;> omega
  · intro h1
    split_ifs <;> omega
  · intro h1
    split_ifs <;> omega

/-- C19. The span of two bounds, in either order: `begin()` is the smaller one and
`end()` the larger one, so that `begin() ≤ end()`, and for bounds of 64 bits `count()`
is `end() - begin()`. -/
theorem C19_span_ordered (a b : Nat) :
    (Span.mk2 a b).m_begin = Nat.min a b ∧ (Span.mk2 a b).m_end = Nat.max a b ∧
    (Span.mk2 a b).m_begin ≤ (Span.mk2 a b).m_end ∧
    (a < 2 ^ 64 → b < 2 ^ 64 →
      (Span.mk2 a b).count = (Span.mk2 a b).m_end - (Span.mk2 a b).m_begin) := by
  have hmin : min a b = Nat.min a b := by
    unfold min
    split_ifs with h
    · exact (Nat.min_eq_left (Nat.le_of_lt h)).symm
    · exact (Nat.min_eq_right (by omega)).symm
  have hmax : max a b = Nat.max a b := by
    unfold max
    split_ifs with h
    · exact (Nat.max_eq_left (Nat.le_of_lt h)).symm
    · exact (Nat.max_eq_right (by omega)).symm
  refine ⟨hmin, hmax, min_le_max a b, ?_⟩
  intro ha hb
  have h := min_le_max a b
  have h2 : max a b < 2 ^ 64 := by
    unfold max
    split_ifs <;> assumption
  unfold Span.count Span.mk2
  simp only []
  generalize min a b = lo at h
  generalize max a b = hi at h h2
  have e : (hi : Int) - (lo : Int) = ((hi - lo : Nat) : Int) := by omega
  rw [e, to_u64_of_nonneg _ (by omega)]

/-- The check of a character of a file name accepts 'Z', 'z' and '9', the upper
bounds of its three spans: that is `conatins` being true at `end()`. -/
theorem CheckFileNameChar_upper_bounds :
    CheckFileNameChar 90 false = true ∧ CheckFileNameChar 122 false = true
      ∧ CheckFileNameChar 57 false = true := by
  decide

/-- The method `conatins` is true exactly from `begin()` to `end()`, `end()` included. -/
theorem conatins_closed_range (s : Span) (x : Nat) :
    s.conatins x = true ↔ (s.m_begin ≤ x ∧ x ≤ s.m_end) := by
  unfold Span.conatins
  simp

/-- C20, the code at the failing inputs: the span of the bounds 4 and 4 has `count()`
0, a span with equal bounds holding nothing, and yet `conatins(4)` is true; the span
of the bounds 'A' and 'Z' contains 'Z', its `end()`, where the range from `begin()` to
one before `end()` does not reach. -/
theorem C20_conatins_at_end :
    (Span.mk2 4 4).m_begin = 4 ∧ (Span.mk2 4 4).m_end = 4 ∧ (Span.mk2 4 4).count = 0 ∧
    (Span.mk2 4 4).conatins 4 = true ∧
    (Span.mk2 65 90).m_end = 90 ∧ (Span.mk2 65 90).conatins 90 = true ∧
    ¬ ((Span.mk2 65 90).conatins 90 = true ↔
      ((Span.mk2 65 90).m_begin ≤ 90 ∧ 90 < (Span.mk2 65 90).m_end)) := by
  decide

/-! ## Lemmas: cursors -/

theorem limit_bounds (x : Index) (i : Nat) (h : x.m_begin ≤ x.m_end) :
    x.m_begin ≤ x.limit i ∧ x.limit i ≤ x.m_end := by
  unfold Index.limit max min
  constructor <;> split_ifs <;> omega

theorem limit_of_mem (x : Index) (i : Nat) (h1 : x.m_begin ≤ i) (h2 : i ≤ x.m_end) :
    x.limit i = i := by
  unfold Index.limit max min
  split_ifs <;> omega

/-- A call keeps the bounds of a cursor, and keeps the position between them. -/
theorem IndexCall.run_valid (x : Index) (c : IndexCall)
    (h : x.m_begin ≤ x.m_current ∧ x.m_current ≤ x.m_end) :
    (IndexCall.run x c).m_begin = x.m_begin ∧ (IndexCall.run x c).m_end = x.m_end
      ∧ (IndexCall.run x c).m_begin ≤ (IndexCall.run x c).m_current
      ∧ (IndexCall.run x c).m_current ≤ (IndexCall.run x c).m_end := by
  obtain ⟨h1, h2⟩ := h
  have hbe : x.m_begin ≤ x.m_end := by omega
  cases c with
  | get_next =>
    simp only [IndexCall.run]
    unfold Index.get_next Index.eof
    by_cases he : x.m_current ≥ x.m_end
    · simp [he, h1, h2]
    · rw [if_pos (by simp [he])]
      exact ⟨rfl, rfl, by show x.m_begin ≤ x.m_current + 1; omega,
        by show x.m_current + 1 ≤ x.m_end; omega⟩
  | move_index add =>
    simp only [IndexCall.run]
    unfold Index.move_index Index.eof
    by_cases he : x.m_current ≥ x.m_end
    · simp [he, h1, h2]
    · rw [if_pos (by simp [he])]
      obtain ⟨l1, l2⟩ := limit_bounds x ((x.m_current + add) % 2 ^ 64) hbe
      exact ⟨rfl, rfl, l1, l2⟩
  | resetIndex p =>
    simp only [IndexCall.run]
    unfold Index.resetIndex
    obtain ⟨l1, l2⟩ := limit_bounds x ((x.m_begin + p) % 2 ^ 64) hbe
    exact ⟨rfl, rfl, l1, l2⟩

theorem IndexCall.foldl_valid (cs : List IndexCall) : ∀ x : Index,
    x.m_begin ≤ x.m_current ∧ x.m_current ≤ x.m_end →
    (cs.foldl IndexCall.run x).m_begin = x.m_begin ∧ (cs.foldl IndexCall.run x).m_end = x.m_end
      ∧ (cs.foldl IndexCall.run x).m_begin ≤ (cs.foldl IndexCall.run x).m_current
      ∧ (cs.foldl IndexCall.run x).m_current ≤ (cs.foldl IndexCall.run x).m_end := by
  induction cs with
  | nil => intro x h; exact ⟨rfl, rfl, h.1, h.2⟩
  | cons c cs ih =>
    intro x h
    obtain ⟨a1, a2, a3, a4⟩ := IndexCall.run_valid x c h
    obtain ⟨b1, b2, b3, b4⟩ := ih (IndexCall.run x c) ⟨a3, a4⟩
    rw [List.foldl_cons]
    exact ⟨b1.trans a1, b2.trans a2, b3, b4⟩

theorem mk2_valid (a b : Nat) :
    (Index.mk2 a b).m_begin ≤ (Index.mk2 a b).m_current
      ∧ (Index.mk2 a b).m_current ≤ (Index.mk2 a b).m_end := by
  unfold Index.mk2 min max
  simp only []
  constructor <;> split_ifs <;> omega

/-! ## Lemmas: indexed access and the reads of `add_block` -/

theorem get_of_ge (p : ArraySpan) (i : Nat) (h : p.count ≤ i) : p.get i = p.spare := by
  have e : p.offset i = p.count := by
    unfold ArraySpan.offset min
    rw [if_neg (by omega)]
  unfold ArraySpan.get
  rw [e]
  unfold ArraySpan.count
  simp [List.getD_eq_getElem?_getD]

/-- The constructor `ArraySpan(p_a, start)` with the default `end` spans from `start`
to `p_a.end()`: it relies on `operator[]` addressing `end()` for an index that is
not below `count()`. -/
theorem sub_whole (p : ArraySpan) (start : Nat) (hs : start ≤ p.count)
    (hc : p.count ≤ ULLONG_MAX) :
    p.sub start ULLONG_MAX = { m_begin := start, m_end := p.count } := by
  unfold ArraySpan.sub Span.mk2 ArraySpan.offset min max
  congr 1 <;> split_ifs <;> omega

namespace Sha256

/-- The loop of the fast path addresses the span at `buffer_filled`,
`buffer_filled + 1`, and so on, four times for every word it is given. -/
theorem add_block_fill_reads_eq (p : ArraySpan) : ∀ (ws : List Nat) (bf : Nat),
    bf + 4 * ws.length ≤ 256 →
    add_block_fill_reads p ws bf = (List.range' bf (4 * ws.length)).map p.offset := by
  intro ws
  induction ws with
  | nil => intro bf _; rfl
  | cons a rest ih =>
    intro bf h
    simp only [List.length_cons] at h
    have e1 : (bf + 1) % 256 = bf + 1 := by omega
    have e2 : (bf + 1 + 1) % 256 = bf + 2 := by omega
    have e3 : (bf + 2 + 1) % 256 = bf + 3 := by omega
    unfold add_block_fill_reads
    simp only [e1, e2, e3]
    have e5 : 4 * (a :: rest).length = 4 * rest.length + 1 + 1 + 1 + 1 := by
      simp only [List.length_cons]
      omega
    rw [e5]
    simp only [List.range'_succ, List.map_cons]
    by_cases hr : rest = []
    · subst hr
      simp [add_block_fill_reads]
    · have hpos : 0 < rest.length := List.length_pos.mpr hr
      have e4 : (bf + 3 + 1) % 256 = bf + 4 := by omega
      rw [e4, ih (bf + 4) (by omega)]

theorem offsets_256 :
    (List.range' 0 256).map (fun i => if i < 64 then i else 64)
      = List.range 64 ++ List.replicate 192 64 := by
  decide!

theorem add_block_fill_spare (p : ArraySpan) (P : List Nat) (hP : P.length = 64)
    (hp : p.count = 64) (i : Nat) (h16 : 16 ≤ i) (hi : i < 64) :
    (add_block_fill p P 0).1.getD i 0 =
      BytesOfScalar.setByte Endianes.Big p.spare 3
        (BytesOfScalar.setByte Endianes.Big p.spare 2
          (BytesOfScalar.setByte Endianes.Big p.spare 1
            (BytesOfScalar.setByte Endianes.Big p.spare 0 (P.getD i 0)))) := by
  obtain ⟨_, h2⟩ := add_block_fill_spec p P 0 (by omega)
  rw [h2 i (by omega), get_of_ge p _ (by omega), get_of_ge p _ (by omega),
    get_of_ge p _ (by omega), get_of_ge p _ (by omega)]

end Sha256

/-! ## Lemmas: the depth of the padding -/

namespace Sha256

theorem to_fill_eq (u : Sha256) (up : Nat) (h : u.buffer_filled + up ≤ 191) :
    u.to_fill up = 64 - (u.buffer_filled : Int) - (up : Int) := by
  unfold to_fill toI8 size_payload_buffer_as08bit
  omega

/-- With a bound of 1 on the depth, `padding_the_message_except_space` returns
exactly when `to_fill` is not negative: it cannot recurse. -/
theorem padding_one (u : Sha256) (up : Nat) :
    padding_the_message_except_space 1 up u
      = if u.to_fill up ≥ 0 then some (pad_zeros (u.to_fill up).toNat u) else none := by
  unfold padding_the_message_except_space to_fill
  simp only []
  split_ifs
  · rfl
  · rfl

theorem engineDigest_nil : engineDigest [] =
    [0xe3, 0xb0, 0xc4, 0x42, 0x98, 0xfc, 0x1c, 0x14, 0x9a, 0xfb, 0xf4, 0xc8, 0x99, 0x6f, 0xb9, 0x24,
     0x27, 0xae, 0x41, 0xe4, 0x64, 0x9b, 0x93, 0x4c, 0xa4, 0x95, 0x99, 0x1b, 0x78, 0x52, 0xb8, 0x55] := by
  decide!

theorem writeDigest_payloadLen (s : Sha256) : s.writeDigest.payloadLen = s.payloadLen := rfl

end Sha256

/-! ## Lemmas: appending to a full buffer -/

theorem getD_of_le (l : List Nat) (i : Nat) (h : l.length ≤ i) : l.getD i 0 = 0 := by
  rw [List.getD_eq_getElem?_getD, List.getElem?_eq_none h]
  rfl

theorem set_self (l : List Nat) (i a : Nat) (h : l.getD i 0 = 0) :
    (l.set i a).set i 0 = l := by
  apply ext_getD
  · simp
  · intro j _
    rw [getD_set, getD_set]
    by_cases e : i = j
    · subst e
      simp only [true_and, List.length_set]
      split_ifs
      · exact h.symm
      · rfl
    · simp [e]

namespace DArray

/-- At the end of the range `putIn` changes nothing: the element goes to the spare
element behind the range, which `CEOF` then overwrites, and the cursor stays. -/
theorem putIn_eof (d : DArray) (c : Nat) (hb : d.idx.m_begin = 0)
    (hc : d.idx.m_current = d.idx.m_end) (hs : d.m_array.getD d.idx.m_end 0 = 0) :
    d.putIn c = d := by
  have e1 : d.idx.current = d.idx.m_end := by
    unfold Index.current Index.limit max min
    rw [hb, hc]
    split_ifs <;> omega
  have e2 : d.idx.get_next = (d.idx.m_end, d.idx) := by
    unfold Index.get_next Index.eof
    rw [e1, if_neg (by simp [hc])]
  unfold putIn
  rw [e2]
  simp only []
  rw [e1]
  unfold CEOF
  rw [set_self _ _ _ hs]

/-- Elements streamed into a `DArray`, with room for them or not: the cursor moves by
their number, up to `end()`; the elements before the cursor stay; the new ones that
fit lie behind them, in order; the spare element keeps `CEOF`. -/
theorem foldl_putIn_bounded (bs : List Nat) : ∀ d : DArray, d.idx.m_begin = 0 →
    d.idx.m_current ≤ d.idx.m_end → d.idx.m_end < d.m_array.length →
    d.m_array.getD d.idx.m_end 0 = 0 →
    (bs.foldl putIn d).idx
        = { d.idx with m_current := Nat.min (d.idx.m_current + bs.length) d.idx.m_end }
      ∧ (bs.foldl putIn d).m_array.length = d.m_array.length
      ∧ (bs.foldl putIn d).m_array.getD d.idx.m_end 0 = 0
      ∧ (∀ i, i < d.idx.m_current →
          (bs.foldl putIn d).m_array.getD i 0 = d.m_array.getD i 0)
      ∧ (∀ j, d.idx.m_current + j < d.idx.m_end → j < bs.length →
          (bs.foldl putIn d).m_array.getD (d.idx.m_current + j) 0 = bs.getD j 0) := by
  induction bs with
  | nil =>
    intro d _ hc _ hs
    refine ⟨?_, rfl, hs, fun _ _ => rfl, fun j _ hj => by simp at hj⟩
    have e : Nat.min (d.idx.m_current + ([] : List Nat).length) d.idx.m_end
        = d.idx.m_current := by
      show (if _ ≤ _ then _ else _) = _
      simp only [List.length_nil, Nat.add_zero]
      rw [if_pos hc]
    rw [e]
    rfl
  | cons c bs ih =>
    intro d hb hc hl hs
    rw [List.foldl_cons]
    by_cases hlt : d.idx.m_current < d.idx.m_end
    · rw [putIn_lt d c hb hlt]
      have hs1 : ((d.m_array.set d.idx.m_current c).set (d.idx.m_current + 1) 0).getD
          d.idx.m_end 0 = 0 := by
        rw [getD_set, getD_set]
        split_ifs with h1 h2
        · rfl
        · omega
        · exact hs
      obtain ⟨h1, h2, h3, h4, h5⟩ := ih
        { idx := { d.idx with m_current := d.idx.m_current + 1 }
          m_array := (d.m_array.set d.idx.m_current c).set (d.idx.m_current + 1) 0 }
        hb (by simp only []; omega) (by simpa using hl) hs1
      simp only [] at h1 h2 h3 h4 h5
      refine ⟨?_, ?_, h3, ?_, ?_⟩
      · rw [h1]
        simp only [List.length_cons]
        rw [show d.idx.m_current + 1 + bs.length = d.idx.m_current + (bs.length + 1) by omega]
      · rw [h2]
        simp
      · intro i hi
        rw [h4 i (by omega), getD_set, getD_set, if_neg (by omega), if_neg (by omega)]
      · intro j hj hjl
        cases j with
        | zero =>
          rw [Nat.add_zero, h4 _ (by omega), getD_set, getD_set, if_neg (by omega),
            if_pos ⟨rfl, by omega⟩]
          rfl
        | succ k =>
          have := h5 k (by omega) (by simpa using hjl)
          rw [show d.idx.m_current + (k + 1) = d.idx.m_current + 1 + k by omega, this]
          rfl
    · have hce : d.idx.m_current = d.idx.m_end := by omega
      rw [putIn_eof d c hb hce hs]
      obtain ⟨h1, h2, h3, h4, h5⟩ := ih d hb hc hl hs
      refine ⟨?_, h2, h3, h4, fun j hj _ => by omega⟩
      rw [h1]
      have e : Nat.min (d.idx.m_current + bs.length) d.idx.m_end
          = Nat.min (d.idx.m_current + (c :: bs).length) d.idx.m_end := by
        show (if _ ≤ _ then _ else _) = if _ ≤ _ then _ else _
        simp only [List.length_cons]
        split_ifs <;> omega
      rw [e]

theorem memClean_getD (n : Nat) : ∀ (a : List Nat) (b i : Nat),
    ((List.range' b n).foldl (fun a i => a.set i 0) a).getD i 0
      = if b ≤ i ∧ i < b + n then 0 else a.getD i 0 := by
  induction n with
  | zero =>
    intro a b i
    rw [if_neg (by omega)]
    rfl
  | succ n ih =>
    intro a b i
    rw [List.range'_succ, List.foldl_cons, ih, getD_set]
    by_cases h1 : b = i
    · subst h1
      by_cases h2 : b < a.length
      · simp [h2]
      · rw [if_neg (by omega), if_neg (by tauto), if_pos (by omega)]
        exact getD_of_le a b (by omega)
    · by_cases h3 : b + 1 ≤ i ∧ i < b + 1 + n
      · rw [if_pos h3, if_pos (by omega)]
      · rw [if_neg h3, if_neg (by tauto), if_neg (by omega)]

theorem container_idx (N : Nat) :
    (DArrayContainer N).idx = { m_begin := 0, m_end := N, m_current := 0 } := by
  unfold DArrayContainer Index.mk2 min max
  simp only [Nat.add_sub_cancel]
  congr 1
  all_goals (split_ifs <;> omega)

theorem container_array (N : Nat) : (DArrayContainer N).m_array = List.replicate (N + 1) 0 := by
  unfold DArrayContainer
  apply ext_getD
  · simp
  · intro i _
    rw [getD_set]
    split_ifs with h
    · rw [← h.1]
      simp [List.getD_eq_getElem?_getD]
    · rfl

/-- The method `reset` on a container that was streamed into: all as after
construction. -/
theorem reset_container (N : Nat) (zs : List Nat) :
    (zs.foldl putIn (DArrayContainer N)).reset = DArrayContainer N := by
  have hi := container_idx N
  have ha := container_array N
  obtain ⟨h1, h2, h3, _, _⟩ := foldl_putIn_bounded zs (DArrayContainer N)
    (by rw [hi]) (by rw [hi]; exact Nat.zero_le _) (by rw [hi, ha]; simp)
    (by rw [hi, ha]; simp [List.getD_eq_getElem?_getD])
  rw [hi] at h1 h3
  rw [ha] at h2
  simp only [] at h1 h3
  generalize zs.foldl putIn (DArrayContainer N) = d at h1 h2 h3
  have e1 : d.reset.idx = (DArrayContainer N).idx := by
    rw [(reset_idx d (by rw [h1])).1, h1, hi]
  have e2 : d.reset.m_array = (DArrayContainer N).m_array := by
    rw [ha]
    apply ext_getD
    · rw [(reset_idx d (by rw [h1])).2, h2]
    · intro i hi2
      rw [(reset_idx d (by rw [h1])).2, h2, List.length_replicate] at hi2
      unfold reset memClean
      simp only []
      rw [memClean_getD, h1]
      have em : min 0 N = 0 := by
        unfold min
        split_ifs <;> omega
      have ex : max 0 N = N := by
        unfold max
        split_ifs <;> omega
      simp only [em, ex]
      have er : (List.replicate (N + 1) 0).getD i 0 = 0 := by
        simp [List.getD_eq_getElem?_getD, List.getElem?_replicate, hi2]
      rw [er]
      split_ifs with h
      · rfl
      · have : i = N := by omega
        rw [this]
        exact h3
  cases hd : d.reset with
  | mk i a =>
    rw [hd] at e1 e2
    simp only [] at e1 e2
    rw [e1, e2]

end DArray

/-! ## The properties of the specification, third part -/

/-- C21. Cursor invariant: for the cursor built from any two bounds, in either order,
and after any sequence of calls of `get_next`, `move_index` and `resetIndex` with any
arguments: the bounds are the smaller and the larger of the two, the position lies
between them, `current()` is the position, and `eof()` holds exactly at `end()`. -/
theorem C21_cursor_invariant (a b : Nat) (cs : List IndexCall) :
    (cs.foldl IndexCall.run (Index.mk2 a b)).m_begin = min a b ∧
    (cs.foldl IndexCall.run (Index.mk2 a b)).m_end = max a b ∧
    (cs.foldl IndexCall.run (Index.mk2 a b)).m_begin
      ≤ (cs.foldl IndexCall.run (Index.mk2 a b)).m_current ∧
    (cs.foldl IndexCall.run (Index.mk2 a b)).m_current
      ≤ (cs.foldl IndexCall.run (Index.mk2 a b)).m_end ∧
    (cs.foldl IndexCall.run (Index.mk2 a b)).current
      = (cs.foldl IndexCall.run (Index.mk2 a b)).m_current ∧
    ((cs.foldl IndexCall.run (Index.mk2 a b)).eof = true ↔
      (cs.foldl IndexCall.run (Index.mk2 a b)).m_current
        = (cs.foldl IndexCall.run (Index.mk2 a b)).m_end) := by
  obtain ⟨h1, h2, h3, h4⟩ := IndexCall.foldl_valid cs (Index.mk2 a b) (mk2_valid a b)
  generalize cs.foldl IndexCall.run (Index.mk2 a b) = x at h1 h2 h3 h4
  refine ⟨h1, h2, h3, h4, limit_of_mem x _ h3 h4, ?_⟩
  unfold Index.eof
  simp only [decide_eq_true_eq]
  omega

/-- C22. Cursor advance: on a cursor whose position `p` lies between its bounds, as it
does in every cursor, `move_index(n)` with `p + n` below `2 ^ 64` leaves the position
at the smaller of `p + n` and `end()`: not behind `end()`, not before `p`; the bounds
stay, and `update_contend_end(n)` of a `DArray` moves its cursor that way and
returns `n`. -/
theorem C22_move_index (x : Index) (n : Nat) (hb : x.m_begin ≤ x.m_current)
    (he : x.m_current ≤ x.m_end) (hn : x.m_current + n < 2 ^ 64) :
    (x.move_index n).m_current = Nat.min (x.m_current + n) x.m_end ∧
    (x.move_index n).m_current ≤ x.m_end ∧
    x.m_current ≤ (x.move_index n).m_current ∧
    (x.move_index n).m_begin = x.m_begin ∧ (x.move_index n).m_end = x.m_end ∧
    (∀ a : List Nat,
      (DArray.update_contend_end { idx := x, m_array := a } n).2.idx.m_current
          = Nat.min (x.m_current + n) x.m_end ∧
        (DArray.update_contend_end { idx := x, m_array := a } n).1 = n) := by
  have key : (x.move_index n).m_current = Nat.min (x.m_current + n) x.m_end
      ∧ (x.move_index n).m_begin = x.m_begin ∧ (x.move_index n).m_end = x.m_end := by
    unfold Index.move_index Index.eof
    by_cases h : x.m_current ≥ x.m_end
    · rw [if_neg (by simp [h])]
      refine ⟨?_, rfl, rfl⟩
      show _ = if _ ≤ _ then _ else _
      split_ifs <;> omega
    · rw [if_pos (by simp [h])]
      refine ⟨?_, rfl, rfl⟩
      rw [Nat.mod_eq_of_lt hn]
      show x.limit (x.m_current + n) = if _ ≤ _ then _ else _
      unfold Index.limit max min
      split_ifs <;> omega
  obtain ⟨k1, k2, k3⟩ := key
  refine ⟨k1, ?_, ?_, k2, k3, fun a => ⟨k1, rfl⟩⟩
  · rw [k1]
    show (if _ ≤ _ then _ else _) ≤ _
    split_ifs <;> omega
  · rw [k1]
    show _ ≤ if _ ≤ _ then _ else _
    split_ifs <;> omega

/-- C22, on the cursor of the bounds 0 and 10 after three calls of `get_next`, moved
by 5 and moved by 9. -/
theorem C22_move_index_witness :
    ((Index.mk2 0 10).get_next.2.get_next.2.get_next.2.move_index 5).m_current = 8 ∧
    ((Index.mk2 0 10).get_next.2.get_next.2.get_next.2.move_index 9).m_current = 10 :=
  ⟨(C22_move_index (Index.mk2 0 10).get_next.2.get_next.2.get_next.2 5
      (by decide) (by decide) (by decide)).1,
   (C22_move_index (Index.mk2 0 10).get_next.2.get_next.2.get_next.2 9
      (by decide) (by decide) (by decide)).1⟩

/-- C23, as stated, fails: on a span of three elements the index 3 makes
`operator[]` address the offset 3, which is `count()`, and read the element stored
at `end()`. -/
theorem C23_index_counterexample :
    ¬ ((ArraySpan.mk [7, 8, 9] 5).offset 3 < (ArraySpan.mk [7, 8, 9] 5).count) ∧
    (ArraySpan.mk [7, 8, 9] 5).get 3 = 5 := by
  decide

/-- C23, amended: `operator[]` addresses an offset of at most `count()`: the offset
`idx` for an index below `count()`, and for every other index the offset `count()`,
where the element at `end()` is stored. -/
theorem C23_index_clamped (a : ArraySpan) (idx : Nat) :
    a.offset idx ≤ a.count ∧
    (idx < a.count → a.offset idx = idx ∧ a.get idx = a.elems.getD idx 0) ∧
    (a.count ≤ idx → a.offset idx = a.count ∧ a.get idx = a.spare) := by
  refine ⟨?_, ?_, ?_⟩
  · unfold ArraySpan.offset min
    split_ifs <;> omega
  · intro h
    refine ⟨?_, get_of_lt a idx h⟩
    unfold ArraySpan.offset min
    rw [if_pos h]
  · intro h
    refine ⟨?_, get_of_ge a idx h⟩
    unfold ArraySpan.offset min
    rw [if_neg (by omega)]

/-- C24, what the code does on the fast path: with an empty accumulator (or a
finished engine, which is reset first) and a span of exactly 64 bytes, `add_block`
reads the span 256 times, at the offsets 0 to 63 and then 192 times at the offset 64,
which is `count()`: the element at `end()`, outside the span; the loop stores that
element in the four bytes of each of the words 16 to 63. On the other path every read
is at an offset below `count()`. -/
theorem C24_fast_path_reads_at_end (s : Sha256) (p : ArraySpan)
    (hP : s.payload_buffer_as32bit.length = 64)
    (hs : s.finished = true ∨ s.buffer_filled = 0) (hp : p.count = 64) :
    s.add_block_reads p = List.range 64 ++ List.replicate 192 64 ∧
    p.count ∈ s.add_block_reads p ∧
    ¬ (∀ r ∈ s.add_block_reads p, r < p.count) ∧
    (∀ i, 16 ≤ i → i < 64 →
      (add_block_fill p (if s.finished then s.reset else s).payload_buffer_as32bit 0).1.getD i 0 =
        BytesOfScalar.setByte Endianes.Big p.spare 3
          (BytesOfScalar.setByte Endianes.Big p.spare 2
            (BytesOfScalar.setByte Endianes.Big p.spare 1
              (BytesOfScalar.setByte Endianes.Big p.spare 0
                ((if s.finished then s.reset else s).payload_buffer_as32bit.getD i 0))))) ∧
    (∀ (t : Sha256) (q : ArraySpan),
      ¬ ((if t.finished then t.reset else t).buffer_filled = 0 ∧ q.count = 64) →
      ∀ r ∈ t.add_block_reads q, r < q.count) := by
  have h0 : (if s.finished then s.reset else s).buffer_filled = 0 := by
    rcases hs with h | h
    · rw [h]; rfl
    · split_ifs
      · rfl
      · exact h
  have hP2 : (if s.finished then s.reset else s).payload_buffer_as32bit.length = 64 := by
    split_ifs
    · exact hP
    · exact hP
  have e : s.add_block_reads p = List.range 64 ++ List.replicate 192 64 := by
    unfold add_block_reads
    simp only []
    rw [if_pos ⟨h0, hp⟩, h0, add_block_fill_reads_eq p _ 0 (by rw [hP2])]
    rw [hP2]
    have ho : p.offset = fun i => if i < 64 then i else 64 := by
      funext i
      unfold ArraySpan.offset min
      rw [hp]
    rw [ho]
    exact offsets_256
  have hm : p.count ∈ s.add_block_reads p := by
    rw [e, hp]
    decide
  refine ⟨e, hm, fun h => Nat.lt_irrefl _ (h _ hm),
    fun i h16 hi => add_block_fill_spare p _ hP2 hp i h16 hi, ?_⟩
  intro t q hn r hr
  unfold add_block_reads at hr
  simp only [] at hr
  rw [if_neg (show ¬ (_ ∧ q.count = size_payload_buffer_as08bit) from hn)] at hr
  exact List.mem_range.mp hr

/-- C24, on a new engine and a span of 64 bytes. -/
theorem C24_fast_path_reads_at_end_witness :
    Sha256.new.add_block_reads ⟨List.replicate 64 7, 0⟩
      = List.range 64 ++ List.replicate 192 64 :=
  (C24_fast_path_reads_at_end Sha256.new ⟨List.replicate 64 7, 0⟩ (by decide)
    (Or.inr rfl) (by decide)).1

/-- C25. Engine state invariant: in every state an engine can be in, fewer than 64
bytes are buffered, and the length counter is a multiple of 64 below `2 ^ 64`. -/
theorem C25_engine_invariant (s : Sha256) (hr : Reachable s) :
    0 ≤ s.buffer_filled ∧ s.buffer_filled ≤ 63 ∧ s.contendlen % 64 = 0
      ∧ s.contendlen < 2 ^ 64 := by
  obtain ⟨_, h2, h3, h4, _⟩ := reachable_inv s hr
  exact ⟨Nat.zero_le _, by omega, h3, h4⟩

/-- C25, after a span of 64 bytes and two single bytes. -/
theorem C25_engine_invariant_witness :
    0 ≤ (((Sha256.new.add_block ⟨List.replicate 64 7, 0⟩).add_byte 1).add_byte 2).buffer_filled ∧
    (((Sha256.new.add_block ⟨List.replicate 64 7, 0⟩).add_byte 1).add_byte 2).buffer_filled ≤ 63 ∧
    (((Sha256.new.add_block ⟨List.replicate 64 7, 0⟩).add_byte 1).add_byte 2).contendlen % 64 = 0 ∧
    (((Sha256.new.add_block ⟨List.replicate 64 7, 0⟩).add_byte 1).add_byte 2).contendlen < 2 ^ 64 :=
  C25_engine_invariant _
    (Reachable.add_byte _ 2 (Reachable.add_byte _ 1 (Reachable.add_block _ _ Reachable.new)))

/-- C26. Totality of finalization: from a state with fewer than 64 bytes buffered
`finalize` returns, with a bound of 2 on the depth of the recursion of the padding.
On an engine that is not finished, `padding_the_message_except_space(8)` is called
after `add_byte(0x80)`, with `to_fill` from -7 to 56. When `to_fill` is not negative it
returns without recursion (a bound of 1 on the depth is enough). Otherwise the inner
call with 0 has `to_fill` from 1 to 7 and returns without recursion, leaving the
accumulator empty, and the retry has `to_fill` 56 and returns without recursion. -/
theorem C26_finalize_total (s : Sha256) (fuel : Nat) (hbf : s.buffer_filled < 64) :
    (∃ t, finalize (fuel + 2) s = some t ∧ t.finished = true) ∧
    (s.finished = false →
      (s.add_byte 0x80).buffer_filled = (s.buffer_filled + 1) % 64 ∧
      -7 ≤ (s.add_byte 0x80).to_fill 8 ∧ (s.add_byte 0x80).to_fill 8 ≤ 56 ∧
      (0 ≤ (s.add_byte 0x80).to_fill 8 →
        padding_the_message_except_space 1 8 (s.add_byte 0x80)
          = some (pad_zeros ((s.add_byte 0x80).to_fill 8).toNat (s.add_byte 0x80))) ∧
      ((s.add_byte 0x80).to_fill 8 < 0 →
        padding_the_message_except_space 1 8 (s.add_byte 0x80) = none ∧
        1 ≤ (s.add_byte 0x80).to_fill 0 ∧ (s.add_byte 0x80).to_fill 0 ≤ 7 ∧
        ∃ v w : Sha256,
          padding_the_message_except_space 1 0 (s.add_byte 0x80) = some v ∧
          v = pad_zeros ((s.add_byte 0x80).to_fill 0).toNat (s.add_byte 0x80) ∧
          v.buffer_filled = 0 ∧ v.to_fill 8 = 56 ∧
          padding_the_message_except_space 1 8 v = some w ∧
          padding_the_message_except_space 2 8 (s.add_byte 0x80) = some w)) := by
  refine ⟨finalize_total fuel s, ?_⟩
  intro hf
  obtain ⟨a1, a2, _, _, _⟩ := add_byte_frame s 0x80 hf hbf
  generalize s.add_byte 0x80 = u at a1 a2
  have hu : u.buffer_filled < 64 := by rw [a2]; omega
  have e8 := to_fill_eq u 8 (by omega)
  have e0 := to_fill_eq u 0 (by omega)
  refine ⟨a2, by omega, by omega, ?_, ?_⟩
  · intro h
    rw [padding_one, if_pos h]
  · intro h
    have hn : ¬ (u.to_fill 8 ≥ 0) := by omega
    have h0 : u.to_fill 0 ≥ 0 := by omega
    refine ⟨by rw [padding_one, if_neg hn], by omega, by omega, ?_⟩
    have hv : (pad_zeros (u.to_fill 0).toNat u).buffer_filled = 0 := by
      rw [pad_zeros_eq]
      obtain ⟨_, b2, _, _, _⟩ := feed_frame (List.replicate (u.to_fill 0).toNat 0) u a1 hu
      rw [b2, List.length_replicate]
      omega
    have hv8 : (pad_zeros (u.to_fill 0).toNat u).to_fill 8 = 56 := by
      rw [to_fill_eq _ 8 (by rw [hv]; omega), hv]
      rfl
    refine ⟨pad_zeros (u.to_fill 0).toNat u,
      pad_zeros (56 : Int).toNat (pad_zeros (u.to_fill 0).toNat u), ?_, rfl, hv, hv8, ?_, ?_⟩
    · rw [padding_one, if_pos h0]
    · rw [padding_one, if_pos (by rw [hv8]; decide), hv8]
    · have step : padding_the_message_except_space 2 8 u
          = match padding_the_message_except_space 1 0 u with
            | none => none
            | some s1 => padding_the_message_except_space 1 8 s1 := by
        rw [padding_the_message_except_space]
        exact if_neg hn
      rw [step, padding_one, if_pos h0]
      show padding_the_message_except_space 1 8 (pad_zeros (u.to_fill 0).toNat u) = _
      rw [padding_one, if_pos (by rw [hv8]; decide), hv8]

/-- C26, on an engine that holds 60 bytes, where the padding recurses. -/
theorem C26_finalize_total_witness :
    ∃ t, finalize (0 + 2) { Sha256.new with buffer_filled := 60 } = some t ∧ t.finished = true :=
  (C26_finalize_total { Sha256.new with buffer_filled := 60 } 0 (by decide)).1

/-- C27. After `hash` has finalized a message of `L` bytes, `L < 2 ^ 61`,
`payloadLen()` is the length of the padded message, `64 * ⌈(L + 9) / 64⌉`, and not
`L`; further calls of `hash` leave it there; `reset` makes it 0, and so does the reset
that `add_byte` does first on a finished engine, which then counts its byte. -/
theorem C27_payloadLen_after_hash (s : Sha256) (cs : List Call) (fuel : Nat)
    (hr : Reachable s) (hl : (content cs).length < 2 ^ 61) :
    ∃ r : ArraySpan × Sha256, Sha256.hash (fuel + 2) (run s.reset cs) = some r ∧
      (run s.reset cs).payloadLen = (content cs).length ∧
      r.2.payloadLen = 64 * (((content cs).length + 9 + 63) / 64) ∧
      r.2.payloadLen ≠ (content cs).length ∧
      Sha256.hash (fuel + 2) r.2 = some r ∧
      r.2.reset.payloadLen = 0 ∧
      ∀ b, (r.2.add_byte b).payloadLen = 1 := by
  have hS := reset_sized s (reachable_sized s hr)
  rw [run_eq_feed cs s.reset rfl (by show (0 : Nat) < 64; omega) hS.1]
  generalize content cs = m at hl
  obtain ⟨a1, a2, a3, a4, a5⟩ := feed_frame m s.reset rfl (by show (0 : Nat) < 64; omega)
  have hbf : (feed s.reset m).buffer_filled = m.length % 64 := by
    rw [a2]
    show (0 + m.length) % 64 = _
    rw [Nat.zero_add]
  have hpl : (feed s.reset m).payloadLen = m.length := by
    rw [a5]
    show ((0 + 0) % 2 ^ 64 + m.length) % 2 ^ 64 = _
    norm_num at hl ⊢
    omega
  have hfin := finalize_eq fuel (feed s.reset m) a1 (by rw [hbf]; omega)
  obtain ⟨_, _, _, _, b5⟩ := feed_frame (feed s.reset m).padTail (feed s.reset m) a1
    (by rw [hbf]; omega)
  have hlen : (feed s.reset m).padTail.length = 9 + (119 - m.length % 64) % 64 := by
    unfold padTail
    rw [hbf, byteArray8_elems]
    simp [FIPS.be64]
    omega
  have hp : (writeDigest (feed (feed s.reset m) (feed s.reset m).padTail)).payloadLen
      = 64 * ((m.length + 9 + 63) / 64) := by
    rw [writeDigest_payloadLen, b5, hpl, hlen]
    norm_num at hl ⊢
    omega
  refine ⟨((writeDigest (feed (feed s.reset m) (feed s.reset m).padTail)).m_hash.reader,
    writeDigest (feed (feed s.reset m) (feed s.reset m).padTail)), ?_, hpl, hp, ?_, ?_, rfl, ?_⟩
  · unfold Sha256.hash
    rw [hfin]
  · show (writeDigest (feed (feed s.reset m) (feed s.reset m).padTail)).payloadLen ≠ _
    rw [hp]
    omega
  · unfold Sha256.hash
    rw [finalize_finished _ _ rfl]
  · intro b
    show ((writeDigest (feed (feed s.reset m) (feed s.reset m).padTail)).add_byte b).payloadLen = 1
    rw [add_byte_reset _ b rfl]
    obtain ⟨_, _, _, _, c5⟩ := add_byte_frame
      (writeDigest (feed (feed s.reset m) (feed s.reset m).padTail)).reset b rfl
      (by show (0 : Nat) < 64; omega)
    rw [c5]
    rfl

/-- C27, for a message of 56 bytes: the padded message has 128 bytes. -/
theorem C27_payloadLen_after_hash_witness :
    ∃ r : ArraySpan × Sha256,
      Sha256.hash (0 + 2) (run Sha256.new.reset [Call.bytes (List.replicate 56 7)]) = some r ∧
      (run Sha256.new.reset [Call.bytes (List.replicate 56 7)]).payloadLen
        = (content [Call.bytes (List.replicate 56 7)]).length ∧
      r.2.payloadLen = 64 * (((content [Call.bytes (List.replicate 56 7)]).length + 9 + 63) / 64) ∧
      r.2.payloadLen ≠ (content [Call.bytes (List.replicate 56 7)]).length ∧
      Sha256.hash (0 + 2) r.2 = some r ∧
      r.2.reset.payloadLen = 0 ∧
      ∀ b, (r.2.add_byte b).payloadLen = 1 :=
  C27_payloadLen_after_hash Sha256.new [Call.bytes (List.replicate 56 7)] 0 Reachable.new
    (by decide)

/-- C28. A call of `add_block` with a span of no elements: on a finished engine it
leaves the engine as `reset` does, and a following `hash` returns the digest of the
empty message, e3b0c442 ... 7852b855; on an engine that is not finished it leaves
every field as it was. -/
theorem C28_empty_block (s : Sha256) (p : ArraySpan) (fuel : Nat) (hr : Reachable s)
    (hp : p.count = 0) :
    (s.finished = true →
      s.add_block p = s.reset ∧
      digestOf (Sha256.hash (fuel + 2) (s.add_block p)) = some
        [0xe3, 0xb0, 0xc4, 0x42, 0x98, 0xfc, 0x1c, 0x14, 0x9a, 0xfb, 0xf4, 0xc8, 0x99, 0x6f, 0xb9, 0x24,
         0x27, 0xae, 0x41, 0xe4, 0x64, 0x9b, 0x93, 0x4c, 0xa4, 0x95, 0x99, 0x1b, 0x78, 0x52, 0xb8, 0x55]) ∧
    (s.finished = false → s.add_block p = s) := by
  have hS := reachable_sized s hr
  have he : p.elems = [] := List.length_eq_zero.mp hp
  have key : ∀ t : Sha256, t.finished = false → t.add_block p = t := by
    intro t ht
    unfold add_block
    simp only [ht, Bool.false_eq_true, if_false]
    rw [if_neg (by rw [hp]; unfold size_payload_buffer_as08bit; omega), he]
    rfl
  refine ⟨fun hf => ?_, key s⟩
  have e : s.add_block p = s.reset := by
    rw [add_block_reset s p hf, key _ (reset_finished s)]
  refine ⟨e, ?_⟩
  rw [e, ← engineDigest_nil]
  exact hash_feed s.reset [] fuel (reset_sized s hS) rfl rfl rfl rfl

/-- C28, on a new engine after `hash` of the message "abc". -/
theorem C28_empty_block_witness :
    ∃ r : ArraySpan × Sha256,
      Sha256.hash 2 (((Sha256.new.add_byte 0x61).add_byte 0x62).add_byte 0x63) = some r ∧
      r.2.finished = true ∧ r.2.add_block ⟨[], 0⟩ = r.2.reset :=
  ⟨_, rfl, rfl,
    ((C28_empty_block _ ⟨[], 0⟩ 0
      (Reachable.hash _ 2 _ (Reachable.add_byte _ 0x63 (Reachable.add_byte _ 0x62
        (Reachable.add_byte _ 0x61 Reachable.new))) rfl) rfl).1 rfl).1⟩

/-- C29. The methods `setByte` and `getByte` of a `BytesOfScalar` of 32 bits, in both
byte orders: after `setByte(b, i)`, `getByte(j)` is `b` when `j` and `i` agree modulo 4
and is what it was before otherwise; the value stays below `2 ^ 32`; an index
stands for its remainder modulo 4, which is a place of the tables of four entries. -/
theorem C29_setByte_getByte (e : Endianes) (v b i j : Nat) (hb : b < 256) :
    (∀ ub : Nat → Nat → Int,
      BytesOfScalar.setByteN ub e 4 b i v = BytesOfScalar.setByte e b i v) ∧
    BytesOfScalar.getByte e 4 (BytesOfScalar.setByte e b i v) j
      = (if j % 4 = i % 4 then b else BytesOfScalar.getByte e 4 v j) ∧
    BytesOfScalar.setByte e b i v < 2 ^ 32 ∧
    BytesOfScalar.setByte e b i v = BytesOfScalar.setByte e b (i % 4) v ∧
    BytesOfScalar.getByte e 4 v j = BytesOfScalar.getByte e 4 v (j % 4) ∧
    i % 4 < 4 ∧ j % 4 < 4 := by
  refine ⟨fun ub => BytesOfScalar.setByteN_four ub e b i v, ?_,
    BytesOfScalar.setByte_lt e b i v, ?_, ?_,
    Nat.mod_lt _ (by norm_num), Nat.mod_lt _ (by norm_num)⟩
  · rw [BytesOfScalar.getByte_setByte_any, Nat.mod_eq_of_lt hb]
  · unfold BytesOfScalar.setByte
    simp only [Nat.mod_mod]
  · unfold BytesOfScalar.getByte
    simp only [Nat.mod_mod]

/-- C29, in little-endian order, with the indices 6 and 2. -/
theorem C29_setByte_getByte_witness :
    BytesOfScalar.getByte Endianes.Little 4
        (BytesOfScalar.setByte Endianes.Little 0xab 6 0x01020304) 2
      = (if 2 % 4 = 6 % 4 then 0xab else BytesOfScalar.getByte Endianes.Little 4 0x01020304 2) :=
  (C29_setByte_getByte Endianes.Little 0x01020304 0xab 6 2 (by decide)).2.1

/-- C30. Bounded append: elements streamed into a `DArrayContainer` of capacity `N`
that is empty, after construction or after `reset`: `reader()` is the first
`min(|xs|, N)` of them; the cursor is at that number, not behind `end()`; on a full
container `putIn` changes nothing; and an element that was stored stays whatever is
streamed in after it. -/
theorem C30_bounded_append (N : Nat) (xs ys zs : List Nat) :
    (zs.foldl DArray.putIn (DArrayContainer N)).reset = DArrayContainer N ∧
    (xs.foldl DArray.putIn (DArrayContainer N)).reader.elems = xs.take (Nat.min xs.length N) ∧
    ((DArrayContainer N).streamIn ⟨xs, 0⟩).reader.elems = xs.take (Nat.min xs.length N) ∧
    (xs.foldl DArray.putIn (DArrayContainer N)).idx.m_current = Nat.min xs.length N ∧
    (xs.foldl DArray.putIn (DArrayContainer N)).idx.m_current
      ≤ (xs.foldl DArray.putIn (DArrayContainer N)).idx.m_end ∧
    (xs.foldl DArray.putIn (DArrayContainer N)).idx.m_end = N ∧
    (N ≤ xs.length → ∀ c, (xs.foldl DArray.putIn (DArrayContainer N)).putIn c
      = xs.foldl DArray.putIn (DArrayContainer N)) ∧
    (∀ i, i < Nat.min xs.length N →
      ((xs ++ ys).foldl DArray.putIn (DArrayContainer N)).m_array.getD i 0 = xs.getD i 0) := by
  have hi := DArray.container_idx N
  have ha := DArray.container_array N
  have pre : ∀ l : List Nat,
      (l.foldl DArray.putIn (DArrayContainer N)).idx
          = { m_begin := 0, m_end := N, m_current := Nat.min l.length N }
        ∧ (l.foldl DArray.putIn (DArrayContainer N)).m_array.length = N + 1
        ∧ (l.foldl DArray.putIn (DArrayContainer N)).m_array.getD N 0 = 0
        ∧ (∀ j, j < N → j < l.length →
            (l.foldl DArray.putIn (DArrayContainer N)).m_array.getD j 0 = l.getD j 0) := by
    intro l
    obtain ⟨h1, h2, h3, _, h5⟩ := DArray.foldl_putIn_bounded l (DArrayContainer N)
      (by rw [hi]) (by rw [hi]; exact Nat.zero_le _) (by rw [hi, ha]; simp)
      (by rw [hi, ha]; simp [List.getD_eq_getElem?_getD])
    rw [hi] at h1 h3 h5
    rw [ha] at h2
    simp only [Nat.zero_add] at h1 h3 h5
    exact ⟨h1, by simpa using h2, h3, h5⟩
  have hmin : ∀ l : List Nat, Nat.min l.length N ≤ N ∧ Nat.min l.length N ≤ l.length
      ∧ (N ≤ l.length → Nat.min l.length N = N) := by
    intro l
    show (if _ ≤ _ then _ else _) ≤ _ ∧ (if _ ≤ _ then _ else _) ≤ _
      ∧ (_ → (if _ ≤ _ then _ else _) = _)
    split_ifs <;> omega
  have hread : (xs.foldl DArray.putIn (DArrayContainer N)).reader.elems
      = xs.take (Nat.min xs.length N) := by
    obtain ⟨p1, p2, _, p4⟩ := pre xs
    obtain ⟨m1, m2, _⟩ := hmin xs
    rw [DArray.reader_elems _ (by rw [p1]) (by rw [p1]; exact m1), p1]
    simp only []
    apply ext_getD
    · rw [List.length_take, List.length_take, p2]
      omega
    · intro i hi2
      rw [List.length_take, p2] at hi2
      rw [getD_take _ _ _ _ (by omega), getD_take _ _ _ _ (by omega), p4 i (by omega) (by omega)]
  obtain ⟨p1, p2, p3, p4⟩ := pre xs
  obtain ⟨m1, m2, m3⟩ := hmin xs
  refine ⟨DArray.reset_container N zs, hread, hread, by rw [p1], by rw [p1]; exact m1,
    by rw [p1], ?_, ?_⟩
  · intro hN c
    exact DArray.putIn_eof _ c (by rw [p1]) (by rw [p1]; exact m3 hN) (by rw [p1]; exact p3)
  · intro i hi2
    obtain ⟨_, _, _, q4⟩ := pre (xs ++ ys)
    rw [q4 i (by omega) (by rw [List.length_append]; omega)]
    rw [List.getD_append _ _ _ _ (by omega)]

/-! ## Lemmas: digits -/

theorem toI64_of_lt (n : Nat) (h : n < 2 ^ 63) : toI64 (n : Int) = (n : Int) := by
  unfold toI64
  omega

theorem toI8_of_mem (x : Int) (h1 : -128 ≤ x) (h2 : x ≤ 127) : toI8 x = x := by
  unfold toI8
  omega

theorem toDigit_eq (n : Nat) (h : n < 16) : toDigit (n : Int) = hexDigit n := by
  have e : ((n : Int) % 16).toNat = n := by omega
  unfold toDigit hexDigit
  rw [e]
  interval_cases n <;> rfl

theorem msdDigits_length (B k v : Nat) : (msdDigits B k v).length = k + 1 := by
  induction k with
  | zero => rfl
  | succ k ih => simp [msdDigits, ih]

theorem msdDigits_lt (B : Nat) (hB : 0 < B) (k v : Nat) : ∀ x ∈ msdDigits B k v, x < B := by
  induction k with
  | zero =>
    intro x hx
    simp only [msdDigits, List.mem_singleton] at hx
    rw [hx]
    exact Nat.mod_lt _ hB
  | succ k ih =>
    intro x hx
    simp only [msdDigits, List.mem_cons] at hx
    rcases hx with h | h
    · rw [h]
      exact Nat.mod_lt _ hB
    · exact ih x h

/-- The digits at the places below `m` do not change when the number is reduced
modulo `B ^ m`. -/
theorem msdDigits_mod (B m : Nat) : ∀ (k v : Nat), k < m →
    msdDigits B k (v % B ^ m) = msdDigits B k v := by
  have key : ∀ j v, j < m → v % B ^ m / B ^ j % B = v / B ^ j % B := by
    intro j v hj
    have e : B ^ m = B ^ j * B ^ (m - j) := by
      rw [← Nat.pow_add]
      congr 1
      omega
    rw [e, Nat.mod_mul_right_div_self]
    apply Nat.mod_mod_of_dvd
    exact dvd_pow_self B (by omega)
  intro k
  induction k with
  | zero =>
    intro v hk
    have := key 0 v hk
    simpa [msdDigits] using this
  | succ k ih =>
    intro v hk
    simp only [msdDigits]
    rw [key (k + 1) v hk, ih v (by omega)]

/-- The digits of `v` are those of `v / B`, then the last one. -/
theorem msdDigits_shift (B : Nat) : ∀ (k v : Nat),
    msdDigits B (k + 1) v = msdDigits B k (v / B) ++ [v % B] := by
  intro k
  induction k with
  | zero =>
    intro v
    simp [msdDigits]
  | succ k ih =>
    intro v
    have e : v / B ^ (k + 1 + 1) = v / B / B ^ (k + 1) := by
      rw [Nat.div_div_eq_div_mul, Nat.pow_succ' ]
    rw [msdDigits, ih v, msdDigits, e]
    rfl

/-- The reference digits are the digits of Mathlib, most significant first. -/
theorem msdDigits_eq_digits (B : Nat) (hB : 2 ≤ B) : ∀ (k v : Nat), B ^ k ≤ v →
    v < B ^ (k + 1) → (msdDigits B k v).reverse = Nat.digits B v := by
  intro k
  induction k with
  | zero =>
    intro v h1 h2
    simp only [pow_zero, zero_add, pow_one] at h1 h2
    rw [Nat.digits_of_lt B v (by omega) h2]
    simp [msdDigits, Nat.mod_eq_of_lt h2]
  | succ k ih =>
    intro v h1 h2
    have hpos : 0 < v := lt_of_lt_of_le (Nat.pow_pos (by omega)) h1
    rw [msdDigits_shift, List.reverse_append, Nat.digits_def' (by omega) hpos]
    have a1 : B ^ k ≤ v / B := by
      rw [Nat.le_div_iff_mul_le (by omega), ← Nat.pow_succ]
      exact h1
    have a2 : v / B < B ^ (k + 1) := by
      rw [Nat.div_lt_iff_lt_mul (by omega), ← Nat.pow_succ]
      exact h2
    rw [ih (v / B) a1 a2]
    rfl

theorem log_bounds (B v : Nat) (hB : 2 ≤ B) (hv : v < 2 ^ 63) :
    v < B ^ (Nat.log B v + 1) ∧ (v ≠ 0 → B ^ Nat.log B v ≤ v) ∧ B ^ Nat.log B v < 2 ^ 63
      ∧ Nat.log B v < 63 := by
  have h1 : v < B ^ (Nat.log B v + 1) := Nat.lt_pow_succ_log_self (by omega) v
  have h2 : v ≠ 0 → B ^ Nat.log B v ≤ v := fun h => Nat.pow_log_le_self B h
  have h3 : B ^ Nat.log B v < 2 ^ 63 := by
    by_cases h0 : v = 0
    · subst h0
      simp
    · exact lt_of_le_of_lt (h2 h0) hv
  refine ⟨h1, h2, h3, ?_⟩
  have h4 : 2 ^ Nat.log B v ≤ B ^ Nat.log B v := Nat.pow_le_pow_left hB _
  exact (Nat.pow_lt_pow_iff_right (by norm_num)).mp (lt_of_le_of_lt h4 h3)

namespace Scalar

/-- The first loop of `serialize` on a number that is not negative: `divisor` takes
the factor `BASIS ^ k` and `digits` loses `k`, for `k` the logarithm of the number. -/
theorem count_digits_eq (B : Nat) (hB : 2 ≤ B) : ∀ (k fuel c dv : Nat) (dg : Int),
    Nat.log B c = k → dv * B ^ k < 2 ^ 63 → -128 ≤ dg - (k : Int) → dg ≤ 127 →
    count_digits (fuel + k + 1) B (c : Int) (dv : Int) dg
      = some (((dv * B ^ k : Nat) : Int), dg - (k : Int)) := by
  intro k
  induction k with
  | zero =>
    intro fuel c dv dg hk _ _ _
    have hc : c < B := by
      rcases Nat.log_eq_zero_iff.mp hk with h | h
      · exact h
      · omega
    rw [count_digits, if_neg (by omega)]
    simp
  | succ k ih =>
    intro fuel c dv dg hk hdv h1 h2
    have hc : B ≤ c := by
      by_contra h
      rw [Nat.log_of_lt (by omega)] at hk
      omega
    have hk2 : Nat.log B (c / B) = k := by
      rw [Nat.log_div_base, hk]
      rfl
    have hdv2 : dv * B * B ^ k < 2 ^ 63 := by
      rw [Nat.mul_assoc, ← Nat.pow_succ']
      exact hdv
    have hdv3 : dv * B < 2 ^ 63 := by
      have : dv * B * 1 ≤ dv * B * B ^ k := Nat.mul_le_mul_left _ (Nat.pow_pos (by omega))
      omega
    rw [show fuel + (k + 1) + 1 = (fuel + k + 1) + 1 by omega, count_digits,
      if_pos (by omega), ← Int.ofNat_tdiv]
    have e1 : (dv : Int) * (B : Int) = ((dv * B : Nat) : Int) := by push_cast; rfl
    rw [e1, toI64_of_lt _ hdv3, toI8_of_mem _ (by omega) (by omega),
      ih fuel (c / B) (dv * B) (dg - 1) hk2 hdv2 (by omega) (by omega)]
    congr 2
    · rw [Nat.mul_assoc, ← Nat.pow_succ']
    · push_cast
      omega

/-- The second loop of `serialize`: `digits - 1` times the character `SPACE`, none
when `digits` is below 2. -/
theorem put_spaces_eq (SPACE : Nat) : ∀ (n fuel : Nat) (dg : Int) (p : DArray),
    (dg - 1).toNat = n → -127 ≤ dg → dg ≤ 127 →
    put_spaces (fuel + n + 1) dg SPACE p
      = some ((List.replicate n SPACE).foldl DArray.putIn p) := by
  intro n
  induction n with
  | zero =>
    intro fuel dg p hn h1 h2
    rw [put_spaces, toI8_of_mem _ (by omega) (by omega), if_neg (by omega)]
    rfl
  | succ n ih =>
    intro fuel dg p hn h1 h2
    rw [show fuel + (n + 1) + 1 = (fuel + n + 1) + 1 by omega, put_spaces,
      toI8_of_mem _ (by omega) (by omega), if_pos (by omega),
      ih fuel (dg - 1) (p.putIn SPACE) (by omega) (by omega) (by omega)]
    rfl

/-- The third loop of `serialize` on a number below `BASIS ^ (k + 1)`, with `divisor`
at `BASIS ^ k`: the characters of the `k + 1` digits, most significant first. -/
theorem put_digits_eq (B : Nat) (hB : 2 ≤ B) (hB16 : B ≤ 16) :
    ∀ (k fuel v : Nat) (p : DArray), v < B ^ (k + 1) →
    put_digits (fuel + k + 2) B ((B ^ k : Nat) : Int) (v : Int) p
      = some (((msdDigits B k v).map hexDigit).foldl DArray.putIn p) := by
  intro k
  induction k with
  | zero =>
    intro fuel v p hv
    simp only [pow_zero, zero_add, pow_one] at hv
    rw [show fuel + 0 + 2 = (fuel + 1) + 1 by omega, put_digits]
    rw [if_pos (by simp), ← Int.ofNat_tdiv, ← Int.ofNat_tdiv, ← Int.ofNat_tmod]
    simp only [pow_zero, Nat.div_one, Nat.mod_one]
    rw [Nat.div_eq_of_lt (by omega), put_digits, if_neg (by simp), toDigit_eq v (by omega)]
    simp [msdDigits, Nat.mod_eq_of_lt hv]
  | succ k ih =>
    intro fuel v p hv
    have hpos : 0 < B ^ (k + 1) := Nat.pow_pos (by omega)
    have hd : v / B ^ (k + 1) < B := by
      rw [Nat.div_lt_iff_lt_mul hpos, Nat.mul_comm, ← Nat.pow_succ]
      exact hv
    rw [show fuel + (k + 1) + 2 = (fuel + k + 2) + 1 by omega, put_digits]
    rw [if_pos (by exact_mod_cast hpos), ← Int.ofNat_tdiv, ← Int.ofNat_tdiv, ← Int.ofNat_tmod]
    have e1 : B ^ (k + 1) / B = B ^ k := by
      rw [Nat.pow_succ, Nat.mul_div_cancel _ (by omega)]
    rw [e1, ih fuel (v % B ^ (k + 1)) _ (Nat.mod_lt _ hpos), msdDigits_mod B (k + 1) k v (by omega),
      toDigit_eq _ (by omega)]
    simp only [msdDigits, List.map_cons, List.foldl_cons]
    rw [Nat.mod_eq_of_lt hd]

/-- The method `serialize` on a number `v` that is not negative sends
`DIGITS - d` characters `SPACE` and then the characters of the `d` digits of `v`,
for `d` the number of digits of `v`, which is the logarithm of `v` plus 1. -/
theorem serialize_eq (DIGITS B SPACE v fuel : Nat) (p : DArray) (hv : v < 2 ^ 63)
    (hB : 2 ≤ B) (hB16 : B ≤ 16) (hD : DIGITS ≤ 127) :
    serialize (fuel + 128) DIGITS B SPACE (v : Int) p
      = some ((List.replicate (DIGITS - (Nat.log B v + 1)) SPACE
          ++ (msdDigits B (Nat.log B v) v).map hexDigit).foldl DArray.putIn p) := by
  obtain ⟨l1, _, l3, l4⟩ := log_bounds B v hB hv
  unfold serialize
  simp only []
  rw [if_neg (by omega), if_neg (by omega), toI8_of_mem _ (by omega) (by omega)]
  have c := count_digits_eq B hB (Nat.log B v) (fuel + 127 - Nat.log B v) v 1 (DIGITS : Int) rfl
    (by omega) (by omega) (by omega)
  rw [show fuel + 127 - Nat.log B v + Nat.log B v + 1 = fuel + 128 by omega] at c
  have c1 : ((1 : Nat) : Int) = 1 := rfl
  rw [c1] at c
  rw [c]
  simp only [Nat.one_mul]
  have s := put_spaces_eq SPACE (DIGITS - (Nat.log B v + 1))
    (fuel + 127 - (DIGITS - (Nat.log B v + 1))) ((DIGITS : Int) - (Nat.log B v : Int)) p
    (by omega) (by omega) (by omega)
  rw [show fuel + 127 - (DIGITS - (Nat.log B v + 1)) + (DIGITS - (Nat.log B v + 1)) + 1
    = fuel + 128 by omega] at s
  rw [s]
  simp only []
  have d := put_digits_eq B hB hB16 (Nat.log B v) (fuel + 126 - Nat.log B v) v
    ((List.replicate (DIGITS - (Nat.log B v + 1)) SPACE).foldl DArray.putIn p) l1
  rw [show fuel + 126 - Nat.log B v + Nat.log B v + 2 = fuel + 128 by omega] at d
  rw [d, List.foldl_append]

end Scalar

/-! ## Lemmas: text in a stream with room -/

/-- Characters sent to a stream with room for them lie behind what `reader()` held. -/
theorem reader_foldl_putIn (cs : List Nat) (p : DArray) (hb : p.idx.m_begin = 0)
    (hroom : p.idx.m_current + cs.length ≤ p.idx.m_end) (hl : p.idx.m_end < p.m_array.length) :
    (cs.foldl DArray.putIn p).reader.elems = p.reader.elems ++ cs
      ∧ (cs.foldl DArray.putIn p).idx = { p.idx with m_current := p.idx.m_current + cs.length } := by
  obtain ⟨h1, _, h3⟩ := DArray.foldl_putIn cs p hb hroom hl
  refine ⟨?_, h1⟩
  rw [DArray.reader_elems _ (by rw [h1]; exact hb) (by rw [h1]; exact hroom),
    DArray.reader_elems p hb (by omega), h1]
  exact h3

theorem log_of_digits (B v d : Nat) (h1 : v < B ^ d)
    (h2 : d = 1 ∨ B ^ (d - 1) ≤ v) : Nat.log B v = d - 1 ∧ 1 ≤ d := by
  rcases h2 with h | h
  · subst h
    exact ⟨Nat.log_of_lt (by simpa using h1), le_refl _⟩
  · have hd : 1 ≤ d := by
      by_contra hc
      have : d = 0 := by omega
      subst this
      simp at h1 h
      omega
    refine ⟨Nat.log_eq_of_pow_le_of_lt_pow h ?_, hd⟩
    rw [show d - 1 + 1 = d by omega]
    exact h1

/-- A byte as `Hex<2>` sends it: the digit of the high half, then that of the low. -/
theorem hex_of_byte (b : Nat) (hb : b < 256) :
    List.replicate (2 - (Nat.log 16 b + 1)) 48 ++ (msdDigits 16 (Nat.log 16 b) b).map hexDigit
      = [hexDigit (b / 16), hexDigit (b % 16)] := by
  by_cases h : b < 16
  · rw [Nat.log_of_lt h, Nat.div_eq_of_lt h]
    rfl
  · have e : Nat.log 16 b = 1 :=
      Nat.log_eq_of_pow_le_of_lt_pow (by omega) (by omega)
    rw [e]
    have e2 : b / 16 % 16 = b / 16 := Nat.mod_eq_of_lt (by omega)
    simp [msdDigits, e2]

theorem serialize_loop_bytes (fuel : Nat) (bs : List Nat) : ∀ p : DArray,
    (∀ b ∈ bs, b < 256) →
    serialize_loop (fuel + 128) 1 0 0 p bs
      = some ((bs.flatMap fun b => [hexDigit (b / 16), hexDigit (b % 16)]).foldl
          DArray.putIn p) := by
  induction bs with
  | nil => intro p _; rfl
  | cons b bs ih =>
    intro p h
    have hb : b < 256 := h b (List.mem_cons_self _ _)
    rw [serialize_loop]
    simp only [ne_eq, not_true_eq_false, if_false]
    rw [show (1 * 2 % 256 : Nat) = 2 from rfl,
      Scalar.serialize_eq 2 16 48 b fuel p (by omega) (by norm_num) (by norm_num) (by norm_num)]
    simp only []
    rw [ih _ (fun x hx => h x (List.mem_cons_of_mem _ hx)), hex_of_byte b hb, List.flatMap_cons,
      List.foldl_append]

theorem digest_lt (H : List Nat) : ∀ b ∈ FIPS.digest H, b < 256 := by
  intro b hb
  unfold FIPS.digest at hb
  rw [List.mem_flatMap] at hb
  obtain ⟨h, _, hm⟩ := hb
  simp only [List.mem_cons, List.mem_singleton, List.not_mem_nil, or_false] at hm
  rcases hm with e | e | e | e <;> rw [e] <;> exact Nat.mod_lt _ (by norm_num)

theorem valueOf_loop_eq {T1 T2 : Type} [DecidableEq T1] (l : List (Pair T1 T2)) (k : T1)
    (d : T2) :
    KeyPairs.valueOf_loop l k d
      = match l.find? (fun e => decide (e.key = k)) with
        | some e => e.value
        | none => d := by
  induction l with
  | nil => rfl
  | cons e rest ih =>
    rw [KeyPairs.valueOf_loop, List.find?_cons]
    by_cases h : e.key = k
    · simp [h]
    · simp [h, ih]

/-- The text of a new engine, sent into an empty stream of the capacity 64, is
"e3b0c442 98fc1c14 9afbf4c8 996fb924 27ae41e4 649b934c a495991b 7852b855" without the
blanks; the characters are given by their codes. -/
theorem text_of_new :
    (operator_shl_Sha256 128 (DArrayContainer 64) Sha256.new).map (fun x => x.1.reader.elems)
      = some
      [101, 51, 98, 48, 99, 52, 52, 50, 57, 56, 102, 99, 49, 99, 49, 52,
       57, 97, 102, 98, 102, 52, 99, 56, 57, 57, 54, 102, 98, 57, 50, 52,
       50, 55, 97, 101, 52, 49, 101, 52, 54, 52, 57, 98, 57, 51, 52, 99,
       97, 52, 57, 53, 57, 57, 49, 98, 55, 56, 53, 50, 98, 56, 53, 53] := by
  decide!

/-! ## The properties of the specification, fourth part -/

/-- C31. The text of an engine: from every state an engine can be in, and into a
stream with room for 64 characters, the operator `<<` sends exactly 64 characters
behind what the stream held: for each of the 32 bytes that `hash` returns, in order,
the lowercase hexadecimal digit of its high half and then that of its low half, and
nothing between two bytes. -/
theorem C31_digest_as_text (s : Sha256) (p : DArray) (fuel : Nat) (hr : Reachable s)
    (hb : p.idx.m_begin = 0) (hroom : p.idx.m_current + 64 ≤ p.idx.m_end)
    (hl : p.idx.m_end < p.m_array.length) :
    ∃ (q : DArray) (r : ArraySpan × Sha256),
      operator_shl_Sha256 (fuel + 128) p s = some (q, r.2) ∧
      Sha256.hash (fuel + 128) s = some r ∧
      r.1.elems.length = 32 ∧ (∀ b ∈ r.1.elems, b < 256) ∧
      q.reader.elems
        = p.reader.elems ++ r.1.elems.flatMap (fun b => [hexDigit (b / 16), hexDigit (b % 16)]) ∧
      q.reader.elems.length = p.reader.elems.length + 64 ∧
      q.idx.m_current = p.idx.m_current + 64 := by
  obtain ⟨t, h1, h2⟩ := finalize_total (fuel + 126) s
  have hh : Sha256.hash (fuel + 128) s = some (t.m_hash.reader, t) := by
    unfold Sha256.hash
    rw [h1]
  obtain ⟨i1, _, _, _, i5⟩ := reachable_inv t (Reachable.hash s (fuel + 128) _ hr hh)
  have hlen : t.m_hash.reader.elems.length = 32 := by
    rw [i5 h2]
    match hs : t.hs32, i1 with
    | [a0, a1, a2, a3, a4, a5, a6, a7], _ => rfl
  have hlt : ∀ b ∈ t.m_hash.reader.elems, b < 256 := by
    rw [i5 h2]
    exact digest_lt _
  have hfl : (t.m_hash.reader.elems.flatMap
      fun b => [hexDigit (b / 16), hexDigit (b % 16)]).length = 64 := by
    generalize t.m_hash.reader.elems = l at hlen
    have : ∀ l : List Nat,
        (l.flatMap fun b => [hexDigit (b / 16), hexDigit (b % 16)]).length = 2 * l.length := by
      intro l
      induction l with
      | nil => rfl
      | cons x xs ih =>
        rw [List.flatMap_cons, List.length_append, ih]
        simp only [List.length_cons, List.length_nil]
        omega
    rw [this, hlen]
  obtain ⟨g1, g2⟩ := reader_foldl_putIn
    (t.m_hash.reader.elems.flatMap fun b => [hexDigit (b / 16), hexDigit (b % 16)]) p hb
    (by rw [hfl]; exact hroom) hl
  refine ⟨_, (t.m_hash.reader, t), ?_, hh, hlen, hlt, g1, ?_, ?_⟩
  · unfold operator_shl_Sha256 serialize
    rw [hh]
    simp only []
    rw [serialize_loop_bytes fuel _ p hlt]
  · rw [g1, List.length_append, hfl]
  · rw [g2, hfl]

/-- C31, on a new engine and an empty stream of the capacity 64. -/
theorem C31_digest_as_text_witness :
    ∃ (q : DArray) (r : ArraySpan × Sha256),
      operator_shl_Sha256 (0 + 128) (DArrayContainer 64) Sha256.new = some (q, r.2) ∧
      Sha256.hash (0 + 128) Sha256.new = some r ∧
      r.1.elems.length = 32 ∧ (∀ b ∈ r.1.elems, b < 256) ∧
      q.reader.elems
        = (DArrayContainer 64).reader.elems
          ++ r.1.elems.flatMap (fun b => [hexDigit (b / 16), hexDigit (b % 16)]) ∧
      q.reader.elems.length = (DArrayContainer 64).reader.elems.length + 64 ∧
      q.idx.m_current = (DArrayContainer 64).idx.m_current + 64 :=
  C31_digest_as_text Sha256.new (DArrayContainer 64) 0 Reachable.new (by decide) (by decide)
    (by decide)

/-- C32. Number formatting: for a value `v` from 0 to `2 ^ 63 - 1`, a base from 2 to
16, `DIGITS` up to 127, and `d` the number of digits of `v` in the base (`v` is below
the power `d` of the base, and `d` is 1 or `v` is at least the power `d - 1`),
`serialize` sends into a stream with room for them exactly `max(DIGITS, d)`
characters: `DIGITS - d` times `SPACE` (none when `d` is larger), then the `d` digits
of `v`, most significant first, in lowercase. -/
theorem C32_number_formatting (DIGITS BASIS SPACE v d fuel : Nat) (p : DArray)
    (hv : v < 2 ^ 63) (hB : 2 ≤ BASIS) (hB16 : BASIS ≤ 16) (hD : DIGITS ≤ 127)
    (hd1 : v < BASIS ^ d) (hd2 : d = 1 ∨ BASIS ^ (d - 1) ≤ v)
    (hb : p.idx.m_begin = 0) (hroom : p.idx.m_current + Nat.max DIGITS d ≤ p.idx.m_end)
    (hl : p.idx.m_end < p.m_array.length) :
    1 ≤ d ∧ d = Nat.log BASIS v + 1 ∧
    (msdDigits BASIS (d - 1) v).length = d ∧
    (∀ x ∈ msdDigits BASIS (d - 1) v, x < BASIS) ∧
    (v ≠ 0 → (msdDigits BASIS (d - 1) v).reverse = Nat.digits BASIS v) ∧
    ∃ q : DArray,
      Scalar.serialize (fuel + 128) DIGITS BASIS SPACE (v : Int) p = some q ∧
      q.reader.elems
        = p.reader.elems ++ (List.replicate (DIGITS - d) SPACE
            ++ (msdDigits BASIS (d - 1) v).map hexDigit) ∧
      q.reader.elems.length = p.reader.elems.length + Nat.max DIGITS d ∧
      q.idx.m_current = p.idx.m_current + Nat.max DIGITS d := by
  obtain ⟨e, hd⟩ := log_of_digits BASIS v d hd1 hd2
  have ed : d = Nat.log BASIS v + 1 := by omega
  have hlen : (List.replicate (DIGITS - d) SPACE
      ++ (msdDigits BASIS (d - 1) v).map hexDigit).length = Nat.max DIGITS d := by
    rw [List.length_append, List.length_replicate, List.length_map, msdDigits_length]
    show _ = if _ ≤ _ then _ else _
    split_ifs <;> omega
  obtain ⟨g1, g2⟩ := reader_foldl_putIn
    (List.replicate (DIGITS - d) SPACE ++ (msdDigits BASIS (d - 1) v).map hexDigit) p hb
    (by rw [hlen]; exact hroom) hl
  refine ⟨hd, ed, by rw [msdDigits_length]; omega, msdDigits_lt BASIS (by omega) _ _, ?_,
    _, ?_, g1, ?_, ?_⟩
  · intro hv0
    apply msdDigits_eq_digits BASIS hB
    · rcases hd2 with h | h
      · subst h
        simp only [Nat.sub_self, pow_zero]
        omega
      · exact h
    · rw [show d - 1 + 1 = d by omega]
      exact hd1
  · rw [Scalar.serialize_eq DIGITS BASIS SPACE v fuel p hv hB hB16 hD, e]
    rw [show d - 1 + 1 = d by omega]
  · rw [g1, List.length_append, hlen]
  · rw [g2, hlen]

/-- C32, for the value 420 as `Scalar<4, 8>`, which sends "0644", and for the value
1234567 as `Scalar<3, 10>`, which sends its seven digits. -/
theorem C32_number_formatting_witness :
    (∃ q : DArray,
      Scalar.serialize (0 + 128) 4 8 48 ((420 : Nat) : Int) (DArrayContainer 20) = some q ∧
      q.reader.elems
        = (DArrayContainer 20).reader.elems ++ (List.replicate (4 - 3) 48
            ++ (msdDigits 8 (3 - 1) 420).map hexDigit) ∧
      q.reader.elems.length = (DArrayContainer 20).reader.elems.length + Nat.max 4 3 ∧
      q.idx.m_current = (DArrayContainer 20).idx.m_current + Nat.max 4 3) ∧
    (∃ q : DArray,
      Scalar.serialize (0 + 128) 3 10 48 ((1234567 : Nat) : Int) (DArrayContainer 20) = some q ∧
      q.reader.elems
        = (DArrayContainer 20).reader.elems ++ (List.replicate (3 - 7) 48
            ++ (msdDigits 10 (7 - 1) 1234567).map hexDigit) ∧
      q.reader.elems.length = (DArrayContainer 20).reader.elems.length + Nat.max 3 7 ∧
      q.idx.m_current = (DArrayContainer 20).idx.m_current + Nat.max 3 7) :=
  ⟨(C32_number_formatting 4 8 48 420 3 0 (DArrayContainer 20) (by decide) (by decide)
      (by decide) (by decide) (by decide) (Or.inr (by decide)) (by decide) (by decide)
      (by decide)).2.2.2.2.2,
   (C32_number_formatting 3 10 48 1234567 7 0 (DArrayContainer 20) (by decide) (by decide)
      (by decide) (by decide) (by decide) (Or.inr (by decide)) (by decide) (by decide)
      (by decide)).2.2.2.2.2⟩

/-- C33. An `Array` over a C array of `SIZE` elements spans the offsets 0 to
`SIZE - 1`, so the first `SIZE - 1` elements; `valueOf` of a `KeyPairs` over a table
returns the value of the first pair with the key among all pairs but the last, and
the default value when there is none; so in `fileTypName` the key `DT_WHT`, which is
in the last pair of `fileTypeList` only, has the default value "??? " and not "WHT ",
while the keys of the seven pairs before it have their values. -/
theorem C33_array_without_last {T1 T2 : Type} [DecidableEq T1] (t : KeyPairs T1 T2) (k : T1) :
    (Array.span t.p_a.length).m_begin = 0 ∧
    (Array.span t.p_a.length).m_end = t.p_a.length - 1 ∧
    t.elems = t.p_a.take (t.p_a.length - 1) ∧
    t.valueOf k
      = (match (t.p_a.take (t.p_a.length - 1)).find? (fun e => decide (e.key = k)) with
        | some e => e.value
        | none => t.m_default.value) ∧
    ((∀ e ∈ t.p_a.take (t.p_a.length - 1), e.key ≠ k) → t.valueOf k = t.m_default.value) ∧
    fileTypeList.length = 8 ∧
    fileTypeList.getLast? = some ⟨FileType.DT_WHT, cWHT⟩ ∧
    fileTypName.valueOf FileType.DT_WHT = cUNKNOWN ∧ cUNKNOWN ≠ cWHT ∧
    fileTypName.valueOf FileType.DT_FIFO = cFIFO ∧ fileTypName.valueOf FileType.DT_LNK = cLNK ∧
    fileTypName.valueOf FileType.DT_CHR = cCHR ∧ fileTypName.valueOf FileType.DT_DIR = cDIR ∧
    fileTypName.valueOf FileType.DT_BLK = cBLK ∧ fileTypName.valueOf FileType.DT_REG = cFILE ∧
    fileTypName.valueOf FileType.DT_SOCK = cSOCK ∧
    fileTypName.valueOf FileType.DT_UNKNOWN = cUNKNOWN := by
  have hs : (Array.span t.p_a.length).m_begin = 0
      ∧ (Array.span t.p_a.length).m_end = t.p_a.length - 1 := by
    unfold Array.span Span.mk2 min max
    constructor <;> simp only [] <;> split_ifs <;> omega
  have he : t.elems = t.p_a.take (t.p_a.length - 1) := by
    unfold KeyPairs.elems
    rw [hs.1, hs.2]
    simp
  have hv : t.valueOf k
      = (match (t.p_a.take (t.p_a.length - 1)).find? (fun e => decide (e.key = k)) with
        | some e => e.value
        | none => t.m_default.value) := by
    unfold KeyPairs.valueOf
    rw [he, valueOf_loop_eq]
  refine ⟨hs.1, hs.2, he, hv, ?_, rfl, rfl, rfl, by decide, rfl, rfl, rfl, rfl, rfl, rfl, rfl,
    rfl⟩
  intro hne
  rw [hv]
  have : (t.p_a.take (t.p_a.length - 1)).find? (fun e => decide (e.key = k)) = none := by
    rw [List.find?_eq_none]
    intro e he2
    simpa using hne e he2
  rw [this]

end Sha256files
